import Mathlib

/-!
# Attribute (src/attribute.js): a shallow embedding

The module mixes `initAttrs`, `get`, `set` and `change` into a host object.
Below, every function of the module is translated into a Lean function of the
same name, and the statements of the specification are proved about them.

## Modelling conventions

* `Val` is the universe of JavaScript values the module handles: `undefined`,
  `null`, booleans, numbers, strings, functions, arrays and object literals.
  Numbers are the integers (rendered in decimal, as JavaScript renders safe
  integers) together with `NaN`. Dates, regular expressions and wrapper objects
  are not represented, so the corresponding branches of `isEqual` have no
  value that reaches them.
* Arrays, objects and functions carry an identity (`id`): `===` on them is
  reference equality, hence a comparison of identities. A function allocating
  a fresh array or object takes the next free identity `n` and returns the
  counter advanced; in-place mutation keeps the identity of the mutated
  object. Values are finite trees, so no object contains itself.
* An object is the list of its own enumerable members in enumeration
  (insertion) order, `lookupProp` reading the first binding of a name; an
  object binds a name once, which the statements ask of their inputs where it
  matters. Names that are array indices, which JavaScript enumerates before
  the others, are not treated apart. Objects are assumed not to redefine
  `toString` or `valueOf`.
* The functions of the embedding read and test own members. The source reads
  `now[key]` (line 75 of `set`) and `receiver[key]` (`merge`) and calls
  `attrs.hasOwnProperty` and `supplier.hasOwnProperty` through the prototype
  chain, where a name of `Object.prototype` is found although no own member
  has it; `chainRead` is that read. The two reads agree on every name outside
  `objectPrototypeNames` (`chainRead_of_ordinary`), and the statements about
  unknown keys, about `merge` and about the mapping form of `set` are made
  for such names.
* A function value carries its source text (what `String(f)` returns) and is
  interpreted by an environment `F : Nat → Val → String → Val` giving, for the
  function of identity `i`, its result on `(val, key)`: getters and setters
  are pure and total. Calling a value that is not a function raises a
  `TypeError`.
* `trigger` (the event emitter the host provides) appends the event to the
  trace `Host.events`; handlers are not run. `on` records the subscription.
* An exception is returned together with the state the host is left in.
* The calls of setters are a trace of the host, as the events are:
  `callSetter`, the call of line 84 of `set` (the one call of a setter in the
  module), adds the key and the value passed to `Host.setterCalls`.
-/

namespace Attribute

/-- JavaScript values. -/
inductive Val where
  | undefined
  | null
  | bool (b : Bool)
  | num (n : Int)
  | nan
  | str (s : String)
  | fn (id : Nat) (src : String)
  | arr (id : Nat) (xs : List Val)
  | obj (id : Nat) (ms : List (String × Val))

/-- Own enumerable members of an object, in enumeration order. -/
abbrev Members := List (String × Val)

instance : Inhabited Val := ⟨Val.undefined⟩

/-- The read `o[key]` on a member list: the bound value, `undefined` when `key` is absent. -/
def lookupProp : Members → String → Val
  | [], _ => Val.undefined
  | (k, v) :: rest, key => if k = key then v else lookupProp rest key

/-- The test `o.hasOwnProperty(key)` on a member list. -/
def hasOwn : Members → String → Bool
  | [], _ => false
  | (k, _) :: rest, key => if k = key then true else hasOwn rest key

/-- The names of the members of `Object.prototype`, which every object literal inherits. -/
def objectPrototypeNames : List String :=
  ["constructor", "hasOwnProperty", "isPrototypeOf", "propertyIsEnumerable",
    "toLocaleString", "toString", "valueOf", "__proto__", "__defineGetter__",
    "__defineSetter__", "__lookupGetter__", "__lookupSetter__"]

/-- The read `o[key]` on an object literal of own members `ms` as JavaScript performs it,
through the prototype chain: the own member, else the member inherited from
`Object.prototype` (the prototype object itself for `__proto__`, a built-in function for
the other names), else `undefined`. -/
def chainRead (ms : Members) (key : String) : Val :=
  if hasOwn ms key then lookupProp ms key
  else if key = "__proto__" then Val.obj 0 []
  else if key ∈ objectPrototypeNames then
    Val.fn 0 ("function " ++ key ++ "() \x7b [native code] \x7d")
  else Val.undefined

/-- The write `o[key] = value` on a member list: an existing member keeps its place, a new
one is added last. -/
def assign {β : Type} : List (String × β) → String → β → List (String × β)
  | [], key, value => [(key, value)]
  | (k, v) :: rest, key, value =>
    if k = key then (k, value) :: rest else (k, v) :: assign rest key value

/-- The read `v[key]` on a value; the values that are not objects have no member the module
reads. -/
def Val.prop : Val → String → Val
  | Val.obj _ ms, key => lookupProp ms key
  | _, _ => Val.undefined

/-- The write `v[key] = value` on a value (ignored on a value that is not an object). -/
def Val.setProp : Val → String → Val → Val
  | Val.obj i ms, key, value => Val.obj i (assign ms key value)
  | v, _, _ => v

/-- Indexed members of an array: `(toString i, xs[i])` from index `i` on. -/
def indexed : Nat → List Val → Members
  | _, [] => []
  | i, x :: rest => (toString i, x) :: indexed (i + 1) rest

/-- The members a `for (key in v)` loop filtered by `hasOwnProperty` visits. -/
def ownEntries : Val → Members
  | Val.obj _ ms => ms
  | Val.arr _ xs => indexed 0 xs
  | _ => []

/-- Truthiness: `!!v`. -/
def truthy : Val → Bool
  | Val.undefined => false
  | Val.null => false
  | Val.bool b => b
  | Val.num n => n != 0
  | Val.nan => false
  | Val.str s => s != ""
  | Val.fn _ _ => true
  | Val.arr _ _ => true
  | Val.obj _ _ => true

/-- The class name `Object.prototype.toString.call(v)`. -/
def toStringCall : Val → String
  | Val.undefined => "[object Undefined]"
  | Val.null => "[object Null]"
  | Val.bool _ => "[object Boolean]"
  | Val.num _ => "[object Number]"
  | Val.nan => "[object Number]"
  | Val.str _ => "[object String]"
  | Val.fn _ _ => "[object Function]"
  | Val.arr _ _ => "[object Array]"
  | Val.obj _ _ => "[object Object]"

/-- The operator `typeof v`. -/
def typeOf : Val → String
  | Val.undefined => "undefined"
  | Val.null => "object"
  | Val.bool _ => "boolean"
  | Val.num _ => "number"
  | Val.nan => "number"
  | Val.str _ => "string"
  | Val.fn _ _ => "function"
  | Val.arr _ _ => "object"
  | Val.obj _ _ => "object"

/-- Strict equality `a === b`: by value on primitives (`NaN` differs from itself), by
identity on functions, arrays and objects. -/
def strictEq : Val → Val → Bool
  | Val.undefined, Val.undefined => true
  | Val.null, Val.null => true
  | Val.bool a, Val.bool b => a == b
  | Val.num a, Val.num b => a == b
  | Val.str a, Val.str b => a == b
  | Val.fn i _, Val.fn j _ => i == j
  | Val.arr i _, Val.arr j _ => i == j
  | Val.obj i _, Val.obj j _ => i == j
  | _, _ => false

/-- The test `isArray(val)`. -/
def isArray (val : Val) : Bool :=
  toStringCall val == "[object Array]"

/-- The test `isString(val)`. -/
def isString (val : Val) : Bool :=
  toStringCall val == "[object String]"

/-- The test `o != null && o == o.window`. An object is loosely equal to its `window` member
when that member is the object itself, which no finite tree is, or when it is the string
the object converts to. -/
def isWindow : Val → Bool
  | Val.obj _ ms =>
    match lookupProp ms "window" with
    | Val.str s => s == "[object Object]"
    | _ => false
  | _ => false

/-- The test `isPlainObject(o)`. The `constructor` test and the final own-member test pass on
every object literal. -/
def isPlainObject (o : Val) : Bool :=
  if !truthy o || toStringCall o != "[object Object]" ||
      truthy (o.prop "nodeType") || isWindow o then false
  else true

/-- The test `isEmptyObject(o)`, on the members of `o`: there is no own member. -/
def isEmptyObject (o : Members) : Bool :=
  o.isEmpty

/-- The value `v.length` of a string or an array. -/
def lengthOf : Val → Nat
  | Val.str s => s.length
  | Val.arr _ xs => xs.length
  | _ => 0

mutual
/-- The loop body of `merge` on one supplier value (lines 194-205): an array is sliced, a
plain object is merged into `prev` (the receiver's member, replaced by a fresh `{}` when it
is not a plain object), any other value is kept. -/
def mergeValue (prev : Val) : Val → Nat → Val × Nat
  | Val.arr _ xs, n => (Val.arr n xs, n + 1)
  | Val.obj i ms, n =>
    if isPlainObject (Val.obj i ms) then
      match prev with
      | Val.obj p pms =>
        if isPlainObject (Val.obj p pms) then
          let r := merge pms ms n
          (Val.obj p r.1, r.2)
        else
          let r := merge [] ms (n + 1)
          (Val.obj n r.1, r.2)
      | _ =>
        let r := merge [] ms (n + 1)
        (Val.obj n r.1, r.2)
    else (Val.obj i ms, n)
  | v, n => (v, n)
/-- The function `merge(receiver, supplier)` on the members of the two objects, `n` being
the next free identity: the receiver's members after the loop, and the counter. The read
`receiver[key]` and the test `supplier.hasOwnProperty(key)` are those of own members (the
source goes through the prototype chain, see `chainRead`: an own member `__proto__` of the
supplier is merged into `Object.prototype`, and an own member `hasOwnProperty` replaces the
test). -/
def merge (receiver : Members) : Members → Nat → Members × Nat
  | [], n => (receiver, n)
  | (key, value) :: rest, n =>
    let r := mergeValue (lookupProp receiver key) value n
    merge (assign receiver key r.1) rest r.2
end

/-- The function `keys(o)`: the names of the own members. -/
def keys (o : Val) : List Val :=
  (ownEntries o).map (fun m => Val.str m.1)

/-- The function `ucfirst(str)`; `toUpperCase` is taken on the letters `a` to `z`. -/
def ucfirst (str : String) : String :=
  match str.data with
  | [] => ""
  | c :: cs => String.mk (c.toUpper :: cs)

/-- The member names that make a plain object a declaration. -/
def ATTR_SPECIAL_KEYS : List String := ["value", "getter", "setter", "readOnly"]

/-- The test `hasOwnProperties(object, properties)`: some listed name is an own member. -/
def hasOwnProperties (object : Val) : List String → Bool
  | [] => false
  | p :: rest => if hasOwn (ownEntries object) p then true else hasOwnProperties object rest

/-- The loop of `normalize` over the cloned `attrs`. -/
def normalizeLoop (isUserValue : Bool) : Members → Nat → Members × Nat
  | [], n => ([], n)
  | (key, attr) :: rest, n =>
    if isPlainObject attr && !isUserValue && hasOwnProperties attr ATTR_SPECIAL_KEYS then
      let r := normalizeLoop isUserValue rest n
      ((key, attr) :: r.1, r.2)
    else
      let r := normalizeLoop isUserValue rest (n + 1)
      ((key, Val.obj n [("value", attr)]) :: r.1, r.2)

/-- The function `normalize(attrs, isUserValue)`: the clone of `attrs` with every entry a
declaration, and the counter. -/
def normalize (attrs : Members) (isUserValue : Bool) (n : Nat) : Members × Nat :=
  let c := merge [] attrs n
  normalizeLoop isUserValue c.1 c.2

/-- The test `isEmptyAttrValue(o)`: `null`, `undefined`, `''`, `[]` or `{}`. -/
def isEmptyAttrValue (o : Val) : Bool :=
  (strictEq o Val.undefined || strictEq o Val.null) ||
    ((isString o || isArray o) && lengthOf o == 0) ||
    (isPlainObject o && isEmptyObject (ownEntries o))

mutual
/-- The text of an array element inside `join`: empty for `undefined` and `null`, `String(v)`
for any other element; on an array this is `v.toString()`. -/
def elemToString : Val → String
  | Val.undefined => ""
  | Val.null => ""
  | Val.bool b => if b then "true" else "false"
  | Val.num n => toString n
  | Val.nan => "NaN"
  | Val.str s => s
  | Val.fn _ src => src
  | Val.arr _ xs => arrayToString xs
  | Val.obj _ _ => "[object Object]"
/-- The rendering `xs.toString()` of an array: its elements joined by commas. -/
def arrayToString : List Val → String
  | [] => ""
  | x :: rest => elemToString x ++ joinTail rest
/-- The rest of a `join`: every element preceded by a comma. -/
def joinTail : List Val → String
  | [] => ""
  | x :: rest => "," ++ elemToString x ++ joinTail rest
end

/-- The test of a list of characters beginning with `pat`. -/
def startsWith : List Char → List Char → Bool
  | [], _ => true
  | _ :: _, [] => false
  | p :: ps, c :: cs => p == c && startsWith ps cs

/-- The test `s.indexOf(pat) !== -1` on lists of characters. -/
def hasSubstr (pat : List Char) : List Char → Bool
  | [] => startsWith pat []
  | c :: cs => startsWith pat (c :: cs) || hasSubstr pat cs

/-- The test `s.indexOf('[object') === -1`. -/
def noObjectMark (s : String) : Bool :=
  !hasSubstr "[object".data s.data

/-- The `[object Number]` case of `isEqual`: two `NaN` are equal, other numbers by value. -/
def numberEq : Val → Val → Bool
  | Val.nan, Val.nan => true
  | Val.num a, Val.num b => a == b
  | _, _ => false

/-- The body of `isEqual(a, b)`, the recursive call being `again`. -/
def isEqualWith (again : Val → Val → Bool) (a b : Val) : Bool :=
  if strictEq a b then true
  else if isEmptyAttrValue a && isEmptyAttrValue b then true
  else
    let className := toStringCall a
    if className != toStringCall b then false
    else if className == "[object String]" then
      elemToString a == elemToString b
    else if className == "[object Number]" then numberEq a b
    else if className == "[object Boolean]" then
      truthy a == truthy b
    else if className == "[object Array]" then
      let aString := elemToString a
      let bString := elemToString b
      noObjectMark aString && noObjectMark bString && aString == bString
    else if typeOf a != "object" || typeOf b != "object" then false
    else if isPlainObject a && isPlainObject b then
      if !again (Val.arr 0 (keys a)) (Val.arr 1 (keys b)) then false
      else (ownEntries a).all (fun m => strictEq (a.prop m.1) (b.prop m.1))
    else false

/-- The function `isEqual(a, b)`. Its only recursive call compares the two arrays of member
names, which ends in the array case; the two arrays are fresh, so they are given two
distinct identities. -/
def isEqual (a b : Val) : Bool :=
  isEqualWith (isEqualWith (fun _ _ => false)) a b

/-- Exceptions: `new Error(message)`, and the `TypeError` of calling a value that is not a
function. -/
inductive Err where
  | error (message : String)
  | typeError

/-- A call `host.trigger(name, args...)`. -/
structure Event where
  name : String
  args : List Val

/-- One level of the class chain: a prototype, with its own `attrs` member (if it has one)
and its other own members, among which the special properties are looked up. -/
structure Proto where
  attrs : Option Members
  props : Members

/-- The host object: `attrs` is `this.attrs`, `changedAttrs` is `this.__changedAttrs`
(`none` when the member is absent) binding a key to the pair `[val, prev]`,
`initializingAttrs` is `this.__initializingAttrs`, `events` the calls of `trigger` so far,
`handlers` the subscriptions made through `on`, `props` the other own members,
`propsInAttrs` the value of `this.propsInAttrs || []`, `protos` the chain
`constructor.prototype`, `constructor.superclass`, ..., `nextId` the next free
identity, and `setterCalls` the calls of setters made so far (line 84 of `set`), each as
the pair of the key and the value passed. -/
structure Host where
  attrs : Members
  changedAttrs : Option (List (String × Val × Val))
  initializingAttrs : Bool
  events : List Event
  handlers : List (String × Val)
  props : Members
  propsInAttrs : List String
  protos : List Proto
  nextId : Nat
  setterCalls : List (String × Val)

/-- What a method call results in: it returns (the host is `this`), or it throws, leaving
the host in the given state. -/
inductive Result where
  | ok (host : Host)
  | throws (e : Err) (host : Host)

/-- The host a call leaves behind, whether it returned or threw. -/
def Result.host : Result → Host
  | Result.ok h => h
  | Result.throws _ h => h

/-- The call `f.call(this, val, key)`. -/
def call (F : Nat → Val → String → Val) (f val : Val) (key : String) : Except Err Val :=
  match f with
  | Val.fn i _ => Except.ok (F i val key)
  | _ => Except.error Err.typeError

/-- The method `get(key)`. The `{}` standing in for a missing declaration is dropped when
`get` returns. -/
def get (F : Nat → Val → String → Val) (h : Host) (key : String) : Except Err Val :=
  let attr := if truthy (lookupProp h.attrs key) then lookupProp h.attrs key
    else Val.obj h.nextId []
  let val := attr.prop "value"
  if truthy (attr.prop "getter") then call F (attr.prop "getter") val key else Except.ok val

/-- The call `this.trigger(name, args...)`: the event joins the trace. -/
def trigger (h : Host) (name : String) (args : List Val) : Host :=
  { h with events := h.events ++ [⟨name, args⟩] }

/-- Lines 93-95 of `set`: the value to store, `n` being the next free identity. Unless
`override` is set, two plain objects are merged into a fresh object. -/
def mergedVal (override prev val : Val) (n : Nat) : Val × Nat :=
  if !truthy override && isPlainObject prev && isPlainObject val then
    let c := merge [] (ownEntries prev) (n + 1)
    let m := merge c.1 (ownEntries val) c.2
    (Val.obj n m.1, m.2)
  else (val, n)

/-- Lines 97-109 of `set`: the value is stored, then the change is recorded or emitted. -/
def commit (silent : Val) (h : Host) (key : String) (prev : Val) (r : Val × Nat) : Host :=
  let h2 := { h with
    attrs := assign h.attrs key ((lookupProp h.attrs key).setProp "value" r.1),
    nextId := r.2 }
  if !h2.initializingAttrs && !isEqual prev r.1 then
    if truthy silent then
      { h2 with changedAttrs := some (assign (h2.changedAttrs.getD []) key (r.1, prev)) }
    else trigger h2 ("change:" ++ key) [r.1, prev, Val.str key]
  else h2

/-- Line 75 of `set`: `now[key] || (now[key] = {})`, the read `now[key]` being the read of
an own slot (the source reads through the prototype chain, see `chainRead`: for a key that
names a member of `Object.prototype` and has no slot, the source finds that member and
creates nothing). -/
def ensureSlot (h : Host) (key : String) : Host :=
  if truthy (lookupProp h.attrs key) then h
  else { h with attrs := assign h.attrs key (Val.obj h.nextId []), nextId := h.nextId + 1 }

/-- The call `attr.setter.call(this, val, key)` of line 84: the result of the setter, and
the host with the call added to `setterCalls`. -/
def callSetter (F : Nat → Val → String → Val) (h : Host) (f val : Val) (key : String) :
    Except Err (Val × Host) :=
  match f with
  | Val.fn i _ =>
    Except.ok (F i val key, { h with setterCalls := h.setterCalls ++ [(key, val)] })
  | _ => Except.error Err.typeError

/-- The body of the loop of `set` for one key (lines 75-109). -/
def setKey (F : Nat → Val → String → Val) (silent override : Val) (h : Host) (key : String)
    (v : Val) : Result :=
  let h1 := ensureSlot h key
  let attr := lookupProp h1.attrs key
  if truthy (attr.prop "readOnly") then
    Result.throws (Err.error ("This attribute is readOnly: " ++ key)) h1
  else
    match (if truthy (attr.prop "setter") then callSetter F h1 (attr.prop "setter") v key
      else Except.ok (v, h1)) with
    | Except.error e => Result.throws e h1
    | Except.ok (val, h2) =>
      match get F h2 key with
      | Except.error e => Result.throws e h2
      | Except.ok prev =>
        Result.ok (commit silent h2 key prev (mergedVal override prev val h2.nextId))

/-- The loop of `set` over the keys of `attrs`; an exception ends it. -/
def setLoop (F : Nat → Val → String → Val) (silent override : Val) : Host → Members → Result
  | h, [] => Result.ok h
  | h, (key, val) :: rest =>
    match setKey F silent override h key val with
    | Result.ok h1 => setLoop F silent override h1 rest
    | Result.throws e h1 => Result.throws e h1

/-- The method `set(key, val, options)`, and `set(attrs, options)` when `key` is not a
string. -/
def set (F : Nat → Val → String → Val) (h : Host) (key val options : Val) : Result :=
  let attrs : Members :=
    match key with
    | Val.str s => [(s, val)]
    | _ => ownEntries key
  let options := if isString key then options else val
  let options := if truthy options then options else Val.obj h.nextId []
  let silent := options.prop "silent"
  let override := options.prop "override"
  setLoop F silent override { h with changedAttrs := some (h.changedAttrs.getD []) } attrs

/-- The method `change()`. -/
def change (h : Host) : Host :=
  match h.changedAttrs with
  | some changed =>
    let h1 := changed.foldl
      (fun acc e => trigger acc ("change:" ++ e.1) [e.2.1, e.2.2, Val.str e.1]) h
    { h1 with changedAttrs := none }
  | none => h

/-- The function `copySpecialProps(specialProps, receiver, supplier)`, without
`isAttr2Prop`. -/
def copySpecialProps : List String → Members → Members → Members
  | [], receiver, _ => receiver
  | key :: rest, receiver, supplier =>
    copySpecialProps rest
      (if hasOwn supplier key then assign receiver key (lookupProp supplier key)
        else receiver) supplier

/-- The call `copySpecialProps(specialProps, this, this.attrs, true)`: the receiver is the
host, every copied value is read through `get`. -/
def copySpecialPropsToHost (F : Nat → Val → String → Val) : List String → Host → Result
  | [], h => Result.ok h
  | key :: rest, h =>
    if hasOwn h.attrs key then
      match get F h key with
      | Except.ok v => copySpecialPropsToHost F rest { h with props := assign h.props key v }
      | Except.error e => Result.throws e h
    else copySpecialPropsToHost F rest h

/-- The `while` loop of `getInheritedAttrs`: `inherited` after walking the chain from
`proto` up. The members the loop writes on the prototypes are not kept. -/
def collectAttrs (specialProps : List String) : List Proto → List Members → List Members
  | [], inherited => inherited
  | proto :: up, inherited =>
    let attrs := copySpecialProps specialProps (proto.attrs.getD []) proto.props
    collectAttrs specialProps up (if !isEmptyObject attrs then attrs :: inherited else inherited)

/-- The `for` loop of `getInheritedAttrs`: `result` after merging the levels from `i` on. -/
def mergeLevels : List Members → Members → Nat → Members × Nat
  | [], result, n => (result, n)
  | level :: rest, result, n =>
    let z := normalize level false n
    let r := merge result z.1 z.2
    mergeLevels rest r.1 r.2

/-- The function `getInheritedAttrs(instance, specialProps)`, on the class chain of the
instance: the merged declarations, and the counter. -/
def getInheritedAttrs (protos : List Proto) (specialProps : List String) (n : Nat) :
    Members × Nat :=
  mergeLevels (collectAttrs specialProps protos []) [] n

/-- The read `host[m]`: an own member, else the member of the nearest prototype. -/
def hostProp (h : Host) (m : String) : Val :=
  if hasOwn h.props m then lookupProp h.props m
  else match h.protos.find? (fun p => hasOwn p.props m) with
    | some p => lookupProp p.props m
    | none => Val.undefined

/-- The function `parseEventsFromInstance(host, attrs)`: every method `_onChange<Attr>` of
the host is subscribed to `change:<attr>`. -/
def parseEventsFromInstance : Host → Members → Host
  | host, [] => host
  | host, (attr, _) :: rest =>
    let m := "_onChange" ++ ucfirst attr
    parseEventsFromInstance
      (if truthy (hostProp host m) then
        { host with handlers := host.handlers ++ [("change:" ++ attr, hostProp host m)] }
       else host) rest

/-- The loop of `setSetterAttrs` over `userValues`, `options` being `{ silent: true }`. -/
def setSetterLoop (F : Nat → Val → String → Val) (options : Val) : Host → Members → Result
  | host, [] => Result.ok host
  | host, (key, uv) :: rest =>
    if truthy ((lookupProp host.attrs key).prop "setter") then
      match set F host (Val.str key) (uv.prop "value") options with
      | Result.ok h1 => setSetterLoop F options h1 rest
      | Result.throws e h1 => Result.throws e h1
    else setSetterLoop F options host rest

/-- The function `setSetterAttrs(host, attrs, userValues)`; `attrs` is `host.attrs`. An
exception leaves `__initializingAttrs` set. -/
def setSetterAttrs (F : Nat → Val → String → Val) (host : Host)
    (userValues : Option Members) : Result :=
  let options := Val.obj host.nextId [("silent", Val.bool true)]
  match setSetterLoop F options
      { host with initializingAttrs := true, nextId := host.nextId + 1 }
      (userValues.getD []) with
  | Result.ok h => Result.ok { h with initializingAttrs := false }
  | Result.throws e h => Result.throws e h

/-- Lines 16-18 of `initAttrs`: the clone `merge({}, inheritedAttrs)`, and the counter. -/
def inheritedClone (h : Host) : Members × Nat :=
  let inheritedAttrs := getInheritedAttrs h.protos h.propsInAttrs h.nextId
  merge [] inheritedAttrs.1 inheritedAttrs.2

/-- Line 23 of `initAttrs`: `userValues`, left undefined (`none`) without a `config`. -/
def userValues (h : Host) (config : Option Members) : Option (Members × Nat) :=
  config.map (fun c => normalize c true (inheritedClone h).2)

/-- Lines 16-25 of `initAttrs`: the `attrs` that line 32 installs, and the counter. -/
def instanceAttrs (h : Host) (config : Option Members) : Members × Nat :=
  match userValues h config with
  | some u => merge (inheritedClone h).1 u.1 u.2
  | none => inheritedClone h

/-- The method `initAttrs(config)`; `config` is `none` when the argument is missing. -/
def initAttrs (F : Nat → Val → String → Val) (h : Host) (config : Option Members) : Result :=
  let specialProps := h.propsInAttrs
  let attrs := instanceAttrs h config
  let h1 := parseEventsFromInstance h attrs.1
  let h2 := { h1 with attrs := attrs.1, nextId := attrs.2 }
  match setSetterAttrs F h2 ((userValues h config).map Prod.fst) with
  | Result.ok h3 => copySpecialPropsToHost F specialProps h3
  | Result.throws e h3 => Result.throws e h3

/-! ## Vocabulary of the statements -/

/-- The value is a function. -/
def isFn : Val → Bool
  | Val.fn _ _ => true
  | _ => false

/-- The value is an object. -/
def isObj : Val → Bool
  | Val.obj _ _ => true
  | _ => false

/-- A `getter` or `setter` member as the data model types it: missing (falsy), or a
function. -/
def callable (f : Val) : Bool :=
  !truthy f || isFn f

/-- What a callable member computes: the function applied, the input itself when the member
is missing. -/
def applyFn (F : Nat → Val → String → Val) (f v : Val) (key : String) : Val :=
  match f with
  | Val.fn i _ => F i v key
  | _ => v

/-- The host after line 84 on a slot whose `setter` member `f` is callable: the call is in
`setterCalls` when there is a setter. -/
def recordSetter (h : Host) (f : Val) (key : String) (v : Val) : Host :=
  match f with
  | Val.fn _ _ => { h with setterCalls := h.setterCalls ++ [(key, v)] }
  | _ => h

/-- An entry of `this.attrs` as the data model types it: missing, or a declaration object
whose `getter` and `setter` are callable. -/
def wellFormedSlot (a : Val) : Bool :=
  (!truthy a || isObj a) && callable (a.prop "getter") && callable (a.prop "setter")

/-- The stored value `this.attrs[key].value`. -/
def storedValue (h : Host) (key : String) : Val :=
  (lookupProp h.attrs key).prop "value"

/-- The previous value `get(key)` read by `set`, for a slot with a callable getter. -/
def previousValue (F : Nat → Val → String → Val) (h : Host) (k : String) : Val :=
  applyFn F ((lookupProp h.attrs k).prop "getter") (storedValue h k) k

/-- A slot with no getter, no setter and no read-only flag: missing, or a declaration
object whose `getter`, `setter` and `readOnly` members are falsy. -/
def plainSlot (a : Val) : Bool :=
  (!truthy a || isObj a) && !truthy (a.prop "getter") && !truthy (a.prop "setter") &&
    !truthy (a.prop "readOnly")

/-- A record that `merge` copies member by member into an equal record: its member names
are pairwise distinct, their rendering joined by commas holds no `[object`, and every
member is neither an array nor a plain object and is strictly equal to itself (it is not
`NaN`). -/
def flatRecord (v : Val) : Prop :=
  ((ownEntries v).map Prod.fst).Nodup ∧ noObjectMark (arrayToString (keys v)) = true ∧
    ∀ m ∈ ownEntries v,
      isArray m.2 = false ∧ isPlainObject m.2 = false ∧ strictEq m.2 m.2 = true

mutual
/-- The content of a value: the value with the identity of every array and object in it
forgotten. Two values of the same content differ at most by which copy they are. -/
def content : Val → Val
  | Val.arr _ xs => Val.arr 0 (contentList xs)
  | Val.obj _ ms => Val.obj 0 (contentMembers ms)
  | v => v
/-- The contents of the elements of an array. -/
def contentList : List Val → List Val
  | [] => []
  | x :: rest => content x :: contentList rest
/-- The contents of the members of an object. -/
def contentMembers : Members → Members
  | [] => []
  | (k, v) :: rest => (k, content v) :: contentMembers rest
end

mutual
/-- No object inside the value binds a member name twice, as holds of every object. -/
def distinctNames : Val → Bool
  | Val.obj _ ms => decide ((ms.map Prod.fst).Nodup) && distinctNamesIn ms
  | _ => true
/-- The members of an object all satisfy `distinctNames`. -/
def distinctNamesIn : Members → Bool
  | [] => true
  | (_, v) :: rest => distinctNames v && distinctNamesIn rest
end

mutual
/-- No record inside the value, at any depth `merge` descends to, has a member named as a
member of `Object.prototype`. -/
def ordinaryNames : Val → Bool
  | Val.obj _ ms => ordinaryNamesIn ms
  | _ => true
/-- The members of a record have ordinary names, and so have the records inside them. -/
def ordinaryNamesIn : Members → Bool
  | [] => true
  | (k, v) :: rest =>
    !objectPrototypeNames.contains k && ordinaryNames v && ordinaryNamesIn rest
end

/-- A slot after priming: the slot itself, or the slot with another `value`. -/
def primedFrom (slot after : Val) : Prop :=
  after = slot ∨ ∃ w, after = slot.setProp "value" w

/-- The value `r` is `v`, or a copy of `v` with the same elements when `v` is an array (what
`slice` returns). -/
def copyOf (r v : Val) : Prop :=
  r = v ∨ ∃ i j xs, v = Val.arr i xs ∧ r = Val.arr j xs

/-- The value a class-level declaration gives its attribute: the member `value` of a
declaration written as a plain record, the declaration itself when it is written bare. -/
def declValue (e : Val) : Val :=
  if isPlainObject e then e.prop "value" else e

/-- A class-level declaration of a value that is not a plain record, written bare (`v`) or
structured (`{value: v}`). -/
def simpleDecl (e : Val) : Prop :=
  isPlainObject e = false ∨ ∃ i v, e = Val.obj i [("value", v)] ∧ isPlainObject v = false

/-- The attribute set of one class level as `getInheritedAttrs` reads it: `proto.attrs`
(`{}` when the prototype has none of its own) after `copySpecialProps`. -/
def levelOf (specialProps : List String) (p : Proto) : Members :=
  copySpecialProps specialProps (p.attrs.getD []) p.props

/-- The class-level attribute sets of a host, most derived class first. -/
def levelsOf (h : Host) : List Members :=
  h.protos.map (levelOf h.propsInAttrs)

/-- The declaration of `k` at the most derived level that declares `k`. -/
def declaredBy (levels : List Members) (k : String) : Option Val :=
  (levels.find? (fun L => hasOwn L k)).map (fun L => lookupProp L k)

/-- Two class levels declare the same attributes with the same values, each declaration
bare or structured. -/
def sameDeclarations (L1 L2 : Members) : Prop :=
  ∀ k, hasOwn L1 k = hasOwn L2 k ∧ declValue (lookupProp L1 k) = declValue (lookupProp L2 k)

/-- The first of two partial assignments of values to names, completed by the second. -/
def overlay (top base : String → Option Val) : String → Option Val :=
  fun k =>
    match top k with
    | some v => some v
    | none => base k

/-- The values a class level declares. -/
def levelSpec (L : Members) : String → Option Val :=
  fun k => if hasOwn L k then some (declValue (lookupProp L k)) else none

/-- The values a configuration supplies. -/
def configSpec (config : Option Members) : String → Option Val :=
  fun k =>
    match config with
    | some c => if hasOwn c k then some (lookupProp c k) else none
    | none => none

/-- The values the class levels declare, the most derived level winning. -/
def inheritedSpec (levels : List Members) : String → Option Val :=
  fun k => (declaredBy levels k).map declValue

/-- An attribute set whose slots are the declarations `{value: x}`, `x` being a copy of the
value `spec` assigns to the name; the assigned values are not plain records, and a name
without assigned value has no slot. -/
def SimpleSlots (ms : Members) (spec : String → Option Val) : Prop :=
  (ms.map Prod.fst).Nodup ∧
    (∀ k v, spec k = some v →
      isPlainObject v = false ∧
        ∃ i x, lookupProp ms k = Val.obj i [("value", x)] ∧ copyOf x v) ∧
    (∀ k, spec k = none → k ∉ ms.map Prod.fst)

/-- The pending changes: the entries of `this.__changedAttrs`, none when it is absent. -/
def pendingChanges (h : Host) : List (String × Val × Val) :=
  h.changedAttrs.getD []

/-- The five empty values `undefined`, `null`, `''`, `[]` and `{}`. -/
def emptyForm : Val → Bool
  | Val.undefined => true
  | Val.null => true
  | Val.str s => s == ""
  | Val.arr _ [] => true
  | Val.obj _ [] => true
  | _ => false

/-- The single-key writes `set(k1, v1, options)`, `set(k2, v2, options)`, ... made one after
the other, each on the host the one before returned; the first that throws ends them. -/
def writeEach (F : Nat → Val → String → Val) (options : Val) : Host → Members → Result
  | h, [] => Result.ok h
  | h, (k, v) :: rest =>
    match set F h (Val.str k) v options with
    | Result.ok h1 => writeEach F options h1 rest
    | Result.throws e h1 => Result.throws e h1

/-- The event a write of `key` emits (lines 102-109): `change:key` with
`(stored, prev, key)` when the write is outside guarded initialization, `stored` is not
`isEqual` to `prev` and the write is not silent; none otherwise. -/
def changeEventOf (initializing : Bool) (silent : Val) (key : String) (prev stored : Val) :
    List Event :=
  if initializing = false ∧ isEqual prev stored = false ∧ truthy silent = false then
    [⟨"change:" ++ key, [stored, prev, Val.str key]⟩]
  else []

/-- The pending changes after a write of `key` (lines 102-109): `(stored, prev)` is recorded
under `key` when the write is outside guarded initialization, `stored` is not `isEqual` to
`prev` and the write is silent. -/
def pendingAfter (initializing : Bool) (silent : Val) (pending : List (String × Val × Val))
    (key : String) (prev stored : Val) : List (String × Val × Val) :=
  if initializing = false ∧ isEqual prev stored = false ∧ truthy silent = true then
    assign pending key (stored, prev)
  else pending

/-- The events single-key writes of the keys of `ms` emit, in order, each key going from
the value `get` returns on the host `h` to the value the host `hp` stores. -/
def changeEventsOf (F : Nat → Val → String → Val) (silent : Val) (h hp : Host) :
    Members → List Event
  | [] => []
  | (k, _) :: rest =>
    changeEventOf h.initializingAttrs silent k (previousValue F h k) (storedValue hp k) ++
      changeEventsOf F silent h hp rest

/-- The pending changes after single-key writes of the keys of `ms`, in order, each key going
from the value `get` returns on the host `h` to the value the host `hp` stores. -/
def pendingAfterAll (F : Nat → Val → String → Val) (silent : Val) (h hp : Host) :
    List (String × Val × Val) → Members → List (String × Val × Val)
  | pending, [] => pending
  | pending, (k, _) :: rest =>
    pendingAfterAll F silent h hp
      (pendingAfter h.initializingAttrs silent pending k (previousValue F h k)
        (storedValue hp k)) rest

/-! ## Example hosts -/

/-- An interpretation of functions: every function doubles a number and returns any other
value unchanged. -/
def doubling : Nat → Val → String → Val :=
  fun _ v _ =>
    match v with
    | Val.num n => Val.num (2 * n)
    | w => w

/-- A host before `initAttrs`, of the class chain `protos` (most derived class first). -/
def newHost (protos : List Proto) : Host :=
  { attrs := [], changedAttrs := none, initializingAttrs := false, events := [],
    handlers := [], props := [], propsInAttrs := [], protos := protos, nextId := 100,
    setterCalls := [] }

/-- A class declaring `{x: {value: 1, readOnly: true}}` and
`{o: {value: {a: 1, b: 2}, readOnly: true}}`. -/
def lockedProto : Proto :=
  { attrs := some [("x", Val.obj 0 [("value", Val.num 1), ("readOnly", Val.bool true)]),
      ("o", Val.obj 1 [("value", Val.obj 2 [("a", Val.num 1), ("b", Val.num 2)]),
        ("readOnly", Val.bool true)])],
    props := [] }

/-- An instance of the class `lockedProto` after `initAttrs()`. -/
def lockedHost : Host :=
  (initAttrs doubling (newHost [lockedProto]) none).host

/-- A class declaring `{a: 'x', b: 'y', e: undefined, o: {a: 1, b: 2}, k: {a: {b: 1}}}`. -/
def sampleProto : Proto :=
  { attrs := some [("a", Val.str "x"), ("b", Val.str "y"), ("e", Val.undefined),
      ("o", Val.obj 1 [("a", Val.num 1), ("b", Val.num 2)]),
      ("k", Val.obj 2 [("a", Val.obj 3 [("b", Val.num 1)])])],
    props := [] }

/-- An instance of the class `sampleProto` after `initAttrs()`. -/
def sampleHost : Host :=
  (initAttrs doubling (newHost [sampleProto]) none).host

/-- The options `{silent: true}`. -/
def silentOptions : Val :=
  Val.obj 8 [("silent", Val.bool true)]

/-- A class declaring `{n: {value: 5, setter: f}}`, where `f` doubles its input. -/
def setterProto : Proto :=
  { attrs := some [("n", Val.obj 0 [("value", Val.num 5),
      ("setter", Val.fn 1 "function (v) \x7b return v * 2; \x7d")])],
    props := [] }

/-- An ancestor class declaring `{x: 1, y: 5}`. -/
def ancestorProto : Proto :=
  { attrs := some [("x", Val.num 1), ("y", Val.num 5)], props := [] }

/-- A derived class declaring `{y: 10}`. -/
def derivedProto : Proto :=
  { attrs := some [("y", Val.num 10)], props := [] }

/-- The class `Shape`, declaring `{color: 'black', size: {value: 1}}`. -/
def shapeProto : Proto :=
  { attrs := some [("color", Val.str "black"), ("size", Val.obj 0 [("value", Val.num 1)])],
    props := [] }

/-- The class `Circle`, declaring `{size: 2}`. -/
def circleProto : Proto :=
  { attrs := some [("size", Val.num 2)], props := [] }

/-- The class `Shape` with every declaration written the other way:
`{color: {value: 'black'}, size: 1}`. -/
def shapeProtoSwapped : Proto :=
  { attrs := some [("color", Val.obj 0 [("value", Val.str "black")]), ("size", Val.num 1)],
    props := [] }

/-- The class `Circle` with its declaration written the other way: `{size: {value: 2}}`. -/
def circleProtoSwapped : Proto :=
  { attrs := some [("size", Val.obj 0 [("value", Val.num 2)])], props := [] }

/-- A mapping with a bare value and a declaration: `{color: 'red', size: {value: 1}}`. -/
def sampleAttrs : Members :=
  [("color", Val.str "red"), ("size", Val.obj 0 [("value", Val.num 1)])]

/-- A class declaring `{a: 'x', x: {value: 1, readOnly: true}, b: 'y'}`. -/
def mixedProto : Proto :=
  { attrs := some [("a", Val.str "x"),
      ("x", Val.obj 0 [("value", Val.num 1), ("readOnly", Val.bool true)]),
      ("b", Val.str "y")],
    props := [] }

/-- An instance of the class `mixedProto` after `initAttrs()`. -/
def mixedHost : Host :=
  (initAttrs doubling (newHost [mixedProto]) none).host

/-- A class declaring `{x: {value: 1, readOnly: true, getter: f}}`, where `f` doubles its
input. -/
def guardedProto : Proto :=
  { attrs := some [("x", Val.obj 0 [("value", Val.num 1), ("readOnly", Val.bool true),
      ("getter", Val.fn 1 "function (v) \x7b return v * 2; \x7d")])],
    props := [] }

/-- A class declaring `{n: {value: 5, setter: f}, m: {value: 7, setter: f, getter: f}}`,
where `f` doubles its input. -/
def pairProto : Proto :=
  { attrs := some [("n", Val.obj 0 [("value", Val.num 5),
        ("setter", Val.fn 1 "function (v) \x7b return v * 2; \x7d")]),
      ("m", Val.obj 2 [("value", Val.num 7),
        ("setter", Val.fn 1 "function (v) \x7b return v * 2; \x7d"),
        ("getter", Val.fn 1 "function (v) \x7b return v * 2; \x7d")])],
    props := [] }

/-- The receiver `{a: 1, b: 2}`. -/
def sampleReceiver : Members :=
  [("a", Val.num 1), ("b", Val.num 2)]

/-- The supplier `{b: 3, c: [1], d: {e: 2}}`. -/
def sampleSupplier : Members :=
  [("b", Val.num 3), ("c", Val.arr 5 [Val.num 1]), ("d", Val.obj 6 [("e", Val.num 2)])]

/-! ## Properties -/

/-! ### Member lists -/

theorem lookupProp_assign_same (ms : Members) (k : String) (v : Val) :
    lookupProp (assign ms k v) k = v := by
  induction ms with
  | nil => simp [assign, lookupProp]
  | cons m rest ih =>
    obtain ⟨k1, v1⟩ := m
    by_cases hk : k1 = k
    · simp [assign, lookupProp, hk]
    · simp [assign, lookupProp, hk, ih]

theorem lookupProp_assign_ne (ms : Members) (k k2 : String) (v : Val) (hne : k ≠ k2) :
    lookupProp (assign ms k v) k2 = lookupProp ms k2 := by
  induction ms with
  | nil => simp [assign, lookupProp, hne]
  | cons m rest ih =>
    obtain ⟨k1, v1⟩ := m
    by_cases hk : k1 = k
    · subst hk
      simp [assign, lookupProp, hne]
    · by_cases hk2 : k1 = k2
      · subst hk2
        simp [assign, lookupProp, hk]
      · simp [assign, lookupProp, hk, hk2, ih]

theorem prop_of_falsy (o : Val) (s : String) (hf : truthy o = false) :
    o.prop s = Val.undefined := by
  cases o <;> simp_all [Val.prop, truthy]

theorem prop_orEmpty (o : Val) (n : Nat) (s : String) :
    (if truthy o then o else Val.obj n []).prop s = o.prop s := by
  by_cases ht : truthy o = true
  · simp [ht]
  · have hf : truthy o = false := by simpa using ht
    rw [prop_of_falsy o s hf]
    simp [hf, Val.prop, lookupProp]

/-! ### `set` with a single key -/

theorem set_str (F : Nat → Val → String → Val) (h : Host) (k : String) (v options : Val) :
    set F h (Val.str k) v options =
      setKey F (options.prop "silent") (options.prop "override")
        { h with changedAttrs := some (h.changedAttrs.getD []) } k v := by
  simp only [set, isString, toStringCall, beq_self_eq_true, if_true, prop_orEmpty, setLoop]
  cases setKey F (options.prop "silent") (options.prop "override")
    { h with changedAttrs := some (h.changedAttrs.getD []) } k v <;> rfl

theorem ensureSlot_of_truthy (h : Host) (k : String)
    (ht : truthy (lookupProp h.attrs k) = true) : ensureSlot h k = h := by
  simp [ensureSlot, ht]

theorem truthy_of_prop_truthy (o : Val) (s : String) (ht : truthy (o.prop s) = true) :
    truthy o = true := by
  cases o <;> simp_all [Val.prop, truthy]

/-- C1: writing a read-only attribute fails with the read-only error; the failed call emits
no event, leaves `attrs` and the pending changes as they were, and `get` returns afterwards
what it returned before. -/
theorem set_readOnly_throws (F : Nat → Val → String → Val) (h : Host) (x : String)
    (w options : Val)
    (hro : truthy ((lookupProp h.attrs x).prop "readOnly") = true) :
    set F h (Val.str x) w options =
        Result.throws (Err.error ("This attribute is readOnly: " ++ x))
          { h with changedAttrs := some (h.changedAttrs.getD []) } ∧
      (set F h (Val.str x) w options).host.events = h.events ∧
      (set F h (Val.str x) w options).host.attrs = h.attrs ∧
      (set F h (Val.str x) w options).host.changedAttrs.getD [] = h.changedAttrs.getD [] ∧
      get F (set F h (Val.str x) w options).host x = get F h x := by
  have ht : truthy (lookupProp h.attrs x) = true := truthy_of_prop_truthy _ _ hro
  have hset : set F h (Val.str x) w options =
      Result.throws (Err.error ("This attribute is readOnly: " ++ x))
        { h with changedAttrs := some (h.changedAttrs.getD []) } := by
    rw [set_str]
    simp [setKey, ensureSlot, ht, hro]
  rw [hset]
  refine ⟨rfl, rfl, rfl, rfl, ?_⟩
  simp [Result.host, get]

theorem set_readOnly_throws_witness :
    truthy ((lookupProp lockedHost.attrs "x").prop "readOnly") = true ∧
      get doubling lockedHost "x" = Except.ok (Val.num 1) ∧
      (set doubling lockedHost (Val.str "x") (Val.num 2) Val.undefined =
          Result.throws (Err.error ("This attribute is readOnly: " ++ "x"))
            { lockedHost with changedAttrs := some (lockedHost.changedAttrs.getD []) } ∧
        (set doubling lockedHost (Val.str "x") (Val.num 2) Val.undefined).host.events =
          lockedHost.events ∧
        (set doubling lockedHost (Val.str "x") (Val.num 2) Val.undefined).host.attrs =
          lockedHost.attrs ∧
        (set doubling lockedHost (Val.str "x") (Val.num 2)
          Val.undefined).host.changedAttrs.getD [] = lockedHost.changedAttrs.getD [] ∧
        get doubling (set doubling lockedHost (Val.str "x") (Val.num 2) Val.undefined).host "x" =
          get doubling lockedHost "x") :=
  ⟨by decide, rfl,
    set_readOnly_throws doubling lockedHost "x" (Val.num 2) Val.undefined (by decide)⟩

theorem call_of_callable (F : Nat → Val → String → Val) (f v : Val) (k : String)
    (hc : callable f = true) :
    (if truthy f then call F f v k else Except.ok v) = Except.ok (applyFn F f v k) := by
  cases f <;> simp_all [callable, truthy, isFn, call, applyFn]

theorem get_eq (F : Nat → Val → String → Val) (h : Host) (k : String)
    (hg : callable ((lookupProp h.attrs k).prop "getter") = true) :
    get F h k = Except.ok
      (applyFn F ((lookupProp h.attrs k).prop "getter") (storedValue h k) k) := by
  simp only [get, prop_orEmpty, storedValue]
  exact call_of_callable F _ _ k hg

theorem prop_ensureSlot (h : Host) (k s : String) :
    (lookupProp (ensureSlot h k).attrs k).prop s = (lookupProp h.attrs k).prop s := by
  by_cases ht : truthy (lookupProp h.attrs k) = true
  · simp [ensureSlot, ht]
  · have hf : truthy (lookupProp h.attrs k) = false := by simpa using ht
    rw [prop_of_falsy _ s hf]
    simp [ensureSlot, hf, lookupProp_assign_same, Val.prop, lookupProp]

theorem mergedVal_of_not_plain (o prev val : Val) (n : Nat)
    (hp : (isPlainObject prev && isPlainObject val) = false) :
    mergedVal o prev val n = (val, n) := by
  unfold mergedVal
  have : (!truthy o && isPlainObject prev && isPlainObject val) = false := by
    rw [Bool.and_assoc, hp]
    simp
  rw [if_neg (by simp [this])]

theorem isPlainObject_of_falsy (o : Val) (hf : truthy o = false) : isPlainObject o = false := by
  simp [isPlainObject, hf]

/-- The first component of `mergedVal` does not depend on the counter when the slot was
missing: the previous value is then `undefined`. -/
theorem mergedVal_ensureSlot (o : Val) (h : Host) (k : String) (prev val : Val)
    (hprev : truthy (lookupProp h.attrs k) = false → isPlainObject prev = false) :
    (mergedVal o prev val (ensureSlot h k).nextId).1 = (mergedVal o prev val h.nextId).1 := by
  by_cases ht : truthy (lookupProp h.attrs k) = true
  · simp [ensureSlot, ht]
  · have hf : truthy (lookupProp h.attrs k) = false := by simpa using ht
    have hp := hprev hf
    rw [mergedVal_of_not_plain o prev val _ (by simp [hp]),
      mergedVal_of_not_plain o prev val _ (by simp [hp])]

theorem applyFn_of_falsy (F : Nat → Val → String → Val) (f v : Val) (k : String)
    (hf : truthy f = false) : applyFn F f v k = v := by
  cases f <;> simp_all [applyFn, truthy]

theorem callSetter_of_callable (F : Nat → Val → String → Val) (h : Host) (f v : Val)
    (k : String) (hc : callable f = true) :
    (if truthy f then callSetter F h f v k else Except.ok (v, h)) =
      Except.ok (applyFn F f v k, recordSetter h f k v) := by
  cases f <;> simp_all [callable, truthy, isFn, callSetter, applyFn, recordSetter]

theorem recordSetter_attrs (h : Host) (f : Val) (k : String) (v : Val) :
    (recordSetter h f k v).attrs = h.attrs := by
  cases f <;> rfl

theorem recordSetter_events (h : Host) (f : Val) (k : String) (v : Val) :
    (recordSetter h f k v).events = h.events := by
  cases f <;> rfl

theorem recordSetter_changedAttrs (h : Host) (f : Val) (k : String) (v : Val) :
    (recordSetter h f k v).changedAttrs = h.changedAttrs := by
  cases f <;> rfl

theorem recordSetter_initializingAttrs (h : Host) (f : Val) (k : String) (v : Val) :
    (recordSetter h f k v).initializingAttrs = h.initializingAttrs := by
  cases f <;> rfl

theorem recordSetter_nextId (h : Host) (f : Val) (k : String) (v : Val) :
    (recordSetter h f k v).nextId = h.nextId := by
  cases f <;> rfl

theorem recordSetter_of_falsy (h : Host) (f : Val) (k : String) (v : Val)
    (hf : truthy f = false) : recordSetter h f k v = h := by
  cases f <;> simp_all [recordSetter, truthy]

/-- Recording a setter call and the store of lines 97-109 touch different members of the
host. -/
theorem commit_recordSetter (s : Val) (h : Host) (f : Val) (k k2 : String) (v prev : Val)
    (r : Val × Nat) :
    commit s (recordSetter h f k v) k2 prev r = recordSetter (commit s h k2 prev r) f k v := by
  cases f <;> try rfl
  simp only [commit, recordSetter]
  split_ifs <;> rfl

theorem setKey_eq (F : Nat → Val → String → Val) (s o : Val) (h : Host) (k : String) (v : Val)
    (hro : truthy ((lookupProp h.attrs k).prop "readOnly") = false)
    (hg : callable ((lookupProp h.attrs k).prop "getter") = true)
    (hs : callable ((lookupProp h.attrs k).prop "setter") = true) :
    setKey F s o h k v =
      Result.ok (recordSetter (commit s (ensureSlot h k) k (previousValue F h k)
        (mergedVal o (previousValue F h k)
          (applyFn F ((lookupProp h.attrs k).prop "setter") v k) (ensureSlot h k).nextId))
        ((lookupProp h.attrs k).prop "setter") k v) := by
  have hg1 : callable ((lookupProp (recordSetter (ensureSlot h k)
      ((lookupProp h.attrs k).prop "setter") k v).attrs k).prop "getter") = true := by
    rw [recordSetter_attrs, prop_ensureSlot]; exact hg
  unfold setKey
  simp only [prop_ensureSlot, hro, Bool.false_eq_true, if_false,
    callSetter_of_callable F _ _ v k hs, get_eq F _ k hg1, storedValue, previousValue,
    recordSetter_attrs, recordSetter_nextId, commit_recordSetter]

theorem commit_attrs (s : Val) (h : Host) (k : String) (prev : Val) (r : Val × Nat) :
    (commit s h k prev r).attrs =
      assign h.attrs k ((lookupProp h.attrs k).setProp "value" r.1) := by
  unfold commit
  simp only []
  split_ifs <;> simp [trigger]

theorem commit_events (s : Val) (h : Host) (k : String) (prev : Val) (r : Val × Nat) :
    (commit s h k prev r).events =
      if h.initializingAttrs = false ∧ isEqual prev r.1 = false ∧ truthy s = false then
        h.events ++ [⟨"change:" ++ k, [r.1, prev, Val.str k]⟩]
      else h.events := by
  unfold commit
  simp only []
  split_ifs <;> simp_all [trigger]

theorem commit_pending (s : Val) (h : Host) (k : String) (prev : Val) (r : Val × Nat) :
    pendingChanges (commit s h k prev r) =
      if h.initializingAttrs = false ∧ isEqual prev r.1 = false ∧ truthy s = true then
        assign (pendingChanges h) k (r.1, prev)
      else pendingChanges h := by
  unfold commit pendingChanges
  simp only []
  split_ifs <;> simp_all [trigger]

theorem commit_initializingAttrs (s : Val) (h : Host) (k : String) (prev : Val)
    (r : Val × Nat) : (commit s h k prev r).initializingAttrs = h.initializingAttrs := by
  unfold commit
  simp only []
  split_ifs <;> simp [trigger]

theorem isObj_ensureSlot (h : Host) (k : String)
    (hobj : (!truthy (lookupProp h.attrs k) || isObj (lookupProp h.attrs k)) = true) :
    isObj (lookupProp (ensureSlot h k).attrs k) = true := by
  by_cases ht : truthy (lookupProp h.attrs k) = true
  · simp_all [ensureSlot]
  · have hf : truthy (lookupProp h.attrs k) = false := by simpa using ht
    simp [ensureSlot, hf, lookupProp_assign_same, isObj]

theorem prop_setProp_same (a : Val) (s : String) (v : Val) (hobj : isObj a = true) :
    (a.setProp s v).prop s = v := by
  cases a <;> simp_all [isObj, Val.setProp, Val.prop, lookupProp_assign_same]

theorem prop_setProp_ne (a : Val) (s t : String) (v : Val) (hne : s ≠ t) :
    (a.setProp s v).prop t = a.prop t := by
  cases a <;> simp [Val.setProp, Val.prop, lookupProp_assign_ne _ _ _ _ hne]

theorem storedValue_commit (s : Val) (h : Host) (k : String) (prev : Val) (r : Val × Nat)
    (hobj : isObj (lookupProp h.attrs k) = true) :
    storedValue (commit s h k prev r) k = r.1 := by
  simp [storedValue, commit_attrs, lookupProp_assign_same, prop_setProp_same _ _ _ hobj]

theorem ensureSlot_events (h : Host) (k : String) : (ensureSlot h k).events = h.events := by
  unfold ensureSlot; split_ifs <;> rfl

theorem ensureSlot_pending (h : Host) (k : String) :
    pendingChanges (ensureSlot h k) = pendingChanges h := by
  unfold ensureSlot; split_ifs <;> rfl

theorem ensureSlot_initializingAttrs (h : Host) (k : String) :
    (ensureSlot h k).initializingAttrs = h.initializingAttrs := by
  unfold ensureSlot; split_ifs <;> rfl

theorem wellFormedSlot_parts (a : Val) (hwf : wellFormedSlot a = true) :
    (!truthy a || isObj a) = true ∧ callable (a.prop "getter") = true ∧
      callable (a.prop "setter") = true := by
  simpa [wellFormedSlot, Bool.and_eq_true, and_assoc] using hwf

theorem isPlainObject_previousValue_of_falsy (F : Nat → Val → String → Val) (h : Host)
    (k : String) (hf : truthy (lookupProp h.attrs k) = false) :
    isPlainObject (previousValue F h k) = false := by
  simp [previousValue, storedValue, prop_of_falsy _ _ hf, applyFn, isPlainObject, truthy]

/-- What `set(k, v, options)` does on a slot that is not read-only: the host it returns. -/
theorem set_eq (F : Nat → Val → String → Val) (h : Host) (k : String) (v options : Val)
    (hro : truthy ((lookupProp h.attrs k).prop "readOnly") = false)
    (hwf : wellFormedSlot (lookupProp h.attrs k) = true) :
    set F h (Val.str k) v options =
      Result.ok (recordSetter (commit (options.prop "silent")
        (ensureSlot { h with changedAttrs := some (h.changedAttrs.getD []) } k) k
        (previousValue F h k)
        (mergedVal (options.prop "override") (previousValue F h k)
          (applyFn F ((lookupProp h.attrs k).prop "setter") v k)
          (ensureSlot { h with changedAttrs := some (h.changedAttrs.getD []) } k).nextId))
        ((lookupProp h.attrs k).prop "setter") k v) := by
  obtain ⟨_, hg, hs⟩ := wellFormedSlot_parts _ hwf
  rw [set_str]
  exact setKey_eq F _ _ { h with changedAttrs := some (h.changedAttrs.getD []) } k v hro hg hs

theorem storedValue_recordSetter (h : Host) (f : Val) (k k2 : String) (v : Val) :
    storedValue (recordSetter h f k v) k2 = storedValue h k2 := by
  simp only [storedValue, recordSetter_attrs]

theorem pendingChanges_recordSetter (h : Host) (f : Val) (k : String) (v : Val) :
    pendingChanges (recordSetter h f k v) = pendingChanges h := by
  simp only [pendingChanges, recordSetter_changedAttrs]

/-- C3: outside guarded initialization, a write that is not silent emits exactly the event
`change:k` with `(newValue, previous, k)` when the stored result is not `isEqual` to the
previous value and emits nothing otherwise; a silent write emits nothing and records
`(newValue, previous)` under `k` exactly when the two are not `isEqual`. -/
theorem set_emits_or_records (F : Nat → Val → String → Val) (h : Host) (k : String)
    (v options : Val)
    (hinit : h.initializingAttrs = false)
    (hro : truthy ((lookupProp h.attrs k).prop "readOnly") = false)
    (hwf : wellFormedSlot (lookupProp h.attrs k) = true) :
    ∃ h1 previous newValue,
      set F h (Val.str k) v options = Result.ok h1 ∧
      get F h k = Except.ok previous ∧
      storedValue h1 k = newValue ∧
      newValue = (mergedVal (options.prop "override") previous
        (applyFn F ((lookupProp h.attrs k).prop "setter") v k) h.nextId).1 ∧
      (truthy (options.prop "silent") = false →
        h1.events = h.events ++
            (if isEqual previous newValue then []
              else [⟨"change:" ++ k, [newValue, previous, Val.str k]⟩]) ∧
          pendingChanges h1 = pendingChanges h) ∧
      (truthy (options.prop "silent") = true →
        h1.events = h.events ∧
          pendingChanges h1 =
            if isEqual previous newValue then pendingChanges h
            else assign (pendingChanges h) k (newValue, previous)) := by
  obtain ⟨hobj, hg, hs⟩ := wellFormedSlot_parts _ hwf
  have hslot := isObj_ensureSlot { h with changedAttrs := some (h.changedAttrs.getD []) } k hobj
  have hmv := mergedVal_ensureSlot (options.prop "override")
    { h with changedAttrs := some (h.changedAttrs.getD []) } k (previousValue F h k)
    (applyFn F ((lookupProp h.attrs k).prop "setter") v k)
    (isPlainObject_previousValue_of_falsy F h k)
  have hst := storedValue_commit (options.prop "silent")
    (ensureSlot { h with changedAttrs := some (h.changedAttrs.getD []) } k) k
    (previousValue F h k)
    (mergedVal (options.prop "override") (previousValue F h k)
      (applyFn F ((lookupProp h.attrs k).prop "setter") v k)
      (ensureSlot { h with changedAttrs := some (h.changedAttrs.getD []) } k).nextId) hslot
  refine ⟨_, previousValue F h k, _, set_eq F h k v options hro hwf, get_eq F h k hg,
    by rw [storedValue_recordSetter]; exact hst, hmv, ?_, ?_⟩
  · intro hsil
    rw [recordSetter_events, pendingChanges_recordSetter, commit_events, commit_pending,
      ensureSlot_events, ensureSlot_pending, ensureSlot_initializingAttrs]
    generalize (mergedVal (options.prop "override") (previousValue F h k)
      (applyFn F ((lookupProp h.attrs k).prop "setter") v k)
      (ensureSlot { h with changedAttrs := some (h.changedAttrs.getD []) } k).nextId).1 = nv
    by_cases he : isEqual (previousValue F h k) nv = true <;>
      simp [hinit, hsil, he, pendingChanges]
  · intro hsil
    rw [recordSetter_events, pendingChanges_recordSetter, commit_events, commit_pending,
      ensureSlot_events, ensureSlot_pending, ensureSlot_initializingAttrs]
    generalize (mergedVal (options.prop "override") (previousValue F h k)
      (applyFn F ((lookupProp h.attrs k).prop "setter") v k)
      (ensureSlot { h with changedAttrs := some (h.changedAttrs.getD []) } k).nextId).1 = nv
    by_cases he : isEqual (previousValue F h k) nv = true <;>
      simp [hinit, hsil, he, pendingChanges]

theorem plainSlot_parts (a : Val) (hp : plainSlot a = true) :
    (!truthy a || isObj a) = true ∧ truthy (a.prop "getter") = false ∧
      truthy (a.prop "setter") = false ∧ truthy (a.prop "readOnly") = false := by
  simpa [plainSlot, Bool.and_eq_true, and_assoc] using hp

theorem wellFormedSlot_of_plainSlot (a : Val) (hp : plainSlot a = true) :
    wellFormedSlot a = true := by
  obtain ⟨h1, h2, h3, _⟩ := plainSlot_parts a hp
  simp only [wellFormedSlot, callable, h2, h3, Bool.not_false, Bool.true_or, Bool.and_true]
  exact h1

theorem previousValue_of_plainSlot (F : Nat → Val → String → Val) (h : Host) (k : String)
    (hp : plainSlot (lookupProp h.attrs k) = true) :
    previousValue F h k = storedValue h k := by
  obtain ⟨_, h2, _, _⟩ := plainSlot_parts _ hp
  exact applyFn_of_falsy F _ _ k h2

/-- The host `set(k, v, options)` returns on a slot without getter, setter and read-only
flag. -/
theorem set_plain (F : Nat → Val → String → Val) (h : Host) (k : String) (v options : Val)
    (hp : plainSlot (lookupProp h.attrs k) = true) :
    set F h (Val.str k) v options =
      Result.ok (commit (options.prop "silent")
        (ensureSlot { h with changedAttrs := some (h.changedAttrs.getD []) } k) k
        (storedValue h k)
        (mergedVal (options.prop "override") (storedValue h k) v
          (ensureSlot { h with changedAttrs := some (h.changedAttrs.getD []) } k).nextId)) := by
  obtain ⟨_, _, h3, h4⟩ := plainSlot_parts _ hp
  rw [set_eq F h k v options h4 (wellFormedSlot_of_plainSlot _ hp),
    previousValue_of_plainSlot F h k hp, applyFn_of_falsy F _ v k h3,
    recordSetter_of_falsy _ _ k v h3]

theorem isPlainObject_storedValue_of_falsy (h : Host) (k : String)
    (hf : truthy (lookupProp h.attrs k) = false) :
    isPlainObject (storedValue h k) = false := by
  simp [storedValue, prop_of_falsy _ _ hf, isPlainObject, truthy]

/-- The first component of the value `set` stores on a plain slot, whatever the counter. -/
theorem mergedVal_plain_fst (h : Host) (k : String) (v o : Val) :
    (mergedVal o (storedValue h k) v
      (ensureSlot { h with changedAttrs := some (h.changedAttrs.getD []) } k).nextId).1 =
      (mergedVal o (storedValue h k) v h.nextId).1 :=
  mergedVal_ensureSlot o { h with changedAttrs := some (h.changedAttrs.getD []) } k
    (storedValue h k) v (isPlainObject_storedValue_of_falsy h k)

/-- A write on a plain slot whose result is `isEqual` to the stored value: nothing is
emitted, nothing recorded, and the result is stored. -/
theorem set_plain_of_isEqual (F : Nat → Val → String → Val) (h : Host) (k : String)
    (v options : Val)
    (hp : plainSlot (lookupProp h.attrs k) = true)
    (heq : isEqual (storedValue h k)
      (mergedVal (options.prop "override") (storedValue h k) v h.nextId).1 = true) :
    ∃ h1, set F h (Val.str k) v options = Result.ok h1 ∧ h1.events = h.events ∧
      pendingChanges h1 = pendingChanges h ∧
      storedValue h1 k = (mergedVal (options.prop "override") (storedValue h k) v h.nextId).1 ∧
      plainSlot (lookupProp h1.attrs k) = true := by
  obtain ⟨hobj, h2, h3, h4⟩ := plainSlot_parts _ hp
  have hslot := isObj_ensureSlot { h with changedAttrs := some (h.changedAttrs.getD []) } k hobj
  have hfst := mergedVal_plain_fst h k v (options.prop "override")
  refine ⟨_, set_plain F h k v options hp, ?_, ?_, ?_, ?_⟩
  · rw [commit_events, hfst, heq]
    simp [ensureSlot_events]
  · rw [commit_pending, hfst, heq, ensureSlot_pending]
    simp [pendingChanges]
  · rw [storedValue_commit _ _ _ _ _ hslot, hfst]
  · rw [commit_attrs, lookupProp_assign_same]
    have hne1 : ("value" : String) ≠ "getter" := by decide
    have hne2 : ("value" : String) ≠ "setter" := by decide
    have hne3 : ("value" : String) ≠ "readOnly" := by decide
    simp only [plainSlot, prop_setProp_ne _ _ _ _ hne1, prop_setProp_ne _ _ _ _ hne2,
      prop_setProp_ne _ _ _ _ hne3, prop_ensureSlot, h2, h3, h4, Bool.not_false, Bool.and_true]
    have : isObj ((lookupProp (ensureSlot
        { h with changedAttrs := some (h.changedAttrs.getD []) } k).attrs k).setProp "value"
        (mergedVal (options.prop "override") (storedValue h k) v (ensureSlot
          { h with changedAttrs := some (h.changedAttrs.getD []) } k).nextId).1) = true := by
      revert hslot
      cases lookupProp (ensureSlot
        { h with changedAttrs := some (h.changedAttrs.getD []) } k).attrs k <;>
        simp [isObj, Val.setProp]
    simp [this]

/-! ### Empty values -/

theorem merge_nil (r : Members) (n : Nat) : merge r [] n = (r, n) := by
  simp [merge]

theorem isPlainObject_empty (i : Nat) : isPlainObject (Val.obj i []) = true := by
  simp [isPlainObject, truthy, toStringCall, Val.prop, lookupProp, isWindow]

theorem emptyForm_obj (i : Nat) (ms : Members) (h : emptyForm (Val.obj i ms) = true) :
    ms = [] := by
  cases ms with
  | nil => rfl
  | cons m rest => simp [emptyForm] at h

theorem isEmptyAttrValue_of_emptyForm (a : Val) (h : emptyForm a = true) :
    isEmptyAttrValue a = true := by
  cases a with
  | undefined => simp [isEmptyAttrValue, strictEq]
  | null => simp [isEmptyAttrValue, strictEq]
  | str s =>
    have hs : s = "" := by simpa [emptyForm] using h
    subst hs
    simp [isEmptyAttrValue, isString, toStringCall, lengthOf]
  | arr i xs =>
    cases xs with
    | nil => simp [isEmptyAttrValue, isArray, toStringCall, lengthOf]
    | cons x rest => simp [emptyForm] at h
  | obj i ms =>
    have hm := emptyForm_obj i ms h
    subst hm
    simp [isEmptyAttrValue, isPlainObject_empty, isEmptyObject, ownEntries]
  | bool b => simp [emptyForm] at h
  | num n => simp [emptyForm] at h
  | nan => simp [emptyForm] at h
  | fn i s => simp [emptyForm] at h

theorem isEqual_of_isEmptyAttrValue (a b : Val) (ha : isEmptyAttrValue a = true)
    (hb : isEmptyAttrValue b = true) : isEqual a b = true := by
  unfold isEqual isEqualWith
  simp [ha, hb]

theorem isEqual_of_emptyForm (a b : Val) (ha : emptyForm a = true) (hb : emptyForm b = true) :
    isEqual a b = true :=
  isEqual_of_isEmptyAttrValue a b (isEmptyAttrValue_of_emptyForm a ha)
    (isEmptyAttrValue_of_emptyForm b hb)

theorem emptyForm_mergedVal (o a b : Val) (n : Nat) (ha : emptyForm a = true)
    (hb : emptyForm b = true) : emptyForm (mergedVal o a b n).1 = true := by
  unfold mergedVal
  split_ifs with hc
  · simp only [Bool.and_eq_true] at hc
    obtain ⟨⟨_, hpa⟩, hpb⟩ := hc
    cases a <;> simp [isPlainObject, truthy, toStringCall] at hpa
    cases b <;> simp [isPlainObject, truthy, toStringCall] at hpb
    rename_i i ms j ms2
    have h1 := emptyForm_obj i ms ha
    have h2 := emptyForm_obj j ms2 hb
    subst h1 h2
    simp [ownEntries, merge_nil, emptyForm]
  · exact hb

/-- C5: any two of the empty values `undefined`, `null`, `''`, `[]`, `{}` are `isEqual`, so
writing one of them on a plain attribute that holds another emits no event and records no
pending change, silent or not. -/
theorem set_between_empty_values (F : Nat → Val → String → Val) (h : Host) (k : String)
    (a b options : Val)
    (ha : emptyForm a = true) (hb : emptyForm b = true)
    (hp : plainSlot (lookupProp h.attrs k) = true)
    (hcur : storedValue h k = a) :
    isEqual a b = true ∧
      ∃ h1, set F h (Val.str k) b options = Result.ok h1 ∧ h1.events = h.events ∧
        pendingChanges h1 = pendingChanges h := by
  refine ⟨isEqual_of_emptyForm a b ha hb, ?_⟩
  have heq : isEqual (storedValue h k)
      (mergedVal (options.prop "override") (storedValue h k) b h.nextId).1 = true := by
    rw [hcur]
    exact isEqual_of_emptyForm _ _ ha (emptyForm_mergedVal _ a b _ ha hb)
  obtain ⟨h1, hset, hev, hpend, _, _⟩ := set_plain_of_isEqual F h k b options hp heq
  exact ⟨h1, hset, hev, hpend⟩

theorem set_emits_or_records_witness :
    sampleHost.initializingAttrs = false ∧
      truthy ((lookupProp sampleHost.attrs "a").prop "readOnly") = false ∧
      wellFormedSlot (lookupProp sampleHost.attrs "a") = true ∧
      ∃ h1 previous newValue,
        set doubling sampleHost (Val.str "a") (Val.str "z") Val.undefined = Result.ok h1 ∧
        get doubling sampleHost "a" = Except.ok previous ∧
        storedValue h1 "a" = newValue ∧
        newValue = (mergedVal (Val.undefined.prop "override") previous
          (applyFn doubling ((lookupProp sampleHost.attrs "a").prop "setter") (Val.str "z") "a")
          sampleHost.nextId).1 ∧
        (truthy (Val.undefined.prop "silent") = false →
          h1.events = sampleHost.events ++
              (if isEqual previous newValue then []
                else [⟨"change:" ++ "a", [newValue, previous, Val.str "a"]⟩]) ∧
            pendingChanges h1 = pendingChanges sampleHost) ∧
        (truthy (Val.undefined.prop "silent") = true →
          h1.events = sampleHost.events ∧
            pendingChanges h1 =
              if isEqual previous newValue then pendingChanges sampleHost
              else assign (pendingChanges sampleHost) "a" (newValue, previous)) :=
  ⟨rfl, by decide, by decide,
    set_emits_or_records doubling sampleHost "a" (Val.str "z") Val.undefined rfl
      (by decide) (by decide)⟩

theorem set_between_empty_values_witness :
    emptyForm Val.undefined = true ∧ emptyForm (Val.obj 7 []) = true ∧
      plainSlot (lookupProp sampleHost.attrs "e") = true ∧
      storedValue sampleHost "e" = Val.undefined ∧
      (isEqual Val.undefined (Val.obj 7 []) = true ∧
        ∃ h1, set doubling sampleHost (Val.str "e") (Val.obj 7 []) Val.undefined =
            Result.ok h1 ∧ h1.events = sampleHost.events ∧
          pendingChanges h1 = pendingChanges sampleHost) :=
  ⟨rfl, rfl, by decide, rfl,
    set_between_empty_values doubling sampleHost "e" Val.undefined (Val.obj 7 []) Val.undefined
      rfl rfl (by decide) rfl⟩

/-! ### Writes that change nothing -/

theorem isEqual_refl (v : Val) : isEqual v v = true := by
  cases v <;>
    simp [isEqual, isEqualWith, strictEq, isEmptyAttrValue, isString, isArray, isPlainObject,
      toStringCall, truthy, numberEq, lengthOf]

/-- C10 (as the code has it): on a plain attribute, a write whose result is `isEqual` to the
previous value emits nothing and records nothing, and the result is what is stored after
the call. -/
theorem set_equal_stores_result (F : Nat → Val → String → Val) (h : Host) (k : String)
    (v options : Val)
    (hp : plainSlot (lookupProp h.attrs k) = true)
    (heq : isEqual (storedValue h k)
      (mergedVal (options.prop "override") (storedValue h k) v h.nextId).1 = true) :
    ∃ h1, set F h (Val.str k) v options = Result.ok h1 ∧ h1.events = h.events ∧
      pendingChanges h1 = pendingChanges h ∧
      storedValue h1 k =
        (mergedVal (options.prop "override") (storedValue h k) v h.nextId).1 := by
  obtain ⟨h1, hset, hev, hpend, hst, _⟩ := set_plain_of_isEqual F h k v options hp heq
  exact ⟨h1, hset, hev, hpend, hst⟩

theorem set_equal_stores_result_witness :
    plainSlot (lookupProp sampleHost.attrs "e") = true ∧
      isEqual (storedValue sampleHost "e")
        (mergedVal (Val.undefined.prop "override") (storedValue sampleHost "e") (Val.str "")
          sampleHost.nextId).1 = true ∧
      ∃ h1, set doubling sampleHost (Val.str "e") (Val.str "") Val.undefined = Result.ok h1 ∧
        h1.events = sampleHost.events ∧ pendingChanges h1 = pendingChanges sampleHost ∧
        storedValue h1 "e" =
          (mergedVal (Val.undefined.prop "override") (storedValue sampleHost "e") (Val.str "")
            sampleHost.nextId).1 :=
  ⟨by decide, by decide,
    set_equal_stores_result doubling sampleHost "e" (Val.str "") Val.undefined (by decide)
      (by decide)⟩

/-- C10, as stated, fails: with the stored value `undefined`, `set('e', '')` is a write
whose result `''` is `isEqual` to `undefined`, and the stored value becomes `''`. -/
theorem set_equal_changes_storage :
    storedValue sampleHost "e" = Val.undefined ∧
      isEqual (storedValue sampleHost "e") (Val.str "") = true ∧
      storedValue (set doubling sampleHost (Val.str "e") (Val.str "") Val.undefined).host "e" =
        Val.str "" ∧
      storedValue (set doubling sampleHost (Val.str "e") (Val.str "") Val.undefined).host "e" ≠
        storedValue sampleHost "e" := by
  refine ⟨rfl, by decide, rfl, ?_⟩
  intro hc
  have h1 : storedValue (set doubling sampleHost (Val.str "e") (Val.str "")
      Val.undefined).host "e" = Val.str "" := rfl
  have h2 : storedValue sampleHost "e" = Val.undefined := rfl
  rw [h1, h2] at hc
  cases hc

/-! ### Merging flat records -/

theorem hasOwn_iff_mem (ms : Members) (k : String) :
    hasOwn ms k = true ↔ k ∈ ms.map Prod.fst := by
  induction ms with
  | nil => simp [hasOwn]
  | cons m rest ih =>
    obtain ⟨k1, v1⟩ := m
    by_cases hk : k1 = k
    · simp [hasOwn, hk]
    · simp only [hasOwn, hk, if_false, List.map_cons, List.mem_cons, ih]
      constructor
      · intro hm; exact Or.inr hm
      · intro hm
        rcases hm with hm | hm
        · exact absurd hm.symm hk
        · exact hm

theorem hasOwn_of_mem (ms : Members) (m : String × Val) (hm : m ∈ ms) :
    hasOwn ms m.1 = true :=
  (hasOwn_iff_mem ms m.1).2 (List.mem_map_of_mem Prod.fst hm)

theorem lookupProp_mem (ms : Members) (k : String) (hk : hasOwn ms k = true) :
    (k, lookupProp ms k) ∈ ms := by
  induction ms with
  | nil => simp [hasOwn] at hk
  | cons m rest ih =>
    obtain ⟨k1, v1⟩ := m
    by_cases hk1 : k1 = k
    · subst hk1
      simp [lookupProp]
    · simp only [hasOwn, hk1, if_false] at hk
      simp only [lookupProp, hk1, if_false, List.mem_cons]
      exact Or.inr (ih hk)

theorem lookupProp_of_mem_nodup (ms : Members) (m : String × Val) (hm : m ∈ ms)
    (hnd : (ms.map Prod.fst).Nodup) : lookupProp ms m.1 = m.2 := by
  induction ms with
  | nil => simp at hm
  | cons m1 rest ih =>
    obtain ⟨k1, v1⟩ := m1
    simp only [List.map_cons, List.nodup_cons] at hnd
    rcases List.mem_cons.1 hm with heq | hin
    · subst heq
      simp [lookupProp]
    · have hne : k1 ≠ m.1 := by
        intro hc
        exact hnd.1 (hc ▸ List.mem_map_of_mem Prod.fst hin)
      simp only [lookupProp, hne, if_false]
      exact ih hin hnd.2

theorem assign_self (ms : Members) (k : String) (hk : hasOwn ms k = true) :
    assign ms k (lookupProp ms k) = ms := by
  induction ms with
  | nil => simp [hasOwn] at hk
  | cons m rest ih =>
    obtain ⟨k1, v1⟩ := m
    by_cases hk1 : k1 = k
    · simp [assign, lookupProp, hk1]
    · simp only [hasOwn, hk1, if_false] at hk
      simp [assign, lookupProp, hk1, ih hk]

theorem assign_of_not_mem {β : Type} (ms : List (String × β)) (k : String) (v : β)
    (hk : k ∉ ms.map Prod.fst) : assign ms k v = ms ++ [(k, v)] := by
  induction ms with
  | nil => simp [assign]
  | cons m rest ih =>
    obtain ⟨k1, v1⟩ := m
    simp only [List.map_cons, List.mem_cons, not_or] at hk
    have hne : k1 ≠ k := fun hc => hk.1 hc.symm
    simp [assign, hne, ih hk.2]

theorem mergeValue_of_kept (prev v : Val) (n : Nat) (ha : isArray v = false)
    (hp : isPlainObject v = false) : mergeValue prev v n = (v, n) := by
  cases v <;> simp_all [mergeValue, isArray, toStringCall]

theorem merge_cons (r : Members) (key : String) (value : Val) (rest : Members) (n : Nat) :
    merge r ((key, value) :: rest) n =
      merge (assign r key (mergeValue (lookupProp r key) value n).1) rest
        (mergeValue (lookupProp r key) value n).2 := by
  simp [merge]

/-- Merging a supplier equal to the receiver, all of whose members are kept as they are,
returns the receiver. -/
theorem merge_kept_into_self (r s : Members) (n : Nat)
    (hkept : ∀ m ∈ s, isArray m.2 = false ∧ isPlainObject m.2 = false)
    (hin : ∀ m ∈ s, hasOwn r m.1 = true ∧ lookupProp r m.1 = m.2) :
    merge r s n = (r, n) := by
  induction s generalizing r n with
  | nil => exact merge_nil r n
  | cons m rest ih =>
    obtain ⟨k, v⟩ := m
    have hk := hkept (k, v) (List.mem_cons_self _ _)
    have hi := hin (k, v) (List.mem_cons_self _ _)
    rw [merge_cons, mergeValue_of_kept _ v n hk.1 hk.2]
    simp only at hi ⊢
    rw [← hi.2, assign_self r k hi.1]
    exact ih r n (fun m hm => hkept m (List.mem_cons_of_mem _ hm))
      (fun m hm => hin m (List.mem_cons_of_mem _ hm))

/-- Merging members that are all kept as they are, and whose names are new and pairwise
distinct, appends them. -/
theorem merge_kept_append (r s : Members) (n : Nat)
    (hkept : ∀ m ∈ s, isArray m.2 = false ∧ isPlainObject m.2 = false)
    (hnd : ((r ++ s).map Prod.fst).Nodup) :
    merge r s n = (r ++ s, n) := by
  induction s generalizing r n with
  | nil => simp [merge_nil]
  | cons m rest ih =>
    obtain ⟨k, v⟩ := m
    have hk := hkept (k, v) (List.mem_cons_self _ _)
    have hnot : k ∉ r.map Prod.fst := by
      intro hc
      rw [List.map_append, List.nodup_append] at hnd
      exact hnd.2.2 hc (by simp)
    rw [merge_cons, mergeValue_of_kept _ v n hk.1 hk.2]
    simp only
    rw [assign_of_not_mem r k v hnot, ih (r ++ [(k, v)]) n
      (fun m hm => hkept m (List.mem_cons_of_mem _ hm)) (by simpa using hnd)]
    simp

theorem isPlainObject_obj_congr (i j : Nat) (ms : Members) :
    isPlainObject (Val.obj i ms) = isPlainObject (Val.obj j ms) := by
  simp [isPlainObject, truthy, toStringCall, Val.prop, isWindow]

/-- A record is `isEqual` to a copy of itself with the same members, when the names render
without `[object` and every member is strictly equal to itself. -/
theorem isEqual_same_members (i j : Nat) (ms : Members)
    (hplain : isPlainObject (Val.obj i ms) = true)
    (hmark : noObjectMark (arrayToString (keys (Val.obj i ms))) = true)
    (hself : ∀ m ∈ ms, strictEq m.2 m.2 = true) :
    isEqual (Val.obj i ms) (Val.obj j ms) = true := by
  have hpj : isPlainObject (Val.obj j ms) = true := by
    rw [isPlainObject_obj_congr j i]; exact hplain
  have hkeys : keys (Val.obj j ms) = keys (Val.obj i ms) := rfl
  have hall : (ms.all fun m => strictEq (lookupProp ms m.1) (lookupProp ms m.1)) = true := by
    rw [List.all_eq_true]
    intro m hm
    exact hself _ (lookupProp_mem ms m.1 (hasOwn_of_mem ms m hm))
  unfold isEqual isEqualWith
  simp only [toStringCall, typeOf, hplain, hpj, hkeys, ownEntries, Val.prop, hall]
  simp [elemToString, hmark]

theorem isObj_of_isPlainObject (v : Val) (hp : isPlainObject v = true) :
    ∃ i ms, v = Val.obj i ms := by
  cases v <;> simp [isPlainObject, truthy, toStringCall] at hp
  exact ⟨_, _, rfl⟩

theorem get_plain (F : Nat → Val → String → Val) (h : Host) (k : String)
    (hp : plainSlot (lookupProp h.attrs k) = true) :
    get F h k = Except.ok (storedValue h k) := by
  rw [get_eq F h k (wellFormedSlot_parts _ (wellFormedSlot_of_plainSlot _ hp)).2.1,
    applyFn_of_falsy F _ _ k (plainSlot_parts _ hp).2.1]

/-- Writing a value over itself: the value `set` stores is `isEqual` to it, both ways, when
the value is not a plain record or is a flat record. -/
theorem isEqual_mergedVal_self (o v : Val) (n : Nat)
    (hflat : isPlainObject v = true → flatRecord v) :
    isEqual v (mergedVal o v v n).1 = true ∧ isEqual (mergedVal o v v n).1 v = true := by
  unfold mergedVal
  split_ifs with hc
  · simp only [Bool.and_eq_true] at hc
    obtain ⟨⟨_, hpl⟩, _⟩ := hc
    obtain ⟨hnd, hmark, hmem⟩ := hflat hpl
    obtain ⟨i, ms, rfl⟩ := isObj_of_isPlainObject v hpl
    simp only [ownEntries] at hnd hmem ⊢
    have hkept : ∀ m ∈ ms, isArray m.2 = false ∧ isPlainObject m.2 = false :=
      fun m hm => ⟨(hmem m hm).1, (hmem m hm).2.1⟩
    have hself : ∀ m ∈ ms, strictEq m.2 m.2 = true := fun m hm => (hmem m hm).2.2
    have hplain : isPlainObject (Val.obj i ms) = true := hpl
    rw [merge_kept_append [] ms (n + 1) hkept (by simpa using hnd)]
    simp only [List.nil_append]
    rw [merge_kept_into_self ms ms (n + 1) hkept
      (fun m hm => ⟨hasOwn_of_mem ms m hm, lookupProp_of_mem_nodup ms m hm hnd⟩)]
    simp only []
    refine ⟨isEqual_same_members i n ms hplain hmark hself, ?_⟩
    exact isEqual_same_members n i ms (by rw [isPlainObject_obj_congr n i]; exact hplain)
      hmark hself
  · exact ⟨isEqual_refl v, isEqual_refl v⟩

/-- C4 (as the code has it): writing back the current value `v = get(k)` of a plain
attribute emits no event, records nothing and leaves `get(k)` `isEqual` to `v`, provided
`v` is not a plain record or is a flat record. -/
theorem set_current_value_no_event (F : Nat → Val → String → Val) (h : Host) (k : String)
    (v options : Val)
    (hp : plainSlot (lookupProp h.attrs k) = true)
    (hv : get F h k = Except.ok v)
    (hflat : isPlainObject v = true → flatRecord v) :
    ∃ h1, set F h (Val.str k) v options = Result.ok h1 ∧ h1.events = h.events ∧
      pendingChanges h1 = pendingChanges h ∧
      ∃ r, get F h1 k = Except.ok r ∧ isEqual v r = true ∧ isEqual r v = true := by
  have hg := get_plain F h k hp
  have hvs : v = storedValue h k := by
    rw [hv] at hg
    exact Except.ok.inj hg
  subst hvs
  have hself := isEqual_mergedVal_self (options.prop "override") (storedValue h k) h.nextId hflat
  obtain ⟨h1, hset, hev, hpend, hst, hp1⟩ :=
    set_plain_of_isEqual F h k (storedValue h k) options hp hself.1
  refine ⟨h1, hset, hev, hpend, storedValue h1 k, ?_, ?_, ?_⟩
  · exact get_plain F h1 k hp1
  · rw [hst]; exact hself.1
  · rw [hst]; exact hself.2

theorem set_current_value_no_event_witness :
    plainSlot (lookupProp sampleHost.attrs "o") = true ∧
      get doubling sampleHost "o" =
        Except.ok (Val.obj 120 [("a", Val.num 1), ("b", Val.num 2)]) ∧
      (isPlainObject (Val.obj 120 [("a", Val.num 1), ("b", Val.num 2)]) = true →
        flatRecord (Val.obj 120 [("a", Val.num 1), ("b", Val.num 2)])) ∧
      ∃ h1, set doubling sampleHost (Val.str "o")
            (Val.obj 120 [("a", Val.num 1), ("b", Val.num 2)]) Val.undefined = Result.ok h1 ∧
        h1.events = sampleHost.events ∧ pendingChanges h1 = pendingChanges sampleHost ∧
        ∃ r, get doubling h1 "o" = Except.ok r ∧
          isEqual (Val.obj 120 [("a", Val.num 1), ("b", Val.num 2)]) r = true ∧
          isEqual r (Val.obj 120 [("a", Val.num 1), ("b", Val.num 2)]) = true :=
  have hflat : flatRecord (Val.obj 120 [("a", Val.num 1), ("b", Val.num 2)]) :=
    ⟨by decide, by decide, by simp [ownEntries, isArray, isPlainObject, toStringCall, strictEq]⟩
  ⟨by decide, rfl, fun _ => hflat,
    set_current_value_no_event doubling sampleHost "o"
      (Val.obj 120 [("a", Val.num 1), ("b", Val.num 2)]) Val.undefined (by decide) rfl
      (fun _ => hflat)⟩

/-- C4, as stated, fails: the attribute `k` holds the record `{a: {b: 1}}`, whose member is
itself a record; writing back the value `get('k')` returns emits `change:k`, because the
merge stores a copy of the inner record and `isEqual` compares members by identity. -/
theorem set_current_value_emits :
    plainSlot (lookupProp sampleHost.attrs "k") = true ∧
      sampleHost.events = [] ∧
      get doubling sampleHost "k" =
        Except.ok (Val.obj 122 [("a", Val.obj 123 [("b", Val.num 1)])]) ∧
      (set doubling sampleHost (Val.str "k") (Val.obj 122 [("a", Val.obj 123 [("b", Val.num 1)])])
          Val.undefined).host.events =
        [⟨"change:k", [Val.obj 125 [("a", Val.obj 126 [("b", Val.num 1)])],
          Val.obj 122 [("a", Val.obj 123 [("b", Val.num 1)])], Val.str "k"]⟩] :=
  ⟨by decide, rfl, rfl, rfl⟩

/-! ### Silent writes and `change` -/

theorem foldl_trigger_events (changed : List (String × Val × Val)) (h : Host) :
    (changed.foldl
        (fun acc e => trigger acc ("change:" ++ e.1) [e.2.1, e.2.2, Val.str e.1]) h).events =
      h.events ++
        changed.map (fun e => (⟨"change:" ++ e.1, [e.2.1, e.2.2, Val.str e.1]⟩ : Event)) := by
  induction changed generalizing h with
  | nil => simp
  | cons e rest ih =>
    simp only [List.foldl_cons, List.map_cons]
    rw [ih]
    simp [trigger]

/-- The events `change()` emits: one for every pending change, in the order of recording. -/
theorem change_events (h : Host) :
    (change h).events =
      h.events ++ (pendingChanges h).map
        (fun e => (⟨"change:" ++ e.1, [e.2.1, e.2.2, Val.str e.1]⟩ : Event)) := by
  unfold change pendingChanges
  cases hc : h.changedAttrs with
  | none => simp
  | some changed => simp [foldl_trigger_events]

theorem change_pending (h : Host) : pendingChanges (change h) = [] := by
  unfold change pendingChanges
  cases hc : h.changedAttrs with
  | none => simp [hc]
  | some changed => simp

theorem lookupProp_ensureSlot_ne (h : Host) (k k2 : String) (hne : k ≠ k2) :
    lookupProp (ensureSlot h k).attrs k2 = lookupProp h.attrs k2 := by
  unfold ensureSlot
  split_ifs
  · rfl
  · exact lookupProp_assign_ne _ _ _ _ hne

/-- A silent write, outside guarded initialization, of a value that is not `isEqual` to the
stored one and is not merged with it: the pair is recorded, nothing is emitted and the other
slots are left alone. -/
theorem set_plain_silent (F : Nat → Val → String → Val) (h : Host) (k : String)
    (v options : Val)
    (hp : plainSlot (lookupProp h.attrs k) = true)
    (hinit : h.initializingAttrs = false)
    (hs : truthy (options.prop "silent") = true)
    (hn : (isPlainObject (storedValue h k) && isPlainObject v) = false)
    (he : isEqual (storedValue h k) v = false) :
    ∃ h1, set F h (Val.str k) v options = Result.ok h1 ∧ h1.events = h.events ∧
      pendingChanges h1 = assign (pendingChanges h) k (v, storedValue h k) ∧
      h1.initializingAttrs = false ∧
      ∀ k2, k ≠ k2 → lookupProp h1.attrs k2 = lookupProp h.attrs k2 := by
  refine ⟨_, set_plain F h k v options hp, ?_, ?_, ?_, ?_⟩
  · rw [commit_events, hs]
    simp [ensureSlot_events]
  · rw [commit_pending, mergedVal_of_not_plain _ _ _ _ hn, ensureSlot_pending,
      ensureSlot_initializingAttrs]
    simp [hinit, hs, he, pendingChanges]
  · rw [commit_initializingAttrs, ensureSlot_initializingAttrs]
    exact hinit
  · intro k2 hne
    rw [commit_attrs, lookupProp_assign_ne _ _ _ _ hne, lookupProp_ensureSlot_ne _ _ _ hne]

/-- C6 (as the code has it): two silent writes to distinct plain attributes `a` and `b`, of
values that are not `isEqual` to the current ones and are not merged with them, emit
nothing; the `change()` that follows emits `change:a` with `(va, pa, a)` then `change:b`
with `(vb, pb, b)`, and a second `change()` emits nothing. -/
theorem silent_sets_then_change (F : Nat → Val → String → Val) (h : Host) (a b : String)
    (va vb oa ob : Val)
    (hab : a ≠ b)
    (hinit : h.initializingAttrs = false)
    (hempty : pendingChanges h = [])
    (hpa : plainSlot (lookupProp h.attrs a) = true)
    (hpb : plainSlot (lookupProp h.attrs b) = true)
    (hsa : truthy (oa.prop "silent") = true)
    (hsb : truthy (ob.prop "silent") = true)
    (hna : (isPlainObject (storedValue h a) && isPlainObject va) = false)
    (hnb : (isPlainObject (storedValue h b) && isPlainObject vb) = false)
    (hea : isEqual (storedValue h a) va = false)
    (heb : isEqual (storedValue h b) vb = false) :
    ∃ h1 h2, set F h (Val.str a) va oa = Result.ok h1 ∧
      set F h1 (Val.str b) vb ob = Result.ok h2 ∧
      h2.events = h.events ∧
      (change h2).events = h.events ++
        [⟨"change:" ++ a, [va, storedValue h a, Val.str a]⟩,
          ⟨"change:" ++ b, [vb, storedValue h b, Val.str b]⟩] ∧
      (change (change h2)).events = (change h2).events := by
  obtain ⟨h1, hset1, hev1, hpend1, hinit1, hother1⟩ :=
    set_plain_silent F h a va oa hpa hinit hsa hna hea
  have hslot : lookupProp h1.attrs b = lookupProp h.attrs b := hother1 b hab
  have hst : storedValue h1 b = storedValue h b := by simp [storedValue, hslot]
  obtain ⟨h2, hset2, hev2, hpend2, _, _⟩ :=
    set_plain_silent F h1 b vb ob (by rw [hslot]; exact hpb) hinit1 hsb
      (by rw [hst]; exact hnb) (by rw [hst]; exact heb)
  refine ⟨h1, h2, hset1, hset2, by rw [hev2, hev1], ?_, ?_⟩
  · rw [change_events, hpend2, hpend1, hempty, hev2, hev1, hst]
    simp [assign, hab]
  · rw [change_events (change h2), change_pending]
    simp

theorem silent_sets_then_change_witness :
    "a" ≠ "b" ∧ sampleHost.initializingAttrs = false ∧ pendingChanges sampleHost = [] ∧
      plainSlot (lookupProp sampleHost.attrs "a") = true ∧
      plainSlot (lookupProp sampleHost.attrs "b") = true ∧
      truthy (silentOptions.prop "silent") = true ∧
      (isPlainObject (storedValue sampleHost "a") && isPlainObject (Val.num 1)) = false ∧
      (isPlainObject (storedValue sampleHost "b") && isPlainObject (Val.num 2)) = false ∧
      isEqual (storedValue sampleHost "a") (Val.num 1) = false ∧
      isEqual (storedValue sampleHost "b") (Val.num 2) = false ∧
      ∃ h1 h2, set doubling sampleHost (Val.str "a") (Val.num 1) silentOptions = Result.ok h1 ∧
        set doubling h1 (Val.str "b") (Val.num 2) silentOptions = Result.ok h2 ∧
        h2.events = sampleHost.events ∧
        (change h2).events = sampleHost.events ++
          [⟨"change:" ++ "a", [Val.num 1, storedValue sampleHost "a", Val.str "a"]⟩,
            ⟨"change:" ++ "b", [Val.num 2, storedValue sampleHost "b", Val.str "b"]⟩] ∧
        (change (change h2)).events = (change h2).events :=
  ⟨by decide, rfl, rfl, by decide, by decide, by decide, by decide, by decide, by decide,
    by decide,
    silent_sets_then_change doubling sampleHost "a" "b" (Val.num 1) (Val.num 2) silentOptions
      silentOptions (by decide) rfl rfl (by decide) (by decide) (by decide) (by decide)
      (by decide) (by decide) (by decide) (by decide)⟩

/-- C6, as stated, fails: the attribute `o` holds `{a: 1, b: 2}`, which is not `isEqual` to
`{}`, and `b` holds `'y'`, which is not `isEqual` to `2`; after the silent writes of `{}`
to `o` and of `2` to `b`, `change()` emits a single event, for `b`: the write to `o` stored
the merge of `{}` onto `{a: 1, b: 2}`, which is `isEqual` to the previous value. -/
theorem silent_record_write_not_flushed :
    sampleHost.events = [] ∧ pendingChanges sampleHost = [] ∧
      plainSlot (lookupProp sampleHost.attrs "o") = true ∧
      plainSlot (lookupProp sampleHost.attrs "b") = true ∧
      isEqual (storedValue sampleHost "o") (Val.obj 9 []) = false ∧
      isEqual (storedValue sampleHost "b") (Val.num 2) = false ∧
      (change (set doubling
          (set doubling sampleHost (Val.str "o") (Val.obj 9 []) silentOptions).host
          (Val.str "b") (Val.num 2) silentOptions).host).events =
        [⟨"change:b", [Val.num 2, Val.str "y", Val.str "b"]⟩] :=
  ⟨rfl, rfl, by decide, by decide, by decide, by decide, rfl⟩

/-! ### Reading a member after `merge` -/

theorem mem_names_assign {β : Type} (ms : List (String × β)) (k k2 : String) (v : β) :
    k2 ∈ (assign ms k v).map Prod.fst ↔ k2 = k ∨ k2 ∈ ms.map Prod.fst := by
  induction ms with
  | nil => simp [assign]
  | cons m rest ih =>
    obtain ⟨k1, v1⟩ := m
    by_cases hk : k1 = k
    · subst hk
      simp [assign]
    · simp only [assign, hk, if_false, List.map_cons, List.mem_cons, ih]
      tauto

theorem nodup_assign {β : Type} (ms : List (String × β)) (k : String) (v : β)
    (hnd : (ms.map Prod.fst).Nodup) : ((assign ms k v).map Prod.fst).Nodup := by
  induction ms with
  | nil => simp [assign]
  | cons m rest ih =>
    obtain ⟨k1, v1⟩ := m
    simp only [List.map_cons, List.nodup_cons] at hnd
    by_cases hk : k1 = k
    · subst hk
      simpa [assign] using hnd
    · simp only [assign, hk, if_false, List.map_cons, List.nodup_cons]
      refine ⟨?_, ih hnd.2⟩
      intro hc
      rcases (mem_names_assign rest k k1 v).1 hc with h1 | h1
      · exact hk h1
      · exact hnd.1 h1

theorem lookupProp_merge_of_not_mem (r s : Members) (n : Nat) (k : String)
    (hk : k ∉ s.map Prod.fst) : lookupProp (merge r s n).1 k = lookupProp r k := by
  induction s generalizing r n with
  | nil => simp [merge_nil]
  | cons m rest ih =>
    obtain ⟨k1, v1⟩ := m
    simp only [List.map_cons, List.mem_cons, not_or] at hk
    rw [merge_cons, ih _ _ hk.2, lookupProp_assign_ne _ _ _ _ (fun hc => hk.1 hc.symm)]

theorem lookupProp_merge_of_mem (r s : Members) (n : Nat) (k : String)
    (hnd : (s.map Prod.fst).Nodup) (hk : k ∈ s.map Prod.fst) :
    ∃ n1, lookupProp (merge r s n).1 k =
      (mergeValue (lookupProp r k) (lookupProp s k) n1).1 := by
  induction s generalizing r n with
  | nil => simp at hk
  | cons m rest ih =>
    obtain ⟨k1, v1⟩ := m
    simp only [List.map_cons, List.nodup_cons] at hnd
    rw [merge_cons]
    by_cases hk1 : k1 = k
    · subst hk1
      refine ⟨n, ?_⟩
      rw [lookupProp_merge_of_not_mem _ _ _ _ hnd.1, lookupProp_assign_same]
      simp [lookupProp]
    · have hin : k ∈ rest.map Prod.fst := by
        simp only [List.map_cons, List.mem_cons] at hk
        rcases hk with hk | hk
        · exact absurd hk.symm hk1
        · exact hk
      obtain ⟨n1, hn1⟩ := ih (assign r k1 (mergeValue (lookupProp r k1) v1 n).1)
        (mergeValue (lookupProp r k1) v1 n).2 hnd.2 hin
      refine ⟨n1, ?_⟩
      rw [hn1, lookupProp_assign_ne _ _ _ _ hk1]
      simp [lookupProp, hk1]

theorem mem_names_merge (r s : Members) (n : Nat) (k : String) :
    k ∈ (merge r s n).1.map Prod.fst ↔ k ∈ r.map Prod.fst ∨ k ∈ s.map Prod.fst := by
  induction s generalizing r n with
  | nil => simp [merge_nil]
  | cons m rest ih =>
    obtain ⟨k1, v1⟩ := m
    rw [merge_cons, ih, mem_names_assign]
    simp only [List.map_cons, List.mem_cons]
    tauto

theorem nodup_merge (r s : Members) (n : Nat) (hnd : (r.map Prod.fst).Nodup) :
    ((merge r s n).1.map Prod.fst).Nodup := by
  induction s generalizing r n with
  | nil => simpa [merge_nil] using hnd
  | cons m rest ih =>
    obtain ⟨k1, v1⟩ := m
    rw [merge_cons]
    exact ih _ _ (nodup_assign r k1 _ hnd)

/-! ### What `merge` copies -/

theorem contentMembers_append (a b : Members) :
    contentMembers (a ++ b) = contentMembers a ++ contentMembers b := by
  induction a with
  | nil => simp [contentMembers]
  | cons m rest ih =>
    obtain ⟨k, v⟩ := m
    simp [contentMembers, ih]

theorem lookupProp_contentMembers (ms : Members) (k : String) :
    lookupProp (contentMembers ms) k = content (lookupProp ms k) := by
  induction ms with
  | nil => simp [contentMembers, lookupProp, content]
  | cons m rest ih =>
    obtain ⟨k1, v1⟩ := m
    by_cases hk : k1 = k
    · simp [contentMembers, lookupProp, hk]
    · simp [contentMembers, lookupProp, hk, ih]

theorem lookupProp_of_not_mem (ms : Members) (k : String) (hk : k ∉ ms.map Prod.fst) :
    lookupProp ms k = Val.undefined := by
  induction ms with
  | nil => simp [lookupProp]
  | cons m rest ih =>
    obtain ⟨k1, v1⟩ := m
    simp only [List.map_cons, List.mem_cons, not_or] at hk
    have hne : ¬k1 = k := fun hc => hk.1 hc.symm
    simp [lookupProp, hne, ih hk.2]

theorem content_mergeValue_of_not_plain (prev v : Val) (n : Nat)
    (hp : isPlainObject v = false) : content (mergeValue prev v n).1 = content v := by
  cases v <;> simp_all [mergeValue, content]

mutual
/-- A value merged over a receiver member that is not a plain object is copied: the result
has the content of the value. -/
theorem content_mergeValue (prev : Val) (hprev : isPlainObject prev = false) :
    ∀ (v : Val) (n : Nat), distinctNames v = true →
      content (mergeValue prev v n).1 = content v
  | Val.arr i xs, n, _ => by simp [mergeValue, content]
  | Val.obj i ms, n, hd => by
    simp only [distinctNames, Bool.and_eq_true, decide_eq_true_eq] at hd
    by_cases hpl : isPlainObject (Val.obj i ms) = true
    · have hrec := content_merge ms [] (n + 1) (by simp) hd.1 hd.2
      cases prev <;>
        simp_all [mergeValue, content, contentMembers]
    · simp [mergeValue, hpl]
  | Val.undefined, n, _ => by simp [mergeValue]
  | Val.null, n, _ => by simp [mergeValue]
  | Val.bool b, n, _ => by simp [mergeValue]
  | Val.num m, n, _ => by simp [mergeValue]
  | Val.nan, n, _ => by simp [mergeValue]
  | Val.str s, n, _ => by simp [mergeValue]
  | Val.fn i s, n, _ => by simp [mergeValue]
/-- Members with new, pairwise distinct names merged into a receiver are copied after the
receiver's members. -/
theorem content_merge :
    ∀ (s r : Members) (n : Nat), (∀ k ∈ s.map Prod.fst, k ∉ r.map Prod.fst) →
      (s.map Prod.fst).Nodup → distinctNamesIn s = true →
      contentMembers (merge r s n).1 = contentMembers r ++ contentMembers s
  | [], r, n, _, _, _ => by simp [merge_nil, contentMembers]
  | (k, v) :: rest, r, n, hnew, hnd, hd => by
    simp only [distinctNamesIn, Bool.and_eq_true] at hd
    simp only [List.map_cons, List.nodup_cons] at hnd
    have hk : k ∉ r.map Prod.fst := hnew k (by simp)
    have hv := content_mergeValue (lookupProp r k)
      (by rw [lookupProp_of_not_mem r k hk]; rfl) v n hd.1
    rw [merge_cons, assign_of_not_mem r k _ hk]
    rw [content_merge rest (r ++ [(k, (mergeValue (lookupProp r k) v n).1)])
      (mergeValue (lookupProp r k) v n).2 ?_ hnd.2 hd.2]
    · simp [contentMembers_append, contentMembers, hv]
    · intro k2 hk2
      simp only [List.map_append, List.map_cons, List.map_nil, List.mem_append,
        List.mem_singleton, not_or]
      refine ⟨hnew k2 (by simp [hk2]), ?_⟩
      intro hc
      exact hnd.1 (hc ▸ hk2)
end

/-! ### Merge or override -/

theorem plainSlot_setProp_value (a w : Val) (hobj : isObj a = true)
    (hp : plainSlot a = true) : plainSlot (a.setProp "value" w) = true := by
  obtain ⟨_, h2, h3, h4⟩ := plainSlot_parts a hp
  have hne1 : ("value" : String) ≠ "getter" := by decide
  have hne2 : ("value" : String) ≠ "setter" := by decide
  have hne3 : ("value" : String) ≠ "readOnly" := by decide
  have ho : isObj (a.setProp "value" w) = true := by
    cases a <;> simp_all [isObj, Val.setProp]
  simp [plainSlot, prop_setProp_ne _ _ _ _ hne1, prop_setProp_ne _ _ _ _ hne2,
    prop_setProp_ne _ _ _ _ hne3, h2, h3, h4, ho]

theorem plainSlot_ensureSlot (h : Host) (k : String)
    (hp : plainSlot (lookupProp h.attrs k) = true) :
    plainSlot (lookupProp (ensureSlot h k).attrs k) = true := by
  obtain ⟨h1, h2, h3, h4⟩ := plainSlot_parts _ hp
  have ho := isObj_ensureSlot h k h1
  simp [plainSlot, prop_ensureSlot, h2, h3, h4, ho]

/-- After a write on a plain slot, `get` returns the value `set` stored. -/
theorem set_plain_get (F : Nat → Val → String → Val) (h : Host) (k : String)
    (v options : Val)
    (hp : plainSlot (lookupProp h.attrs k) = true) :
    ∃ h1, set F h (Val.str k) v options = Result.ok h1 ∧
      get F h1 k =
        Except.ok (mergedVal (options.prop "override") (storedValue h k) v h.nextId).1 := by
  obtain ⟨hobj, _, _, _⟩ := plainSlot_parts _ hp
  have hslot := isObj_ensureSlot { h with changedAttrs := some (h.changedAttrs.getD []) } k hobj
  have hp0 : plainSlot (lookupProp
      ({ h with changedAttrs := some (h.changedAttrs.getD []) } : Host).attrs k) = true := hp
  have hp1 := plainSlot_ensureSlot _ k hp0
  refine ⟨_, set_plain F h k v options hp, ?_⟩
  rw [get_plain, storedValue_commit _ _ _ _ _ hslot, mergedVal_plain_fst]
  rw [commit_attrs, lookupProp_assign_same]
  exact plainSlot_setProp_value _ _ hslot hp1

theorem mergedVal_of_override (o prev val : Val) (n : Nat) (ho : truthy o = true) :
    mergedVal o prev val n = (val, n) := by
  simp [mergedVal, ho]

theorem mergedVal_of_plain (o prev val : Val) (n : Nat) (ho : truthy o = false)
    (hp : isPlainObject prev = true) (hv : isPlainObject val = true) :
    mergedVal o prev val n =
      (Val.obj n (merge (merge [] (ownEntries prev) (n + 1)).1 (ownEntries val)
          (merge [] (ownEntries prev) (n + 1)).2).1,
        (merge (merge [] (ownEntries prev) (n + 1)).1 (ownEntries val)
          (merge [] (ownEntries prev) (n + 1)).2).2) := by
  simp [mergedVal, ho, hp, hv]

/-- C2 (as the code has it): on an attribute without getter, without setter and not
read-only, whose value is the plain record `p`, writing the plain record `v` stores `v`
itself under `override`, and otherwise a record whose member names are those of `p` and of
`v`, in which a member missing from `v` has the content of the member of `p` and a member
of `v` that is not a plain record has the content of that member. -/
theorem set_record_merges_or_overrides (F : Nat → Val → String → Val) (h : Host)
    (o : String) (p v options : Val)
    (hslot : plainSlot (lookupProp h.attrs o) = true)
    (hcur : storedValue h o = p)
    (hpp : isPlainObject p = true) (hpv : isPlainObject v = true)
    (hdp : distinctNames p = true) (hdv : distinctNames v = true) :
    ∃ h1 r, set F h (Val.str o) v options = Result.ok h1 ∧ get F h1 o = Except.ok r ∧
      (truthy (options.prop "override") = true → r = v) ∧
      (truthy (options.prop "override") = false →
        isObj r = true ∧
        (∀ k, k ∈ (ownEntries r).map Prod.fst ↔
          k ∈ (ownEntries p).map Prod.fst ∨ k ∈ (ownEntries v).map Prod.fst) ∧
        (∀ k, k ∉ (ownEntries v).map Prod.fst → content (r.prop k) = content (p.prop k)) ∧
        (∀ k, k ∈ (ownEntries v).map Prod.fst → isPlainObject (v.prop k) = false →
          content (r.prop k) = content (v.prop k))) := by
  obtain ⟨h1, hset, hget⟩ := set_plain_get F h o v options hslot
  rw [hcur] at hget
  refine ⟨h1, _, hset, hget, ?_, ?_⟩
  · intro ho
    rw [mergedVal_of_override _ _ _ _ ho]
  · intro ho
    rw [mergedVal_of_plain _ _ _ _ ho hpp hpv]
    obtain ⟨i, pms, rfl⟩ := isObj_of_isPlainObject p hpp
    obtain ⟨j, vms, rfl⟩ := isObj_of_isPlainObject v hpv
    simp only [distinctNames, Bool.and_eq_true, decide_eq_true_eq] at hdp hdv
    simp only [ownEntries, Val.prop]
    have hclone := content_merge pms [] (h.nextId + 1) (by simp) hdp.1 hdp.2
    simp only [contentMembers, List.nil_append] at hclone
    refine ⟨?_, ?_, ?_, ?_⟩
    · rfl
    · intro k
      rw [mem_names_merge, mem_names_merge]
      simp
    · intro k hk
      rw [lookupProp_merge_of_not_mem _ _ _ _ hk, ← lookupProp_contentMembers, hclone,
        lookupProp_contentMembers]
    · intro k hk hnp
      obtain ⟨n1, hn1⟩ := lookupProp_merge_of_mem
        (merge [] pms (h.nextId + 1)).1 vms (merge [] pms (h.nextId + 1)).2 k hdv.1 hk
      rw [hn1]
      exact content_mergeValue_of_not_plain _ _ _ hnp

theorem set_record_merges_or_overrides_witness :
    plainSlot (lookupProp sampleHost.attrs "o") = true ∧
      storedValue sampleHost "o" = Val.obj 120 [("a", Val.num 1), ("b", Val.num 2)] ∧
      isPlainObject (Val.obj 120 [("a", Val.num 1), ("b", Val.num 2)]) = true ∧
      isPlainObject (Val.obj 9 [("b", Val.num 3)]) = true ∧
      distinctNames (Val.obj 120 [("a", Val.num 1), ("b", Val.num 2)]) = true ∧
      distinctNames (Val.obj 9 [("b", Val.num 3)]) = true ∧
      ∃ h1 r, set doubling sampleHost (Val.str "o") (Val.obj 9 [("b", Val.num 3)])
            Val.undefined = Result.ok h1 ∧
        get doubling h1 "o" = Except.ok r ∧
        (truthy (Val.undefined.prop "override") = true → r = Val.obj 9 [("b", Val.num 3)]) ∧
        (truthy (Val.undefined.prop "override") = false →
          isObj r = true ∧
          (∀ k, k ∈ (ownEntries r).map Prod.fst ↔
            k ∈ (ownEntries (Val.obj 120 [("a", Val.num 1), ("b", Val.num 2)])).map Prod.fst ∨
              k ∈ (ownEntries (Val.obj 9 [("b", Val.num 3)])).map Prod.fst) ∧
          (∀ k, k ∉ (ownEntries (Val.obj 9 [("b", Val.num 3)])).map Prod.fst →
            content (r.prop k) =
              content ((Val.obj 120 [("a", Val.num 1), ("b", Val.num 2)]).prop k)) ∧
          (∀ k, k ∈ (ownEntries (Val.obj 9 [("b", Val.num 3)])).map Prod.fst →
            isPlainObject ((Val.obj 9 [("b", Val.num 3)]).prop k) = false →
            content (r.prop k) = content ((Val.obj 9 [("b", Val.num 3)]).prop k))) :=
  ⟨by decide, rfl, by decide, by decide, by decide, by decide,
    set_record_merges_or_overrides doubling sampleHost "o"
      (Val.obj 120 [("a", Val.num 1), ("b", Val.num 2)]) (Val.obj 9 [("b", Val.num 3)])
      Val.undefined (by decide) rfl (by decide) (by decide) (by decide) (by decide)⟩

/-- The example of the specification: `o` holds `{a: 1, b: 2}`; `set('o', {b: 3})` yields
`{a: 1, b: 3}` and `set('o', {b: 3}, {override: true})` yields `{b: 3}`. -/
theorem set_record_example :
    get doubling sampleHost "o" =
        Except.ok (Val.obj 120 [("a", Val.num 1), ("b", Val.num 2)]) ∧
      get doubling (set doubling sampleHost (Val.str "o") (Val.obj 9 [("b", Val.num 3)])
          Val.undefined).host "o" =
        Except.ok (Val.obj 125 [("a", Val.num 1), ("b", Val.num 3)]) ∧
      get doubling (set doubling sampleHost (Val.str "o") (Val.obj 9 [("b", Val.num 3)])
          (Val.obj 10 [("override", Val.bool true)])).host "o" =
        Except.ok (Val.obj 9 [("b", Val.num 3)]) :=
  ⟨rfl, rfl, rfl⟩

/-- C2, as stated, fails on a read-only attribute: `o` has no getter and no setter and
holds the plain record `{a: 1, b: 2}`, but `set('o', {b: 3})` throws and `get('o')` is
still `{a: 1, b: 2}`, with `b` equal to `2`. -/
theorem set_record_readOnly_unchanged :
    truthy ((lookupProp lockedHost.attrs "o").prop "getter") = false ∧
      truthy ((lookupProp lockedHost.attrs "o").prop "setter") = false ∧
      get doubling lockedHost "o" =
        Except.ok (Val.obj 108 [("a", Val.num 1), ("b", Val.num 2)]) ∧
      isPlainObject (Val.obj 108 [("a", Val.num 1), ("b", Val.num 2)]) = true ∧
      isPlainObject (Val.obj 9 [("b", Val.num 3)]) = true ∧
      set doubling lockedHost (Val.str "o") (Val.obj 9 [("b", Val.num 3)]) Val.undefined =
        Result.throws (Err.error "This attribute is readOnly: o")
          { lockedHost with changedAttrs := some [] } ∧
      get doubling (set doubling lockedHost (Val.str "o") (Val.obj 9 [("b", Val.num 3)])
          Val.undefined).host "o" =
        Except.ok (Val.obj 108 [("a", Val.num 1), ("b", Val.num 2)]) :=
  ⟨by decide, by decide, rfl, by decide, by decide, rfl, rfl⟩

/-! ### The steps of `initAttrs` -/

theorem get_congr (F : Nat → Val → String → Val) (h1 h2 : Host) (k : String)
    (ha : lookupProp h1.attrs k = lookupProp h2.attrs k) : get F h1 k = get F h2 k := by
  simp only [get, prop_orEmpty, ha]

theorem parseEventsFromInstance_frame (ms : Members) (h : Host) :
    (parseEventsFromInstance h ms).events = h.events ∧
      (parseEventsFromInstance h ms).changedAttrs = h.changedAttrs ∧
      (parseEventsFromInstance h ms).initializingAttrs = h.initializingAttrs := by
  induction ms generalizing h with
  | nil => simp [parseEventsFromInstance]
  | cons m rest ih =>
    obtain ⟨k, v⟩ := m
    simp only [parseEventsFromInstance]
    split_ifs
    · obtain ⟨h1, h2, h3⟩ := ih
        { h with handlers := h.handlers ++
          [("change:" ++ k, hostProp h ("_onChange" ++ ucfirst k))] }
      exact ⟨h1, h2, h3⟩
    · exact ih h

/-- Copying the special properties onto the host succeeds when every getter is callable,
and writes only `props`. -/
theorem copySpecialPropsToHost_ok (F : Nat → Val → String → Val) (sp : List String) (h : Host)
    (hg : ∀ k, callable ((lookupProp h.attrs k).prop "getter") = true) :
    ∃ h1, copySpecialPropsToHost F sp h = Result.ok h1 ∧ h1.attrs = h.attrs ∧
      h1.events = h.events ∧ h1.changedAttrs = h.changedAttrs ∧
      h1.initializingAttrs = h.initializingAttrs := by
  induction sp generalizing h with
  | nil => exact ⟨h, rfl, rfl, rfl, rfl, rfl⟩
  | cons key rest ih =>
    simp only [copySpecialPropsToHost]
    split_ifs
    · rw [get_eq F h key (hg key)]
      simp only []
      obtain ⟨h1, he, h2, h3, h4, h5⟩ := ih
        { h with props := assign h.props key (previousValue F h key) } hg
      exact ⟨h1, he, h2, h3, h4, h5⟩
    · exact ih h hg

theorem prop_of_primedFrom (slot after : Val) (s : String) (hs : s ≠ "value")
    (hp : primedFrom slot after) : after.prop s = slot.prop s := by
  rcases hp with hp | ⟨w, hp⟩
  · rw [hp]
  · rw [hp, prop_setProp_ne _ _ _ _ (fun hc => hs hc.symm)]

/-- One priming write `host.set(key, v, options)` during guarded initialization. -/
theorem set_initializing (F : Nat → Val → String → Val) (h : Host) (k : String)
    (v options : Val)
    (hinit : h.initializingAttrs = true)
    (hset : truthy ((lookupProp h.attrs k).prop "setter") = true)
    (hro : truthy ((lookupProp h.attrs k).prop "readOnly") = false)
    (hwf : wellFormedSlot (lookupProp h.attrs k) = true) :
    ∃ h1, set F h (Val.str k) v options = Result.ok h1 ∧ h1.events = h.events ∧
      pendingChanges h1 = pendingChanges h ∧ h1.initializingAttrs = true ∧
      (∀ k2, k ≠ k2 → lookupProp h1.attrs k2 = lookupProp h.attrs k2) ∧
      lookupProp h1.attrs k = (lookupProp h.attrs k).setProp "value"
        (mergedVal (options.prop "override") (previousValue F h k)
          (applyFn F ((lookupProp h.attrs k).prop "setter") v k) h.nextId).1 := by
  have ht : truthy (lookupProp h.attrs k) = true := truthy_of_prop_truthy _ _ hset
  have hens : ensureSlot { h with changedAttrs := some (h.changedAttrs.getD []) } k =
      { h with changedAttrs := some (h.changedAttrs.getD []) } :=
    ensureSlot_of_truthy _ k ht
  refine ⟨_, set_eq F h k v options hro hwf, ?_, ?_, ?_, ?_, ?_⟩
  · rw [recordSetter_events, commit_events, hens]
    simp [hinit]
  · rw [pendingChanges_recordSetter, commit_pending, hens]
    simp [hinit, pendingChanges]
  · rw [recordSetter_initializingAttrs, commit_initializingAttrs, hens]
    exact hinit
  · intro k2 hne
    rw [recordSetter_attrs, commit_attrs, lookupProp_assign_ne _ _ _ _ hne, hens]
  · rw [recordSetter_attrs, commit_attrs, lookupProp_assign_same, hens]

theorem previousValue_congr (F : Nat → Val → String → Val) (h1 h2 : Host) (k : String)
    (ha : lookupProp h1.attrs k = lookupProp h2.attrs k) :
    previousValue F h1 k = previousValue F h2 k := by
  simp only [previousValue, storedValue, ha]

/-- The loop of `setSetterAttrs`: under guarded initialization every keyed slot with a
setter is primed with the setter's result, nothing is emitted or recorded, and the other
slots are left as they were. -/
theorem setSetterLoop_ok (F : Nat → Val → String → Val) (opts : Val) :
    ∀ (uvs : Members) (host : Host),
      host.initializingAttrs = true →
      (uvs.map Prod.fst).Nodup →
      (∀ k ∈ uvs.map Prod.fst,
        wellFormedSlot (lookupProp host.attrs k) = true ∧
          (truthy ((lookupProp host.attrs k).prop "setter") = true →
            truthy ((lookupProp host.attrs k).prop "readOnly") = false)) →
      ∃ after, setSetterLoop F opts host uvs = Result.ok after ∧
        after.events = host.events ∧ pendingChanges after = pendingChanges host ∧
        after.initializingAttrs = true ∧
        (∀ k, primedFrom (lookupProp host.attrs k) (lookupProp after.attrs k)) ∧
        (∀ k, k ∈ uvs.map Prod.fst →
          truthy ((lookupProp host.attrs k).prop "setter") = true →
          ∃ n1, lookupProp after.attrs k = (lookupProp host.attrs k).setProp "value"
            (mergedVal (opts.prop "override") (previousValue F host k)
              (applyFn F ((lookupProp host.attrs k).prop "setter")
                ((lookupProp uvs k).prop "value") k) n1).1) ∧
        (∀ k, (k ∉ uvs.map Prod.fst ∨
            truthy ((lookupProp host.attrs k).prop "setter") = false) →
          lookupProp after.attrs k = lookupProp host.attrs k)
  | [], host, hinit, _, _ =>
    ⟨host, rfl, rfl, rfl, hinit, fun _ => Or.inl rfl, fun k hk => by simp at hk,
      fun _ _ => rfl⟩
  | (key, uv) :: rest, host, hinit, hnd, hwf => by
    simp only [List.map_cons, List.nodup_cons] at hnd
    have hkey := hwf key (by simp)
    by_cases hset : truthy ((lookupProp host.attrs key).prop "setter") = true
    · obtain ⟨h1, hs1, hev1, hpend1, hinit1, hother1, hslot1⟩ :=
        set_initializing F host key (uv.prop "value") opts hinit hset (hkey.2 hset) hkey.1
      have hrest : ∀ k ∈ rest.map Prod.fst,
          wellFormedSlot (lookupProp h1.attrs k) = true ∧
            (truthy ((lookupProp h1.attrs k).prop "setter") = true →
              truthy ((lookupProp h1.attrs k).prop "readOnly") = false) := by
        intro k hk
        have hne : key ≠ k := fun hc => hnd.1 (hc ▸ hk)
        rw [hother1 k hne]
        exact hwf k (by simp [hk])
      obtain ⟨after, hloop, hev, hpend, hinit2, hprimed, hwith, hwithout⟩ :=
        setSetterLoop_ok F opts rest h1 hinit1 hnd.2 hrest
      refine ⟨after, ?_, by rw [hev, hev1], by rw [hpend, hpend1], hinit2, ?_, ?_, ?_⟩
      · simp only [setSetterLoop, hset, if_true, hs1]
        exact hloop
      · intro k
        by_cases hk : key = k
        · subst hk
          right
          exact ⟨_, by rw [hwithout key (Or.inl hnd.1), hslot1]⟩
        · have := hprimed k
          rw [hother1 k hk] at this
          exact this
      · intro k hk hsk
        by_cases hkk : key = k
        · subst hkk
          refine ⟨host.nextId, ?_⟩
          rw [hwithout key (Or.inl hnd.1), hslot1]
          simp [lookupProp]
        · have hin : k ∈ rest.map Prod.fst := by
            simp only [List.map_cons, List.mem_cons] at hk
            rcases hk with hk | hk
            · exact absurd hk.symm hkk
            · exact hk
          have hsame := hother1 k hkk
          obtain ⟨n1, hn1⟩ := hwith k hin (by rw [hsame]; exact hsk)
          refine ⟨n1, ?_⟩
          rw [hn1, hsame, previousValue_congr F h1 host k hsame]
          simp [lookupProp, hkk]
      · intro k hk
        have hkk : key ≠ k := by
          intro hc
          subst hc
          rcases hk with hk | hk
          · exact hk (by simp)
          · rw [hset] at hk
            exact Bool.noConfusion hk
        have hsame := hother1 k hkk
        rw [← hsame]
        apply hwithout k
        rcases hk with hk | hk
        · left
          intro hc
          exact hk (by simp [hc])
        · right
          rw [hsame]
          exact hk
    · have hsetf : truthy ((lookupProp host.attrs key).prop "setter") = false := by
        simpa using hset
      obtain ⟨after, hloop, hev, hpend, hinit2, hprimed, hwith, hwithout⟩ :=
        setSetterLoop_ok F opts rest host hinit hnd.2
          (fun k hk => hwf k (by simp [hk]))
      refine ⟨after, ?_, hev, hpend, hinit2, hprimed, ?_, ?_⟩
      · simp only [setSetterLoop, hsetf, Bool.false_eq_true, if_false]
        exact hloop
      · intro k hk hsk
        have hkk : key ≠ k := by
          intro hc
          subst hc
          rw [hsetf] at hsk
          exact Bool.noConfusion hsk
        have hin : k ∈ rest.map Prod.fst := by
          simp only [List.map_cons, List.mem_cons] at hk
          rcases hk with hk | hk
          · exact absurd hk.symm hkk
          · exact hk
        obtain ⟨n1, hn1⟩ := hwith k hin hsk
        refine ⟨n1, ?_⟩
        rw [hn1]
        simp [lookupProp, hkk]
      · intro k hk
        by_cases hkk : key = k
        · subst hkk
          exact hwithout key (Or.inl hnd.1)
        · apply hwithout k
          rcases hk with hk | hk
          · left
            intro hc
            exact hk (by simp [hc])
          · right
            exact hk

theorem names_normalizeLoop (u : Bool) (c : Members) (n : Nat) :
    (normalizeLoop u c n).1.map Prod.fst = c.map Prod.fst := by
  induction c generalizing n with
  | nil => simp [normalizeLoop]
  | cons m rest ih =>
    obtain ⟨k, v⟩ := m
    simp only [normalizeLoop]
    split_ifs <;> simp [ih]

theorem mem_names_normalize (c : Members) (u : Bool) (n : Nat) (k : String) :
    k ∈ (normalize c u n).1.map Prod.fst ↔ k ∈ c.map Prod.fst := by
  unfold normalize
  simp only []
  rw [names_normalizeLoop, mem_names_merge]
  simp

theorem nodup_normalize (c : Members) (u : Bool) (n : Nat) :
    ((normalize c u n).1.map Prod.fst).Nodup := by
  simp only [normalize, names_normalizeLoop]
  exact nodup_merge [] c n (by simp)

/-- The host `setSetterAttrs` returns when every write of its loop is permitted. -/
theorem setSetterAttrs_ok (F : Nat → Val → String → Val) (host : Host) (uvs : Option Members)
    (hnd : ∀ u, uvs = some u → (u.map Prod.fst).Nodup)
    (hwf : ∀ k, wellFormedSlot (lookupProp host.attrs k) = true)
    (hsup : ∀ u, uvs = some u → ∀ k ∈ u.map Prod.fst,
      truthy ((lookupProp host.attrs k).prop "setter") = true →
        truthy ((lookupProp host.attrs k).prop "readOnly") = false) :
    ∃ after, setSetterAttrs F host uvs = Result.ok after ∧
      after.events = host.events ∧ pendingChanges after = pendingChanges host ∧
      after.initializingAttrs = false ∧
      (∀ k, primedFrom (lookupProp host.attrs k) (lookupProp after.attrs k)) ∧
      (∀ u, uvs = some u → ∀ k ∈ u.map Prod.fst,
        truthy ((lookupProp host.attrs k).prop "setter") = true →
        ∃ n1, lookupProp after.attrs k = (lookupProp host.attrs k).setProp "value"
          (mergedVal Val.undefined (previousValue F host k)
            (applyFn F ((lookupProp host.attrs k).prop "setter")
              ((lookupProp u k).prop "value") k) n1).1) ∧
      (∀ k, (k ∉ (uvs.getD []).map Prod.fst ∨
          truthy ((lookupProp host.attrs k).prop "setter") = false) →
        lookupProp after.attrs k = lookupProp host.attrs k) := by
  have hnd1 : ((uvs.getD []).map Prod.fst).Nodup := by
    cases uvs with
    | none => simp
    | some u => exact hnd u rfl
  have hsup1 : ∀ k ∈ (uvs.getD []).map Prod.fst,
      wellFormedSlot (lookupProp host.attrs k) = true ∧
        (truthy ((lookupProp host.attrs k).prop "setter") = true →
          truthy ((lookupProp host.attrs k).prop "readOnly") = false) := by
    intro k hk
    refine ⟨hwf k, ?_⟩
    cases uvs with
    | none => simp at hk
    | some u => exact hsup u rfl k hk
  obtain ⟨after, hloop, hev, hpend, _, hprimed, hwith, hwithout⟩ :=
    setSetterLoop_ok F (Val.obj host.nextId [("silent", Val.bool true)]) (uvs.getD [])
      { host with initializingAttrs := true, nextId := host.nextId + 1 } rfl hnd1 hsup1
  refine ⟨{ after with initializingAttrs := false }, ?_, hev, hpend, rfl, hprimed, ?_, hwithout⟩
  · simp only [setSetterAttrs, hloop]
  · intro u hu k hk hsk
    subst hu
    obtain ⟨n1, hn1⟩ := hwith k hk hsk
    refine ⟨n1, ?_⟩
    rw [hn1]
    rfl

/-- What `initAttrs(config)` returns when the installed declarations are well formed and no
configured attribute has both a setter and the read-only flag: no event, no pending change,
the flag cleared, and every installed slot kept, or primed with a new `value`. -/
theorem initAttrs_ok (F : Nat → Val → String → Val) (h : Host) (config : Option Members)
    (hwf : ∀ k, wellFormedSlot (lookupProp (instanceAttrs h config).1 k) = true)
    (hsup : ∀ c, config = some c → ∀ k ∈ c.map Prod.fst,
      truthy ((lookupProp (instanceAttrs h config).1 k).prop "setter") = true →
        truthy ((lookupProp (instanceAttrs h config).1 k).prop "readOnly") = false) :
    ∃ a, initAttrs F h config = Result.ok a ∧
      a.events = h.events ∧ pendingChanges a = pendingChanges h ∧
      a.initializingAttrs = false ∧
      (∀ k, primedFrom (lookupProp (instanceAttrs h config).1 k) (lookupProp a.attrs k)) ∧
      (∀ u, userValues h config = some u → ∀ k ∈ u.1.map Prod.fst,
        truthy ((lookupProp (instanceAttrs h config).1 k).prop "setter") = true →
        ∃ n1, lookupProp a.attrs k =
          (lookupProp (instanceAttrs h config).1 k).setProp "value"
            (mergedVal Val.undefined
              (applyFn F ((lookupProp (instanceAttrs h config).1 k).prop "getter")
                ((lookupProp (instanceAttrs h config).1 k).prop "value") k)
              (applyFn F ((lookupProp (instanceAttrs h config).1 k).prop "setter")
                ((lookupProp u.1 k).prop "value") k) n1).1) ∧
      (∀ k, (k ∉ (config.getD []).map Prod.fst ∨
          truthy ((lookupProp (instanceAttrs h config).1 k).prop "setter") = false) →
        lookupProp a.attrs k = lookupProp (instanceAttrs h config).1 k) := by
  obtain ⟨hf1, hf2, hf3⟩ := parseEventsFromInstance_frame (instanceAttrs h config).1 h
  have hkeys : ∀ k, k ∈ (((userValues h config).map Prod.fst).getD []).map Prod.fst ↔
      k ∈ (config.getD []).map Prod.fst := by
    intro k
    cases config with
    | none => simp [userValues]
    | some c =>
      simp only [userValues, Option.map_some', Option.getD_some]
      exact mem_names_normalize c true _ k
  obtain ⟨after, hset, hev, hpend, hinit, hprimed, hwith, hwithout⟩ :=
    setSetterAttrs_ok F
      { parseEventsFromInstance h (instanceAttrs h config).1 with
        attrs := (instanceAttrs h config).1, nextId := (instanceAttrs h config).2 }
      ((userValues h config).map Prod.fst)
      (by
        intro u hu
        cases config with
        | none => simp [userValues] at hu
        | some c =>
          simp only [userValues, Option.map_some'] at hu
          cases hu
          exact nodup_normalize c true _)
      hwf
      (by
        intro u hu k hk
        cases hc : config with
        | none => simp [userValues, hc] at hu
        | some c =>
          have hk2 := (hkeys k).1 (by rw [hu]; exact hk)
          rw [hc] at hk2
          have := hsup c hc k hk2
          rw [hc] at this
          exact this)
  have hgetter : ∀ k, callable ((lookupProp after.attrs k).prop "getter") = true := by
    intro k
    rw [prop_of_primedFrom _ _ "getter" (by decide) (hprimed k)]
    exact (wellFormedSlot_parts _ (hwf k)).2.1
  obtain ⟨a, hcopy, ha1, ha2, ha3, ha4⟩ :=
    copySpecialPropsToHost_ok F h.propsInAttrs after hgetter
  refine ⟨a, ?_, ?_, ?_, ?_, ?_, ?_, ?_⟩
  · simp only [initAttrs, hset, hcopy]
  · rw [ha2, hev]; exact hf1
  · simp only [pendingChanges] at hpend ⊢
    rw [ha3, hpend, hf2]
  · rw [ha4]; exact hinit
  · intro k
    rw [ha1]; exact hprimed k
  · intro u hu k hk hsk
    rw [ha1]
    exact hwith u.1 (by rw [hu]; rfl) k hk hsk
  · intro k hk
    rw [ha1]
    apply hwithout k
    rcases hk with hk | hk
    · left
      intro hc
      exact hk ((hkeys k).1 hc)
    · right
      exact hk

/-! ### Values that are not plain records -/

theorem copyOf_refl (v : Val) : copyOf v v := Or.inl rfl

theorem copyOf_trans (a b c : Val) (hab : copyOf a b) (hbc : copyOf b c) : copyOf a c := by
  rcases hab with hab | ⟨i, j, xs, hb, ha⟩
  · rw [hab]; exact hbc
  · rcases hbc with hbc | ⟨i2, j2, ys, hc, hb2⟩
    · rw [← hbc]; exact Or.inr ⟨i, j, xs, hb, ha⟩
    · rw [hb2] at hb
      cases hb
      exact Or.inr ⟨i2, j, _, hc, ha⟩

theorem isPlainObject_arr (i : Nat) (xs : List Val) : isPlainObject (Val.arr i xs) = false := by
  simp [isPlainObject, toStringCall]

theorem isPlainObject_of_copyOf (w v : Val) (hc : copyOf w v) (hv : isPlainObject v = false) :
    isPlainObject w = false := by
  rcases hc with hc | ⟨i, j, xs, _, hw⟩
  · rw [hc]; exact hv
  · rw [hw]; exact isPlainObject_arr j xs

theorem content_of_copyOf (w v : Val) (hc : copyOf w v) : content w = content v := by
  rcases hc with hc | ⟨i, j, xs, hv, hw⟩
  · rw [hc]
  · rw [hv, hw]; simp [content]

theorem copyOf_mergeValue (prev v : Val) (n : Nat) (hp : isPlainObject v = false) :
    copyOf (mergeValue prev v n).1 v := by
  cases v with
  | arr i xs => exact Or.inr ⟨i, n, xs, rfl, by simp [mergeValue]⟩
  | obj i ms => exact Or.inl (by simp [mergeValue, hp])
  | undefined => exact Or.inl (by simp [mergeValue])
  | null => exact Or.inl (by simp [mergeValue])
  | bool b => exact Or.inl (by simp [mergeValue])
  | num m => exact Or.inl (by simp [mergeValue])
  | nan => exact Or.inl (by simp [mergeValue])
  | str s => exact Or.inl (by simp [mergeValue])
  | fn i s => exact Or.inl (by simp [mergeValue])

theorem isPlainObject_structured (j : Nat) (x : Val) :
    isPlainObject (Val.obj j [("value", x)]) = true := by
  simp [isPlainObject, truthy, toStringCall, Val.prop, lookupProp, isWindow]

/-- Merging the declaration `{value: x}` into any slot gives a declaration object whose
`value` is a copy of `x`, when `x` is not a plain record. -/
theorem mergeValue_structured (prev : Val) (j : Nat) (x : Val) (n : Nat)
    (hx : isPlainObject x = false) :
    isObj (mergeValue prev (Val.obj j [("value", x)]) n).1 = true ∧
      copyOf ((mergeValue prev (Val.obj j [("value", x)]) n).1.prop "value") x := by
  have hst := isPlainObject_structured j x
  by_cases hprev : isPlainObject prev = true
  · obtain ⟨p, pms, rfl⟩ := isObj_of_isPlainObject prev hprev
    simp only [mergeValue, hst, hprev, if_true, merge_cons, merge_nil, isObj, Val.prop,
      lookupProp_assign_same, true_and]
    exact copyOf_mergeValue _ x _ hx
  · have hpf : isPlainObject prev = false := by simpa using hprev
    cases prev <;>
      simp only [mergeValue, hst, hpf, if_true, merge_cons, merge_nil, isObj, Val.prop,
        lookupProp_assign_same, true_and, Bool.false_eq_true, if_false] <;>
      exact copyOf_mergeValue _ x _ hx

theorem lookupProp_normalizeLoop_user (c : Members) (n : Nat) (k : String)
    (hk : k ∈ c.map Prod.fst) :
    ∃ n2, lookupProp (normalizeLoop true c n).1 k = Val.obj n2 [("value", lookupProp c k)] := by
  induction c generalizing n with
  | nil => simp at hk
  | cons m rest ih =>
    obtain ⟨k1, v1⟩ := m
    simp only [normalizeLoop, Bool.not_true, Bool.and_false, Bool.false_and, Bool.false_eq_true,
      if_false]
    by_cases hk1 : k1 = k
    · exact ⟨n, by simp [lookupProp, hk1]⟩
    · have hin : k ∈ rest.map Prod.fst := by
        simp only [List.map_cons, List.mem_cons] at hk
        rcases hk with hk | hk
        · exact absurd hk.symm hk1
        · exact hk
      obtain ⟨n2, hn2⟩ := ih (n + 1) hin
      exact ⟨n2, by simp [lookupProp, hk1, hn2]⟩

/-- A normalized user value: `{value: w}` with `w` a copy of the configured value. -/
theorem lookupProp_normalize_user (c : Members) (n : Nat) (k : String)
    (hnd : (c.map Prod.fst).Nodup) (hk : k ∈ c.map Prod.fst)
    (hv : isPlainObject (lookupProp c k) = false) :
    ∃ n2 w, lookupProp (normalize c true n).1 k = Val.obj n2 [("value", w)] ∧
      copyOf w (lookupProp c k) := by
  have hk2 : k ∈ (merge [] c n).1.map Prod.fst := (mem_names_merge [] c n k).2 (Or.inr hk)
  obtain ⟨n2, hn2⟩ := lookupProp_normalizeLoop_user (merge [] c n).1 (merge [] c n).2 k hk2
  obtain ⟨n1, hn1⟩ := lookupProp_merge_of_mem [] c n k hnd hk
  refine ⟨n2, _, hn2, ?_⟩
  rw [hn1]
  exact copyOf_mergeValue _ _ _ hv

/-! ### Priming through the setter -/

/-- The slot `initAttrs(config)` installs for a configured key whose value is not a plain
record: a declaration object whose `value` is a copy of the configured value, which is also
what `userValues` holds for the key. -/
theorem instanceAttrs_configured (h : Host) (c : Members) (k : String)
    (hnd : (c.map Prod.fst).Nodup) (hk : k ∈ c.map Prod.fst)
    (hv : isPlainObject (lookupProp c k) = false) :
    ∃ u w, userValues h (some c) = some u ∧ k ∈ u.1.map Prod.fst ∧
      (lookupProp u.1 k).prop "value" = w ∧ copyOf w (lookupProp c k) ∧
      isObj (lookupProp (instanceAttrs h (some c)).1 k) = true ∧
      copyOf ((lookupProp (instanceAttrs h (some c)).1 k).prop "value") (lookupProp c k) := by
  obtain ⟨n2, w, hu, hw⟩ :=
    lookupProp_normalize_user c (inheritedClone h).2 k hnd hk hv
  have hku : k ∈ (normalize c true (inheritedClone h).2).1.map Prod.fst :=
    (mem_names_normalize c true _ k).2 hk
  obtain ⟨n1, hn1⟩ := lookupProp_merge_of_mem (inheritedClone h).1
    (normalize c true (inheritedClone h).2).1 (normalize c true (inheritedClone h).2).2 k
    (nodup_normalize c true _) hku
  have hslot : lookupProp (instanceAttrs h (some c)).1 k =
      (mergeValue (lookupProp (inheritedClone h).1 k) (Val.obj n2 [("value", w)]) n1).1 := by
    rw [← hu, ← hn1]
    rfl
  have hwp := isPlainObject_of_copyOf w _ hw hv
  obtain ⟨ho, hcp⟩ := mergeValue_structured (lookupProp (inheritedClone h).1 k) n2 w n1 hwp
  refine ⟨normalize c true (inheritedClone h).2, w, rfl, hku, ?_, hw, ?_, ?_⟩
  · rw [hu]
    simp [Val.prop, lookupProp]
  · rw [hslot]; exact ho
  · rw [hslot]; exact copyOf_trans _ _ _ hcp hw

/-- C9: an attribute `n` installed with a setter `f`, without getter and not read-only, and
configured with a value `v` that is not a plain record: after `initAttrs(config)`,
`get(n)` is `f` applied to the configured value (to its copy `w` when `v` is an array), no
event was emitted, no change is pending and the guard flag is cleared. -/
theorem initAttrs_primes_setter (F : Nat → Val → String → Val) (h : Host) (c : Members)
    (n : String) (v : Val) (f : Nat) (src : String)
    (hfresh : pendingChanges h = [])
    (hwf : ∀ k, wellFormedSlot (lookupProp (instanceAttrs h (some c)).1 k) = true)
    (hsup : ∀ k ∈ c.map Prod.fst,
      truthy ((lookupProp (instanceAttrs h (some c)).1 k).prop "setter") = true →
        truthy ((lookupProp (instanceAttrs h (some c)).1 k).prop "readOnly") = false)
    (hnd : (c.map Prod.fst).Nodup)
    (hn : n ∈ c.map Prod.fst) (hv : lookupProp c n = v) (hnp : isPlainObject v = false)
    (hsetter : (lookupProp (instanceAttrs h (some c)).1 n).prop "setter" = Val.fn f src)
    (hgetter : truthy ((lookupProp (instanceAttrs h (some c)).1 n).prop "getter") = false) :
    ∃ a w, initAttrs F h (some c) = Result.ok a ∧ copyOf w v ∧
      get F a n = Except.ok (F f w n) ∧
      a.events = h.events ∧ pendingChanges a = [] ∧ a.initializingAttrs = false := by
  subst hv
  obtain ⟨u, w, hu, hku, huv, hw, hobj, hval⟩ := instanceAttrs_configured h c n hnd hn hnp
  obtain ⟨a, hinit, hev, hpend, hflag, _, hwith, _⟩ :=
    initAttrs_ok F h (some c) hwf (fun c2 hc2 => by cases hc2; exact hsup)
  have hst : truthy ((lookupProp (instanceAttrs h (some c)).1 n).prop "setter") = true := by
    rw [hsetter]; rfl
  obtain ⟨n1, hslot⟩ := hwith u hu n hku hst
  have hprev : isPlainObject
      (applyFn F ((lookupProp (instanceAttrs h (some c)).1 n).prop "getter")
        ((lookupProp (instanceAttrs h (some c)).1 n).prop "value") n) = false := by
    rw [applyFn_of_falsy F _ _ n hgetter]
    exact isPlainObject_of_copyOf _ _ hval hnp
  rw [mergedVal_of_not_plain _ _ _ _ (by rw [hprev]; rfl), hsetter, huv] at hslot
  simp only [applyFn] at hslot
  have hg2 : (lookupProp a.attrs n).prop "getter" =
      (lookupProp (instanceAttrs h (some c)).1 n).prop "getter" := by
    rw [hslot, prop_setProp_ne _ _ _ _ (by decide)]
  refine ⟨a, w, hinit, hw, ?_, hev, by rw [hpend, hfresh], hflag⟩
  rw [get_eq F a n (by rw [hg2]; simp [callable, hgetter]), hg2,
    applyFn_of_falsy F _ _ n hgetter]
  simp only [storedValue]
  rw [hslot, prop_setProp_same _ _ _ hobj]

theorem wellFormedSlot_lookupProp (ms : Members)
    (hall : (ms.all fun m => wellFormedSlot m.2) = true) (k : String) :
    wellFormedSlot (lookupProp ms k) = true := by
  induction ms with
  | nil => rfl
  | cons m rest ih =>
    obtain ⟨k1, v1⟩ := m
    simp only [List.all_cons, Bool.and_eq_true] at hall
    by_cases hk : k1 = k
    · simp only [lookupProp, hk, if_true]
      exact hall.1
    · simp only [lookupProp, hk, if_false]
      exact ih hall.2

theorem initAttrs_primes_setter_witness :
    pendingChanges (newHost [setterProto]) = [] ∧
      (∀ k, wellFormedSlot (lookupProp
        (instanceAttrs (newHost [setterProto]) (some [("n", Val.num 3)])).1 k) = true) ∧
      (∀ k ∈ [("n", Val.num 3)].map Prod.fst,
        truthy ((lookupProp (instanceAttrs (newHost [setterProto])
          (some [("n", Val.num 3)])).1 k).prop "setter") = true →
        truthy ((lookupProp (instanceAttrs (newHost [setterProto])
          (some [("n", Val.num 3)])).1 k).prop "readOnly") = false) ∧
      ([("n", Val.num 3)].map Prod.fst).Nodup ∧
      "n" ∈ [("n", Val.num 3)].map Prod.fst ∧
      lookupProp [("n", Val.num 3)] "n" = Val.num 3 ∧
      isPlainObject (Val.num 3) = false ∧
      (lookupProp (instanceAttrs (newHost [setterProto])
          (some [("n", Val.num 3)])).1 "n").prop "setter" =
        Val.fn 1 "function (v) \x7b return v * 2; \x7d" ∧
      truthy ((lookupProp (instanceAttrs (newHost [setterProto])
        (some [("n", Val.num 3)])).1 "n").prop "getter") = false ∧
      ∃ a w, initAttrs doubling (newHost [setterProto]) (some [("n", Val.num 3)]) =
          Result.ok a ∧ copyOf w (Val.num 3) ∧
        get doubling a "n" = Except.ok (doubling 1 w "n") ∧
        a.events = (newHost [setterProto]).events ∧ pendingChanges a = [] ∧
        a.initializingAttrs = false :=
  have hwf : ∀ k, wellFormedSlot (lookupProp
      (instanceAttrs (newHost [setterProto]) (some [("n", Val.num 3)])).1 k) = true :=
    fun k => wellFormedSlot_lookupProp _ (by decide) k
  have hsup : ∀ k ∈ [("n", Val.num 3)].map Prod.fst,
      truthy ((lookupProp (instanceAttrs (newHost [setterProto])
        (some [("n", Val.num 3)])).1 k).prop "setter") = true →
      truthy ((lookupProp (instanceAttrs (newHost [setterProto])
        (some [("n", Val.num 3)])).1 k).prop "readOnly") = false := by decide
  ⟨rfl, hwf, hsup, by decide, by decide, rfl, by decide, rfl, by decide,
    initAttrs_primes_setter doubling (newHost [setterProto]) [("n", Val.num 3)] "n"
      (Val.num 3) 1 "function (v) \x7b return v * 2; \x7d" rfl hwf hsup (by decide)
      (by decide) rfl (by decide) rfl (by decide)⟩

/-- The example of the specification: the setter doubles its input, the default is `5` and
the configuration `{n: 3}`; after `initAttrs`, `get('n')` is `6`, no event was emitted and
no change is pending. -/
theorem initAttrs_doubling_example :
    get doubling (initAttrs doubling (newHost [setterProto]) (some [("n", Val.num 3)])).host
        "n" = Except.ok (Val.num 6) ∧
      (initAttrs doubling (newHost [setterProto]) (some [("n", Val.num 3)])).host.events = [] ∧
      pendingChanges
        (initAttrs doubling (newHost [setterProto]) (some [("n", Val.num 3)])).host = [] ∧
      (initAttrs doubling (newHost [setterProto])
        (some [("n", Val.num 3)])).host.initializingAttrs = false :=
  ⟨rfl, rfl, rfl, rfl⟩

/-! ### Attribute sets of bare and structured declarations -/

theorem mem_names_of_lookupProp_obj (ms : Members) (k : String) (i : Nat) (o : Members)
    (hl : lookupProp ms k = Val.obj i o) : k ∈ ms.map Prod.fst := by
  by_contra hc
  rw [lookupProp_of_not_mem ms k hc] at hl
  cases hl

/-- Merging `{value: x}` into a missing slot or into a slot `{value: y}` gives a slot
`{value: w}`, `w` a copy of `x`. -/
theorem mergeValue_simple (prev : Val) (j : Nat) (x : Val) (n : Nat)
    (hprev : prev = Val.undefined ∨ ∃ p y, prev = Val.obj p [("value", y)])
    (hx : isPlainObject x = false) :
    ∃ i w, (mergeValue prev (Val.obj j [("value", x)]) n).1 = Val.obj i [("value", w)] ∧
      copyOf w x := by
  have hst := isPlainObject_structured j x
  rcases hprev with hprev | ⟨p, y, hprev⟩
  · subst hprev
    refine ⟨n, (mergeValue Val.undefined x (n + 1)).1, ?_, copyOf_mergeValue _ x _ hx⟩
    simp [mergeValue, hst, merge_cons, merge_nil, assign, lookupProp]
  · subst hprev
    refine ⟨p, (mergeValue y x n).1, ?_, copyOf_mergeValue _ x _ hx⟩
    simp [mergeValue, hst, isPlainObject_structured p y, merge_cons, merge_nil, assign,
      lookupProp]

theorem simpleSlots_nil : SimpleSlots [] (fun _ => none) := by
  refine ⟨by simp, ?_, ?_⟩
  · intro k v hk
    cases hk
  · intro k _
    simp

theorem simpleSlots_lookup (ms : Members) (spec : String → Option Val)
    (hs : SimpleSlots ms spec) (k : String) :
    lookupProp ms k = Val.undefined ∨ ∃ p y, lookupProp ms k = Val.obj p [("value", y)] := by
  cases hk : spec k with
  | none => exact Or.inl (lookupProp_of_not_mem ms k (hs.2.2 k hk))
  | some v =>
    obtain ⟨_, i, x, hl, _⟩ := hs.2.1 k v hk
    exact Or.inr ⟨i, x, hl⟩

/-- Merging a set of declarations `{value: x}` into another one keeps the form; the merged
set assigns the later value where there is one. -/
theorem simpleSlots_merge (r z : Members) (rs zs : String → Option Val) (n : Nat)
    (hr : SimpleSlots r rs) (hz : SimpleSlots z zs) :
    SimpleSlots (merge r z n).1 (overlay zs rs) := by
  refine ⟨nodup_merge r z n hr.1, ?_, ?_⟩
  · intro k v hk
    cases hzk : zs k with
    | some v2 =>
      have hv : v2 = v := by
        simp only [overlay, hzk] at hk
        exact Option.some.inj hk
      subst hv
      obtain ⟨hvp, i, x, hl, hcp⟩ := hz.2.1 k v2 hzk
      refine ⟨hvp, ?_⟩
      have hmem := mem_names_of_lookupProp_obj z k i _ hl
      obtain ⟨n1, hn1⟩ := lookupProp_merge_of_mem r z n k hz.1 hmem
      rw [hl] at hn1
      obtain ⟨i2, w, hw, hcw⟩ := mergeValue_simple (lookupProp r k) i x n1
        (simpleSlots_lookup r rs hr k) (isPlainObject_of_copyOf x v2 hcp hvp)
      exact ⟨i2, w, by rw [hn1, hw], copyOf_trans _ _ _ hcw hcp⟩
    | none =>
      have hrk : rs k = some v := by simpa [overlay, hzk] using hk
      obtain ⟨hvp, i, x, hl, hcp⟩ := hr.2.1 k v hrk
      refine ⟨hvp, i, x, ?_, hcp⟩
      rw [lookupProp_merge_of_not_mem r z n k (hz.2.2 k hzk)]
      exact hl
  · intro k hk
    have hzk : zs k = none := by
      cases hzk : zs k with
      | none => rfl
      | some v => simp [overlay, hzk] at hk
    have hrk : rs k = none := by simpa [overlay, hzk] using hk
    rw [mem_names_merge]
    intro hc
    rcases hc with hc | hc
    · exact hr.2.2 k hrk hc
    · exact hz.2.2 k hzk hc

theorem lookupProp_normalizeLoop_class (c : Members) (n : Nat) (k : String)
    (hk : k ∈ c.map Prod.fst) :
    ∃ n2, lookupProp (normalizeLoop false c n).1 k =
      if (isPlainObject (lookupProp c k) &&
          hasOwnProperties (lookupProp c k) ATTR_SPECIAL_KEYS) = true then lookupProp c k
      else Val.obj n2 [("value", lookupProp c k)] := by
  induction c generalizing n with
  | nil => simp at hk
  | cons m rest ih =>
    obtain ⟨k1, v1⟩ := m
    by_cases hk1 : k1 = k
    · by_cases hc : (isPlainObject v1 && hasOwnProperties v1 ATTR_SPECIAL_KEYS) = true
      · refine ⟨n, ?_⟩
        have hc2 : (isPlainObject v1 && !false && hasOwnProperties v1 ATTR_SPECIAL_KEYS) = true :=
          by simpa using hc
        simp only [normalizeLoop, hc2, if_true, lookupProp, hk1, hc]
      · refine ⟨n, ?_⟩
        have hc2 : ¬(isPlainObject v1 && !false && hasOwnProperties v1 ATTR_SPECIAL_KEYS) = true :=
          by simpa using hc
        simp only [normalizeLoop, hc2, if_false, lookupProp, hk1, if_true, hc]
        simp
    · have hin : k ∈ rest.map Prod.fst := by
        simp only [List.map_cons, List.mem_cons] at hk
        rcases hk with hk | hk
        · exact absurd hk.symm hk1
        · exact hk
      by_cases hc : (isPlainObject v1 && !false && hasOwnProperties v1 ATTR_SPECIAL_KEYS) = true
      · obtain ⟨n2, hn2⟩ := ih n hin
        exact ⟨n2, by simp only [normalizeLoop, hc, if_true, lookupProp, hk1, if_false, hn2]⟩
      · obtain ⟨n2, hn2⟩ := ih (n + 1) hin
        exact ⟨n2, by simp only [normalizeLoop, hc, if_false, lookupProp, hk1, hn2]⟩

theorem levelSpec_some (L : Members) (k : String) (v : Val) (hk : levelSpec L k = some v) :
    k ∈ L.map Prod.fst ∧ (k, lookupProp L k) ∈ L ∧ v = declValue (lookupProp L k) := by
  unfold levelSpec at hk
  by_cases ho : hasOwn L k = true
  · simp only [ho, if_true] at hk
    exact ⟨(hasOwn_iff_mem L k).1 ho, lookupProp_mem L k ho, (Option.some.inj hk).symm⟩
  · simp [ho] at hk

theorem levelSpec_none (L : Members) (k : String) (hk : levelSpec L k = none) :
    k ∉ L.map Prod.fst := by
  unfold levelSpec at hk
  by_cases ho : hasOwn L k = true
  · simp [ho] at hk
  · intro hc
    exact ho ((hasOwn_iff_mem L k).2 hc)

theorem hasOwnProperties_structured (i : Nat) (w : Val) :
    hasOwnProperties (Val.obj i [("value", w)]) ATTR_SPECIAL_KEYS = true := by
  simp [hasOwnProperties, ATTR_SPECIAL_KEYS, ownEntries, hasOwn]

/-- A class level of bare and structured declarations normalizes to declarations
`{value: x}`, `x` a copy of the declared value. -/
theorem simpleSlots_normalize_class (L : Members) (n : Nat)
    (hnd : (L.map Prod.fst).Nodup) (hs : ∀ m ∈ L, simpleDecl m.2) :
    SimpleSlots (normalize L false n).1 (levelSpec L) := by
  refine ⟨nodup_normalize L false n, ?_, ?_⟩
  · intro k v hk
    obtain ⟨hmem, hin, hv⟩ := levelSpec_some L k v hk
    subst hv
    have hk2 : k ∈ (merge [] L n).1.map Prod.fst := (mem_names_merge [] L n k).2 (Or.inr hmem)
    obtain ⟨n2, hn2⟩ := lookupProp_normalizeLoop_class (merge [] L n).1 (merge [] L n).2 k hk2
    obtain ⟨n1, hn1⟩ := lookupProp_merge_of_mem [] L n k hnd hmem
    have hslot : lookupProp (normalize L false n).1 k =
        if (isPlainObject (lookupProp (merge [] L n).1 k) &&
            hasOwnProperties (lookupProp (merge [] L n).1 k) ATTR_SPECIAL_KEYS) = true
        then lookupProp (merge [] L n).1 k
        else Val.obj n2 [("value", lookupProp (merge [] L n).1 k)] := hn2
    rw [hn1] at hslot
    simp only [lookupProp] at hslot
    rcases hs _ hin with hbare | ⟨i, x, hst, hx⟩
    · simp only at hbare
      have hcp := copyOf_mergeValue Val.undefined (lookupProp L k) n1 hbare
      have hnp := isPlainObject_of_copyOf _ _ hcp hbare
      rw [hnp] at hslot
      simp only [Bool.false_and, Bool.false_eq_true, if_false] at hslot
      refine ⟨?_, n2, _, hslot, ?_⟩
      · simp [declValue, hbare]
      · simpa [declValue, hbare] using hcp
    · simp only at hst
      rw [hst] at hslot ⊢
      obtain ⟨i2, w, hw, hcw⟩ := mergeValue_simple Val.undefined i x n1 (Or.inl rfl) hx
      rw [hw] at hslot
      simp only [isPlainObject_structured, hasOwnProperties_structured, Bool.and_self,
        if_true] at hslot
      have hd : declValue (Val.obj i [("value", x)]) = x := by
        simp [declValue, isPlainObject_structured, Val.prop, lookupProp]
      rw [hd]
      exact ⟨hx, i2, w, hslot, hcw⟩
  · intro k hk
    rw [mem_names_normalize]
    exact levelSpec_none L k hk

/-- A configuration of values that are not plain records normalizes to declarations
`{value: x}`, `x` a copy of the configured value. -/
theorem simpleSlots_normalize_user (c : Members) (n : Nat)
    (hnd : (c.map Prod.fst).Nodup) (hs : ∀ m ∈ c, isPlainObject m.2 = false) :
    SimpleSlots (normalize c true n).1 (configSpec (some c)) := by
  refine ⟨nodup_normalize c true n, ?_, ?_⟩
  · intro k v hk
    simp only [configSpec] at hk
    by_cases ho : hasOwn c k = true
    · simp only [ho, if_true] at hk
      have hv := Option.some.inj hk
      subst hv
      have hnp : isPlainObject (lookupProp c k) = false := hs _ (lookupProp_mem c k ho)
      obtain ⟨n2, w, hl, hw⟩ :=
        lookupProp_normalize_user c n k hnd ((hasOwn_iff_mem c k).1 ho) hnp
      exact ⟨hnp, n2, w, hl, hw⟩
    · simp [ho] at hk
  · intro k hk
    simp only [configSpec] at hk
    rw [mem_names_normalize]
    by_cases ho : hasOwn c k = true
    · simp [ho] at hk
    · intro hc
      exact ho ((hasOwn_iff_mem c k).2 hc)

theorem simpleSlots_mergeLevels :
    ∀ (Ls : List Members) (r : Members) (rs : String → Option Val) (n : Nat),
      SimpleSlots r rs →
      (∀ L ∈ Ls, (L.map Prod.fst).Nodup ∧ ∀ m ∈ L, simpleDecl m.2) →
      SimpleSlots (mergeLevels Ls r n).1 (Ls.foldl (fun s L => overlay (levelSpec L) s) rs)
  | [], r, rs, n, hr, _ => by simpa [mergeLevels] using hr
  | L :: rest, r, rs, n, hr, hLs => by
    have hL := hLs L (by simp)
    simp only [mergeLevels, List.foldl_cons]
    exact simpleSlots_mergeLevels rest _ _ _
      (simpleSlots_merge r _ rs (levelSpec L) _ hr
        (simpleSlots_normalize_class L n hL.1 hL.2))
      (fun L2 hL2 => hLs L2 (by simp [hL2]))

theorem collectAttrs_eq (sp : List String) (protos : List Proto) (acc : List Members) :
    collectAttrs sp protos acc =
      ((protos.map (levelOf sp)).filter (fun L => !isEmptyObject L)).reverse ++ acc := by
  induction protos generalizing acc with
  | nil => simp [collectAttrs]
  | cons p rest ih =>
    simp only [collectAttrs, List.map_cons, List.filter_cons]
    rw [ih]
    by_cases he : isEmptyObject (levelOf sp p) = true
    · simp [levelOf, he] at he ⊢
    · have he2 : isEmptyObject (levelOf sp p) = false := by simpa using he
      have he3 : isEmptyObject (copySpecialProps sp (p.attrs.getD []) p.props) = false := he2
      simp [he2, he3, levelOf]

theorem overlay_none_right (s : String → Option Val) : overlay s (fun _ => none) = s := by
  funext k
  simp only [overlay]
  cases s k <;> rfl

theorem overlay_configSpec_none (s : String → Option Val) : overlay (configSpec none) s = s := by
  funext k
  simp [overlay, configSpec]

theorem inheritedSpec_cons (L : Members) (rest : List Members) :
    inheritedSpec (L :: rest) = overlay (levelSpec L) (inheritedSpec rest) := by
  funext k
  by_cases ho : hasOwn L k = true
  · simp [inheritedSpec, declaredBy, overlay, levelSpec, List.find?, ho]
  · have hf : hasOwn L k = false := by simpa using ho
    simp [inheritedSpec, declaredBy, overlay, levelSpec, List.find?, hf]

theorem levelSpec_of_empty (L : Members) (he : isEmptyObject L = true) :
    levelSpec L = fun _ => none := by
  have hL : L = [] := by simpa [isEmptyObject] using he
  subst hL
  funext k
  simp [levelSpec, hasOwn]

theorem overlay_none_left (s : String → Option Val) : overlay (fun _ => none) s = s := by
  funext k
  simp [overlay]

/-- Folding the levels from the furthest ancestor on, empty levels skipped, assigns every
name the value of the most derived level that declares it. -/
theorem foldr_overlay_eq (levels : List Members) :
    (levels.filter (fun L => !isEmptyObject L)).foldr
        (fun L s => overlay (levelSpec L) s) (fun _ => none) = inheritedSpec levels := by
  induction levels with
  | nil =>
    funext k
    simp [inheritedSpec, declaredBy]
  | cons L rest ih =>
    rw [inheritedSpec_cons]
    by_cases he : isEmptyObject L = true
    · simp only [List.filter_cons, he, Bool.not_true, Bool.false_eq_true, if_false]
      rw [ih, levelSpec_of_empty L he, overlay_none_left]
    · have he2 : isEmptyObject L = false := by simpa using he
      simp only [List.filter_cons, he2, Bool.not_false, if_true, List.foldr_cons]
      rw [ih]

/-- The declarations `initAttrs(config)` installs, for class levels of bare and structured
declarations and a configuration of values that are not plain records: every slot is
`{value: x}`, `x` a copy of the configured value, else of the value of the most derived
level declaring the name. -/
theorem simpleSlots_instanceAttrs (h : Host) (config : Option Members)
    (hlevels : ∀ L ∈ levelsOf h, (L.map Prod.fst).Nodup ∧ ∀ m ∈ L, simpleDecl m.2)
    (hconfig : ∀ c, config = some c →
      (c.map Prod.fst).Nodup ∧ ∀ m ∈ c, isPlainObject m.2 = false) :
    SimpleSlots (instanceAttrs h config).1
      (overlay (configSpec config) (inheritedSpec (levelsOf h))) := by
  have hinh : SimpleSlots (getInheritedAttrs h.protos h.propsInAttrs h.nextId).1
      (inheritedSpec (levelsOf h)) := by
    have := simpleSlots_mergeLevels (collectAttrs h.propsInAttrs h.protos []) []
      (fun _ => none) h.nextId simpleSlots_nil
      (by
        intro L hL
        rw [collectAttrs_eq] at hL
        simp only [List.append_nil, List.mem_reverse, List.mem_filter] at hL
        exact hlevels L hL.1)
    rw [collectAttrs_eq, List.append_nil, List.foldl_reverse] at this
    rw [← foldr_overlay_eq]
    unfold getInheritedAttrs levelsOf
    rw [collectAttrs_eq, List.append_nil]
    exact this
  have hclone : SimpleSlots (inheritedClone h).1 (inheritedSpec (levelsOf h)) := by
    have := simpleSlots_merge [] (getInheritedAttrs h.protos h.propsInAttrs h.nextId).1
      (fun _ => none) (inheritedSpec (levelsOf h))
      (getInheritedAttrs h.protos h.propsInAttrs h.nextId).2 simpleSlots_nil hinh
    rw [overlay_none_right] at this
    exact this
  cases config with
  | none =>
    rw [overlay_configSpec_none]
    exact hclone
  | some c =>
    obtain ⟨hnd, hnp⟩ := hconfig c rfl
    exact simpleSlots_merge (inheritedClone h).1 _ _ _ _ hclone
      (simpleSlots_normalize_user c (inheritedClone h).2 hnd hnp)

theorem wellFormedSlot_of_simple (a : Val)
    (ha : a = Val.undefined ∨ ∃ p y, a = Val.obj p [("value", y)]) :
    wellFormedSlot a = true ∧ truthy (a.prop "setter") = false ∧
      truthy (a.prop "getter") = false := by
  rcases ha with ha | ⟨p, y, ha⟩ <;> subst ha <;>
    simp [wellFormedSlot, callable, truthy, isObj, Val.prop, lookupProp]

/-- What `initAttrs(config)` gives on class levels of bare and structured declarations and
a configuration of values that are not plain records: it returns, and `get(k)` is a copy of
the configured value, else of the value of the most derived level declaring `k`, else
`undefined`. -/
theorem initAttrs_simple (F : Nat → Val → String → Val) (h : Host) (config : Option Members)
    (hlevels : ∀ L ∈ levelsOf h, (L.map Prod.fst).Nodup ∧ ∀ m ∈ L, simpleDecl m.2)
    (hconfig : ∀ c, config = some c →
      (c.map Prod.fst).Nodup ∧ ∀ m ∈ c, isPlainObject m.2 = false) :
    ∃ a, initAttrs F h config = Result.ok a ∧
      ∀ k, (∀ v, overlay (configSpec config) (inheritedSpec (levelsOf h)) k = some v →
          ∃ x, get F a k = Except.ok x ∧ copyOf x v) ∧
        (overlay (configSpec config) (inheritedSpec (levelsOf h)) k = none →
          get F a k = Except.ok Val.undefined) := by
  have hs := simpleSlots_instanceAttrs h config hlevels hconfig
  have hform := fun k => wellFormedSlot_of_simple _ (simpleSlots_lookup _ _ hs k)
  obtain ⟨a, hinit, _, _, _, _, _, hsame⟩ :=
    initAttrs_ok F h config (fun k => (hform k).1)
      (fun c _ k _ hsk => by rw [(hform k).2.1] at hsk; exact Bool.noConfusion hsk)
  refine ⟨a, hinit, ?_⟩
  intro k
  have hslot := hsame k (Or.inr (hform k).2.1)
  have hget : get F a k =
      Except.ok ((lookupProp (instanceAttrs h config).1 k).prop "value") := by
    rw [get_eq F a k (by rw [hslot]; simp [callable, (hform k).2.2])]
    simp only [storedValue, hslot]
    rw [applyFn_of_falsy F _ _ k (hform k).2.2]
  constructor
  · intro v hv
    obtain ⟨_, i, x, hl, hcp⟩ := hs.2.1 k v hv
    refine ⟨x, ?_, hcp⟩
    rw [hget, hl]
    simp [Val.prop, lookupProp]
  · intro hn
    rw [hget, lookupProp_of_not_mem _ k (hs.2.2 k hn)]
    rfl

/-! ### Inheritance and configuration -/

theorem declaredBy_some (levels : List Members) (k : String) (v : Val)
    (hd : declaredBy levels k = some v) : ∃ L ∈ levels, (k, v) ∈ L := by
  unfold declaredBy at hd
  cases hf : levels.find? (fun L => hasOwn L k) with
  | none => simp [hf] at hd
  | some L =>
    simp only [hf, Option.map_some', Option.some.injEq] at hd
    subst hd
    have hown : hasOwn L k = true := by
      have := List.find?_some hf
      simpa using this
    exact ⟨L, List.mem_of_find?_eq_some hf, lookupProp_mem L k hown⟩

/-- C7: for class levels whose declarations are bare values that are not plain records,
`initAttrs()` returns and `get(name)` is the value declared by the most derived level that
declares the name (a copy of it when it is an array), also when only an ancestor declares
it; a name no level declares reads `undefined`. -/
theorem initAttrs_inherits_most_derived (F : Nat → Val → String → Val) (h : Host)
    (hnd : ∀ L ∈ levelsOf h, (L.map Prod.fst).Nodup)
    (hbare : ∀ L ∈ levelsOf h, ∀ m ∈ L, isPlainObject m.2 = false) :
    ∃ a, initAttrs F h none = Result.ok a ∧
      ∀ name, (∀ v, declaredBy (levelsOf h) name = some v →
          ∃ x, get F a name = Except.ok x ∧ copyOf x v) ∧
        (declaredBy (levelsOf h) name = none → get F a name = Except.ok Val.undefined) := by
  obtain ⟨a, hinit, hget⟩ := initAttrs_simple F h none
    (fun L hL => ⟨hnd L hL, fun m hm => Or.inl (hbare L hL m hm)⟩)
    (fun c hc => by cases hc)
  refine ⟨a, hinit, ?_⟩
  intro name
  rw [overlay_configSpec_none] at hget
  constructor
  · intro v hv
    obtain ⟨L, hL, hm⟩ := declaredBy_some _ name v hv
    have hnp : isPlainObject v = false := hbare L hL _ hm
    apply (hget name).1 v
    simp [inheritedSpec, hv, declValue, hnp]
  · intro hn
    apply (hget name).2
    simp [inheritedSpec, hn]

theorem initAttrs_inherits_most_derived_witness :
    (∀ L ∈ levelsOf (newHost [derivedProto, ancestorProto]), (L.map Prod.fst).Nodup) ∧
      (∀ L ∈ levelsOf (newHost [derivedProto, ancestorProto]),
        ∀ m ∈ L, isPlainObject m.2 = false) ∧
      ∃ a, initAttrs doubling (newHost [derivedProto, ancestorProto]) none = Result.ok a ∧
        ∀ name, (∀ v, declaredBy (levelsOf (newHost [derivedProto, ancestorProto])) name =
              some v → ∃ x, get doubling a name = Except.ok x ∧ copyOf x v) ∧
          (declaredBy (levelsOf (newHost [derivedProto, ancestorProto])) name = none →
            get doubling a name = Except.ok Val.undefined) :=
  have hnd : ∀ L ∈ levelsOf (newHost [derivedProto, ancestorProto]),
      (L.map Prod.fst).Nodup := by decide
  have hbare : ∀ L ∈ levelsOf (newHost [derivedProto, ancestorProto]),
      ∀ m ∈ L, isPlainObject m.2 = false := by decide
  ⟨hnd, hbare,
    initAttrs_inherits_most_derived doubling (newHost [derivedProto, ancestorProto]) hnd hbare⟩

/-- The example of the specification: the ancestor declares `{x: 1, y: 5}` and the derived
class `{y: 10}`; after `initAttrs()`, `get('x')` is `1` and `get('y')` is `10`. -/
theorem initAttrs_inherits_example :
    get doubling (initAttrs doubling (newHost [derivedProto, ancestorProto]) none).host "x" =
        Except.ok (Val.num 1) ∧
      get doubling (initAttrs doubling (newHost [derivedProto, ancestorProto]) none).host "y" =
        Except.ok (Val.num 10) :=
  ⟨rfl, rfl⟩

theorem levelSpec_congr (L1 L2 : Members) (hs : sameDeclarations L1 L2) :
    levelSpec L1 = levelSpec L2 := by
  funext k
  simp only [levelSpec, (hs k).1, (hs k).2]

theorem inheritedSpec_congr (Ls1 Ls2 : List Members)
    (hs : List.Forall₂ sameDeclarations Ls1 Ls2) : inheritedSpec Ls1 = inheritedSpec Ls2 := by
  induction hs with
  | nil => rfl
  | cons hL _ ih => rw [inheritedSpec_cons, inheritedSpec_cons, ih, levelSpec_congr _ _ hL]

theorem sameDeclarations_nil : sameDeclarations [] [] :=
  fun _ => ⟨rfl, rfl⟩

theorem sameDeclarations_cons (k : String) (e1 e2 : Val) (L1 L2 : Members)
    (he : declValue e1 = declValue e2) (hrest : sameDeclarations L1 L2) :
    sameDeclarations ((k, e1) :: L1) ((k, e2) :: L2) := by
  intro k2
  by_cases hk : k = k2
  · simp [hasOwn, lookupProp, hk, he]
  · simp [hasOwn, lookupProp, hk, hrest k2]

theorem declValue_structured (i : Nat) (v : Val) :
    declValue (Val.obj i [("value", v)]) = v := by
  simp [declValue, isPlainObject_structured, Val.prop, lookupProp]

theorem declValue_bare (v : Val) (hv : isPlainObject v = false) : declValue v = v := by
  simp [declValue, hv]

/-- C8: two class chains whose levels declare the same attributes with the same values that
are not plain records, each declaration written bare (`v`) or structured (`{value: v}`),
give after `initAttrs(config)` the same `get(k)` for every `k` (the same content: an array
is copied for each instance); and a configured value that is not a plain record is what
`get(k)` returns, whatever the levels declare. -/
theorem bare_and_structured_agree (F : Nat → Val → String → Val) (h1 h2 : Host)
    (config : Option Members)
    (hl1 : ∀ L ∈ levelsOf h1, (L.map Prod.fst).Nodup ∧ ∀ m ∈ L, simpleDecl m.2)
    (hl2 : ∀ L ∈ levelsOf h2, (L.map Prod.fst).Nodup ∧ ∀ m ∈ L, simpleDecl m.2)
    (hsame : List.Forall₂ sameDeclarations (levelsOf h1) (levelsOf h2))
    (hconfig : ∀ c, config = some c →
      (c.map Prod.fst).Nodup ∧ ∀ m ∈ c, isPlainObject m.2 = false) :
    ∃ a b, initAttrs F h1 config = Result.ok a ∧ initAttrs F h2 config = Result.ok b ∧
      (∀ k, ∃ x y, get F a k = Except.ok x ∧ get F b k = Except.ok y ∧
        content x = content y) ∧
      (∀ c, config = some c → ∀ k ∈ c.map Prod.fst,
        ∃ x, get F a k = Except.ok x ∧ copyOf x (lookupProp c k)) := by
  obtain ⟨a, hia, hga⟩ := initAttrs_simple F h1 config hl1 hconfig
  obtain ⟨b, hib, hgb⟩ := initAttrs_simple F h2 config hl2 hconfig
  rw [← inheritedSpec_congr _ _ hsame] at hgb
  refine ⟨a, b, hia, hib, ?_, ?_⟩
  · intro k
    cases hk : overlay (configSpec config) (inheritedSpec (levelsOf h1)) k with
    | none =>
      exact ⟨_, _, (hga k).2 hk, (hgb k).2 hk, rfl⟩
    | some v =>
      obtain ⟨x, hx, hcx⟩ := (hga k).1 v hk
      obtain ⟨y, hy, hcy⟩ := (hgb k).1 v hk
      exact ⟨x, y, hx, hy, by rw [content_of_copyOf x v hcx, content_of_copyOf y v hcy]⟩
  · intro c hc k hk
    subst hc
    apply (hga k).1
    have ho : hasOwn c k = true := (hasOwn_iff_mem c k).2 hk
    simp [overlay, configSpec, ho]

theorem bare_and_structured_agree_witness :
    (∀ L ∈ levelsOf (newHost [circleProto, shapeProto]),
        (L.map Prod.fst).Nodup ∧ ∀ m ∈ L, simpleDecl m.2) ∧
      (∀ L ∈ levelsOf (newHost [circleProtoSwapped, shapeProtoSwapped]),
        (L.map Prod.fst).Nodup ∧ ∀ m ∈ L, simpleDecl m.2) ∧
      List.Forall₂ sameDeclarations (levelsOf (newHost [circleProto, shapeProto]))
        (levelsOf (newHost [circleProtoSwapped, shapeProtoSwapped])) ∧
      (∀ c, some [("color", Val.str "red")] = some c →
        (c.map Prod.fst).Nodup ∧ ∀ m ∈ c, isPlainObject m.2 = false) ∧
      ∃ a b, initAttrs doubling (newHost [circleProto, shapeProto])
            (some [("color", Val.str "red")]) = Result.ok a ∧
        initAttrs doubling (newHost [circleProtoSwapped, shapeProtoSwapped])
            (some [("color", Val.str "red")]) = Result.ok b ∧
        (∀ k, ∃ x y, get doubling a k = Except.ok x ∧ get doubling b k = Except.ok y ∧
          content x = content y) ∧
        (∀ c, some [("color", Val.str "red")] = some c → ∀ k ∈ c.map Prod.fst,
          ∃ x, get doubling a k = Except.ok x ∧ copyOf x (lookupProp c k)) :=
  have hl1 : ∀ L ∈ levelsOf (newHost [circleProto, shapeProto]),
      (L.map Prod.fst).Nodup ∧ ∀ m ∈ L, simpleDecl m.2 := by
    intro L hL
    have hL2 : L = [("size", Val.num 2)] ∨
        L = [("color", Val.str "black"), ("size", Val.obj 0 [("value", Val.num 1)])] := by
      simpa [levelsOf, newHost, circleProto, shapeProto, levelOf, copySpecialProps] using hL
    rcases hL2 with rfl | rfl
    · refine ⟨by decide, ?_⟩
      intro m hm
      simp only [List.mem_singleton] at hm
      subst hm
      exact Or.inl (by decide)
    · refine ⟨by decide, ?_⟩
      intro m hm
      simp only [List.mem_cons, List.mem_singleton, List.not_mem_nil, or_false] at hm
      rcases hm with rfl | rfl
      · exact Or.inl (by decide)
      · exact Or.inr ⟨0, Val.num 1, rfl, by decide⟩
  have hl2 : ∀ L ∈ levelsOf (newHost [circleProtoSwapped, shapeProtoSwapped]),
      (L.map Prod.fst).Nodup ∧ ∀ m ∈ L, simpleDecl m.2 := by
    intro L hL
    have hL2 : L = [("size", Val.obj 0 [("value", Val.num 2)])] ∨
        L = [("color", Val.obj 0 [("value", Val.str "black")]), ("size", Val.num 1)] := by
      simpa [levelsOf, newHost, circleProtoSwapped, shapeProtoSwapped, levelOf,
        copySpecialProps] using hL
    rcases hL2 with rfl | rfl
    · refine ⟨by decide, ?_⟩
      intro m hm
      simp only [List.mem_singleton] at hm
      subst hm
      exact Or.inr ⟨0, Val.num 2, rfl, by decide⟩
    · refine ⟨by decide, ?_⟩
      intro m hm
      simp only [List.mem_cons, List.mem_singleton, List.not_mem_nil, or_false] at hm
      rcases hm with rfl | rfl
      · exact Or.inr ⟨0, Val.str "black", rfl, by decide⟩
      · exact Or.inl (by decide)
  have hsame : List.Forall₂ sameDeclarations (levelsOf (newHost [circleProto, shapeProto]))
      (levelsOf (newHost [circleProtoSwapped, shapeProtoSwapped])) :=
    List.Forall₂.cons
      (sameDeclarations_cons "size" _ _ [] []
        (by rw [declValue_structured, declValue_bare _ (by decide)]) sameDeclarations_nil)
      (List.Forall₂.cons
        (sameDeclarations_cons "color" _ _ _ _
          (by rw [declValue_structured, declValue_bare _ (by decide)])
          (sameDeclarations_cons "size" _ _ [] []
            (by rw [declValue_structured, declValue_bare _ (by decide)])
            sameDeclarations_nil))
        List.Forall₂.nil)
  have hconfig : ∀ c, some [("color", Val.str "red")] = some c →
      (c.map Prod.fst).Nodup ∧ ∀ m ∈ c, isPlainObject m.2 = false := by
    intro c hc
    cases hc
    exact ⟨by decide, by decide⟩
  ⟨hl1, hl2, hsame, hconfig,
    bare_and_structured_agree doubling (newHost [circleProto, shapeProto])
      (newHost [circleProtoSwapped, shapeProtoSwapped]) (some [("color", Val.str "red")])
      hl1 hl2 hsame hconfig⟩

/-- The scenario of the specification: `Shape` declares `{color: 'black', size: {value: 1}}`,
`Circle` declares `{size: 2}` and the configuration is `{color: 'red'}`; after `initAttrs`,
`get('color')` is `'red'` and `get('size')` is `2`, and so it is with every declaration
written the other way. -/
theorem initAttrs_shape_example :
    get doubling (initAttrs doubling (newHost [circleProto, shapeProto])
        (some [("color", Val.str "red")])).host "color" = Except.ok (Val.str "red") ∧
      get doubling (initAttrs doubling (newHost [circleProto, shapeProto])
        (some [("color", Val.str "red")])).host "size" = Except.ok (Val.num 2) ∧
      get doubling (initAttrs doubling (newHost [circleProtoSwapped, shapeProtoSwapped])
        (some [("color", Val.str "red")])).host "color" = Except.ok (Val.str "red") ∧
      get doubling (initAttrs doubling (newHost [circleProtoSwapped, shapeProtoSwapped])
        (some [("color", Val.str "red")])).host "size" = Except.ok (Val.num 2) :=
  ⟨rfl, rfl, rfl, rfl⟩

/-- Rewriting the bare declaration `k: v` of a level as `k: {value: v}` gives a level with
the same declarations. -/
theorem sameDeclarations_restructure (L : Members) (k : String) (i : Nat)
    (hv : isPlainObject (lookupProp L k) = false) :
    hasOwn L k = true →
      sameDeclarations L (assign L k (Val.obj i [("value", lookupProp L k)])) := by
  intro hk k2
  have hmem : k2 ∈ (assign L k (Val.obj i [("value", lookupProp L k)])).map Prod.fst ↔
      k2 ∈ L.map Prod.fst := by
    rw [mem_names_assign]
    constructor
    · intro hc
      rcases hc with hc | hc
      · rw [hc]; exact (hasOwn_iff_mem L k).1 hk
      · exact hc
    · intro hc; exact Or.inr hc
  constructor
  · by_cases ho : hasOwn L k2 = true
    · rw [ho, (hasOwn_iff_mem _ k2).2 (hmem.2 ((hasOwn_iff_mem L k2).1 ho))]
    · have hn : ¬hasOwn (assign L k (Val.obj i [("value", lookupProp L k)])) k2 = true :=
        fun hc => ho ((hasOwn_iff_mem L k2).2 (hmem.1 ((hasOwn_iff_mem _ k2).1 hc)))
      simp only [Bool.not_eq_true] at ho hn
      rw [ho, hn]
  · by_cases hkk : k = k2
    · subst hkk
      rw [lookupProp_assign_same, declValue_structured, declValue_bare _ hv]
    · rw [lookupProp_assign_ne _ _ _ _ hkk]

/-! ### Unknown keys -/

theorem isEqual_undefined (v : Val) : isEqual Val.undefined v = isEmptyAttrValue v := by
  cases v <;>
    simp [isEqual, isEqualWith, strictEq, isEmptyAttrValue, isString, isArray, isPlainObject,
      toStringCall, truthy, lengthOf]
  rw [Bool.eq_iff_iff]
  simp

theorem chainRead_of_ordinary (ms : Members) (k : String) (hk : k ∉ objectPrototypeNames) :
    chainRead ms k = lookupProp ms k := by
  have hp : k ≠ "__proto__" := by
    intro hc
    exact hk (by rw [hc]; decide)
  by_cases ho : hasOwn ms k = true
  · simp [chainRead, ho]
  · have hn : k ∉ ms.map Prod.fst := fun hc => ho ((hasOwn_iff_mem ms k).2 hc)
    simp [chainRead, ho, hp, hk, lookupProp_of_not_mem ms k hn]

/-- The read of line 75 at a name of `Object.prototype` the host has no slot for finds the
inherited member: `now['constructor']` is a function, so `set('constructor', v)` creates no
slot and writes `value` on that function, where the embedding creates a slot. -/
theorem inherited_member_read_as_slot :
    "constructor" ∉ sampleHost.attrs.map Prod.fst ∧
      lookupProp sampleHost.attrs "constructor" = Val.undefined ∧
      truthy (chainRead sampleHost.attrs "constructor") = true ∧
      isFn (chainRead sampleHost.attrs "constructor") = true ∧
      hasOwn (ensureSlot sampleHost "constructor").attrs "constructor" = true :=
  ⟨by decide, rfl, by decide, by decide, by decide⟩

/-- C12: for a key `k` with no slot in `attrs` that is not the name of a member of
`Object.prototype` (so that the read `now[k]` of line 75 finds nothing, own or inherited),
`get(k)` returns `undefined` (a read, which leaves the host as it is), and a write
`set(k, v)` that is not silent, outside guarded initialization, returns, creates the slot
`{value: v}` without getter, setter or read-only flag and leaves the other slots alone, after
which `get(k)` is `v`, and emits `change:k` with `(v, undefined, k)` exactly when `v` is not
an empty value. -/
theorem set_unknown_key_creates_slot (F : Nat → Val → String → Val) (h : Host) (k : String)
    (v options : Val)
    (habs : k ∉ h.attrs.map Prod.fst)
    (hord : k ∉ objectPrototypeNames)
    (hinit : h.initializingAttrs = false)
    (hsil : truthy (options.prop "silent") = false) :
    chainRead h.attrs k = Val.undefined ∧
      get F h k = Except.ok Val.undefined ∧
      ∃ h1, set F h (Val.str k) v options = Result.ok h1 ∧
        lookupProp h1.attrs k = Val.obj h.nextId [("value", v)] ∧
        (∀ k2, k ≠ k2 → lookupProp h1.attrs k2 = lookupProp h.attrs k2) ∧
        get F h1 k = Except.ok v ∧
        h1.events = h.events ++
          (if isEmptyAttrValue v = true then []
            else [⟨"change:" ++ k, [v, Val.undefined, Val.str k]⟩]) := by
  have hl : lookupProp h.attrs k = Val.undefined := lookupProp_of_not_mem h.attrs k habs
  have hp : plainSlot (lookupProp h.attrs k) = true := by rw [hl]; rfl
  have hst : storedValue h k = Val.undefined := by simp [storedValue, hl, Val.prop]
  have hmv : ∀ n, mergedVal (options.prop "override") Val.undefined v n = (v, n) :=
    fun n => mergedVal_of_not_plain _ _ _ _ (by simp [isPlainObject, truthy])
  refine ⟨by rw [chainRead_of_ordinary _ k hord, hl], by rw [get_plain F h k hp, hst], ?_⟩
  obtain ⟨h1, hset, hget⟩ := set_plain_get F h k v options hp
  rw [hst, hmv] at hget
  refine ⟨h1, hset, ?_, ?_, hget, ?_⟩
  · have hs2 := set_plain F h k v options hp
    rw [hset] at hs2
    cases hs2
    rw [commit_attrs, lookupProp_assign_same, hst, hmv]
    simp [ensureSlot, hl, truthy, lookupProp_assign_same, Val.setProp, assign]
  · intro k2 hne
    have hs2 := set_plain F h k v options hp
    rw [hset] at hs2
    cases hs2
    rw [commit_attrs, lookupProp_assign_ne _ _ _ _ hne, lookupProp_ensureSlot_ne _ _ _ hne]
  · have hs2 := set_plain F h k v options hp
    rw [hset] at hs2
    cases hs2
    rw [commit_events, hst, hmv, ensureSlot_events, ensureSlot_initializingAttrs]
    simp only [hinit, hsil, isEqual_undefined, true_and, and_true]
    by_cases he : isEmptyAttrValue v = true
    · simp [he]
    · simp [he]

theorem set_unknown_key_creates_slot_witness :
    "zz" ∉ sampleHost.attrs.map Prod.fst ∧ "zz" ∉ objectPrototypeNames ∧
      sampleHost.initializingAttrs = false ∧
      truthy (Val.undefined.prop "silent") = false ∧
      (chainRead sampleHost.attrs "zz" = Val.undefined ∧
        get doubling sampleHost "zz" = Except.ok Val.undefined ∧
        ∃ h1, set doubling sampleHost (Val.str "zz") (Val.num 7) Val.undefined = Result.ok h1 ∧
          lookupProp h1.attrs "zz" = Val.obj sampleHost.nextId [("value", Val.num 7)] ∧
          (∀ k2, "zz" ≠ k2 → lookupProp h1.attrs k2 = lookupProp sampleHost.attrs k2) ∧
          get doubling h1 "zz" = Except.ok (Val.num 7) ∧
          h1.events = sampleHost.events ++
            (if isEmptyAttrValue (Val.num 7) = true then []
              else [⟨"change:" ++ "zz", [Val.num 7, Val.undefined, Val.str "zz"]⟩])) :=
  ⟨by decide, by decide, rfl, rfl,
    set_unknown_key_creates_slot doubling sampleHost "zz" (Val.num 7) Val.undefined
      (by decide) (by decide) rfl rfl⟩

/-! ### Two silent writes to one attribute -/

theorem set_plain_after (F : Nat → Val → String → Val) (h : Host) (k : String)
    (v options : Val)
    (hp : plainSlot (lookupProp h.attrs k) = true) :
    storedValue (set F h (Val.str k) v options).host k =
        (mergedVal (options.prop "override") (storedValue h k) v h.nextId).1 ∧
      plainSlot (lookupProp (set F h (Val.str k) v options).host.attrs k) = true := by
  obtain ⟨hobj, _, _, _⟩ := plainSlot_parts _ hp
  have hslot := isObj_ensureSlot { h with changedAttrs := some (h.changedAttrs.getD []) } k hobj
  have hp0 : plainSlot (lookupProp
      ({ h with changedAttrs := some (h.changedAttrs.getD []) } : Host).attrs k) = true := hp
  have hp1 := plainSlot_ensureSlot _ k hp0
  rw [set_plain F h k v options hp]
  simp only [Result.host]
  constructor
  · rw [storedValue_commit _ _ _ _ _ hslot, mergedVal_plain_fst]
  · rw [commit_attrs, lookupProp_assign_same]
    exact plainSlot_setProp_value _ _ hslot hp1

theorem assign_assign {β : Type} (ms : List (String × β)) (k : String) (x y : β) :
    assign (assign ms k x) k y = assign ms k y := by
  induction ms with
  | nil => simp [assign]
  | cons m rest ih =>
    obtain ⟨k1, v1⟩ := m
    by_cases hk : k1 = k
    · simp [assign, hk]
    · simp [assign, hk, ih]

theorem filter_assign {β : Type} (ms : List (String × β)) (k : String) (x : β)
    (hnd : (ms.map Prod.fst).Nodup) :
    (assign ms k x).filter (fun e => e.1 = k) = [(k, x)] := by
  induction ms with
  | nil => simp [assign]
  | cons m rest ih =>
    obtain ⟨k1, v1⟩ := m
    simp only [List.map_cons, List.nodup_cons] at hnd
    by_cases hk : k1 = k
    · subst hk
      have hnone : rest.filter (fun e => decide (e.1 = k1)) = [] := by
        rw [List.filter_eq_nil_iff]
        intro e he hc
        have : e.1 = k1 := by simpa using hc
        exact hnd.1 (this ▸ List.mem_map_of_mem Prod.fst he)
      simp [assign, List.filter_cons, hnone]
    · simp [assign, hk, List.filter_cons, ih hnd.2]

/-- C18 (as the code has it): two silent writes to a plain attribute, outside guarded
initialization, each of a value that is not `isEqual` to the value it replaces and is not
merged with it, leave a single pending entry for `k`, the pair `(v2, v1)` of the second
write, and `change()` emits the pending entries, of which that one alone is for `k`. -/
theorem silent_writes_overwrite_pending (F : Nat → Val → String → Val) (h : Host)
    (k : String) (v1 v2 o1 o2 : Val)
    (hinit : h.initializingAttrs = false)
    (hp : plainSlot (lookupProp h.attrs k) = true)
    (hnd : ((pendingChanges h).map Prod.fst).Nodup)
    (hs1 : truthy (o1.prop "silent") = true) (hs2 : truthy (o2.prop "silent") = true)
    (hn1 : (isPlainObject (storedValue h k) && isPlainObject v1) = false)
    (hn2 : (isPlainObject v1 && isPlainObject v2) = false)
    (he1 : isEqual (storedValue h k) v1 = false)
    (he2 : isEqual v1 v2 = false) :
    ∃ h1 h2, set F h (Val.str k) v1 o1 = Result.ok h1 ∧
      set F h1 (Val.str k) v2 o2 = Result.ok h2 ∧
      h2.events = h.events ∧
      pendingChanges h2 = assign (pendingChanges h) k (v2, v1) ∧
      (pendingChanges h2).filter (fun e => e.1 = k) = [(k, v2, v1)] ∧
      (change h2).events = h.events ++ (pendingChanges h2).map
        (fun e => (⟨"change:" ++ e.1, [e.2.1, e.2.2, Val.str e.1]⟩ : Event)) := by
  obtain ⟨h1, hset1, hev1, hpend1, hinit1, _⟩ :=
    set_plain_silent F h k v1 o1 hp hinit hs1 hn1 he1
  have ha := set_plain_after F h k v1 o1 hp
  rw [hset1, mergedVal_of_not_plain _ _ _ _ hn1] at ha
  simp only [Result.host] at ha
  obtain ⟨hst1, hp1⟩ := ha
  obtain ⟨h2, hset2, hev2, hpend2, _, _⟩ :=
    set_plain_silent F h1 k v2 o2 hp1 hinit1 hs2 (by rw [hst1]; exact hn2)
      (by rw [hst1]; exact he2)
  have hpend : pendingChanges h2 = assign (pendingChanges h) k (v2, v1) := by
    rw [hpend2, hpend1, hst1, assign_assign]
  refine ⟨h1, h2, hset1, hset2, by rw [hev2, hev1], hpend, ?_, ?_⟩
  · rw [hpend]
    exact filter_assign _ k _ hnd
  · rw [change_events, hev2, hev1]

theorem silent_writes_overwrite_pending_witness :
    sampleHost.initializingAttrs = false ∧
      plainSlot (lookupProp sampleHost.attrs "a") = true ∧
      ((pendingChanges sampleHost).map Prod.fst).Nodup ∧
      truthy (silentOptions.prop "silent") = true ∧
      (isPlainObject (storedValue sampleHost "a") && isPlainObject (Val.num 1)) = false ∧
      (isPlainObject (Val.num 1) && isPlainObject (Val.num 2)) = false ∧
      isEqual (storedValue sampleHost "a") (Val.num 1) = false ∧
      isEqual (Val.num 1) (Val.num 2) = false ∧
      ∃ h1 h2, set doubling sampleHost (Val.str "a") (Val.num 1) silentOptions = Result.ok h1 ∧
        set doubling h1 (Val.str "a") (Val.num 2) silentOptions = Result.ok h2 ∧
        h2.events = sampleHost.events ∧
        pendingChanges h2 = assign (pendingChanges sampleHost) "a" (Val.num 2, Val.num 1) ∧
        (pendingChanges h2).filter (fun e => e.1 = "a") = [("a", Val.num 2, Val.num 1)] ∧
        (change h2).events = sampleHost.events ++ (pendingChanges h2).map
          (fun e => (⟨"change:" ++ e.1, [e.2.1, e.2.2, Val.str e.1]⟩ : Event)) :=
  ⟨rfl, by decide, by decide, by decide, by decide, by decide, by decide, by decide,
    silent_writes_overwrite_pending doubling sampleHost "a" (Val.num 1) (Val.num 2)
      silentOptions silentOptions rfl (by decide) (by decide) (by decide) (by decide)
      (by decide) (by decide) (by decide) (by decide)⟩

/-- C18, as stated, fails: the attribute `o` holds `{a: 1, b: 2}`; `{c: 3}` and `{d: 4}` are
not `isEqual` to it nor to each other; after the silent writes of `{c: 3}` and `{d: 4}`,
`change()` emits one `change:o` event, which carries the merged records
`({a: 1, b: 2, c: 3, d: 4}, {a: 1, b: 2, c: 3}, 'o')` and not `({d: 4}, {c: 3}, 'o')`. -/
theorem silent_record_writes_pending_merge :
    sampleHost.events = [] ∧ pendingChanges sampleHost = [] ∧
      plainSlot (lookupProp sampleHost.attrs "o") = true ∧
      storedValue sampleHost "o" = Val.obj 120 [("a", Val.num 1), ("b", Val.num 2)] ∧
      isEqual (storedValue sampleHost "o") (Val.obj 9 [("c", Val.num 3)]) = false ∧
      isEqual (Val.obj 9 [("c", Val.num 3)]) (Val.obj 10 [("d", Val.num 4)]) = false ∧
      isEqual (storedValue sampleHost "o") (Val.obj 10 [("d", Val.num 4)]) = false ∧
      (change (set doubling
          (set doubling sampleHost (Val.str "o") (Val.obj 9 [("c", Val.num 3)])
            silentOptions).host
          (Val.str "o") (Val.obj 10 [("d", Val.num 4)]) silentOptions).host).events =
        [⟨"change:o",
          [Val.obj 126 [("a", Val.num 1), ("b", Val.num 2), ("c", Val.num 3), ("d", Val.num 4)],
            Val.obj 125 [("a", Val.num 1), ("b", Val.num 2), ("c", Val.num 3)],
            Val.str "o"]⟩] :=
  ⟨rfl, rfl, by decide, rfl, by decide, by decide, by decide, rfl⟩

/-! ### Where `isEqual` departs from an equality -/

/-- C19 fails on the code: `isEqual({}, {'': 1})` is true, the two lists of names rendering
to the same empty text and `{}` having no member to compare, and `isEqual({'': 1}, {})` is
false, the member `''` being `1` on one side and missing on the other. -/
theorem isEqual_not_symmetric :
    isEqual (Val.obj 1 []) (Val.obj 2 [("", Val.num 1)]) = true ∧
      isEqual (Val.obj 2 [("", Val.num 1)]) (Val.obj 1 []) = false :=
  ⟨by decide, by decide⟩

/-- The same with two records that both have members: `isEqual({'a,b': undefined},
{a: 1, b: undefined})` is true and `isEqual({a: 1, b: undefined}, {'a,b': undefined})` is
false, the names of both rendering to `a,b`. -/
theorem isEqual_not_symmetric_comma :
    isEqual (Val.obj 1 [("a,b", Val.undefined)])
        (Val.obj 2 [("a", Val.num 1), ("b", Val.undefined)]) = true ∧
      isEqual (Val.obj 2 [("a", Val.num 1), ("b", Val.undefined)])
        (Val.obj 1 [("a,b", Val.undefined)]) = false :=
  ⟨by decide, by decide⟩

/-- C15 fails on the code: the two distinct sequences `[[1]]` and `[[1]]`, each holding a
nested sequence, are `isEqual`, their renderings `1` holding no `[object`. -/
theorem isEqual_nested_sequences :
    strictEq (Val.arr 1 [Val.arr 2 [Val.num 1]]) (Val.arr 3 [Val.arr 4 [Val.num 1]]) = false ∧
      isEqual (Val.arr 1 [Val.arr 2 [Val.num 1]]) (Val.arr 3 [Val.arr 4 [Val.num 1]]) = true :=
  ⟨by decide, by decide⟩

/-- The guard of the array case fires on a primitive too: the two sequences `['[object']`,
whose renderings are identical, are not `isEqual`. -/
theorem isEqual_marker_strings :
    isEqual (Val.arr 1 [Val.str "[object"]) (Val.arr 2 [Val.str "[object"]) = false := by
  decide

/-! ### What `merge` returns -/

mutual
/-- The counter of identities only grows through `mergeValue`. -/
theorem le_mergeValue_snd (prev : Val) : ∀ (v : Val) (n : Nat), n ≤ (mergeValue prev v n).2
  | Val.arr i xs, n => by simp [mergeValue]
  | Val.obj i ms, n => by
    have h1 := fun (r : Members) (m : Nat) => le_merge_snd ms r m
    by_cases hpl : isPlainObject (Val.obj i ms) = true
    · cases prev with
      | obj p pms =>
        by_cases hpp : isPlainObject (Val.obj p pms) = true
        · simp only [mergeValue, hpl, hpp, if_true]
          exact h1 pms n
        · simp only [mergeValue, hpl, hpp, if_true, Bool.false_eq_true, if_false]
          exact Nat.le_trans (Nat.le_succ n) (h1 [] (n + 1))
      | undefined =>
        simp only [mergeValue, hpl, if_true]
        exact Nat.le_trans (Nat.le_succ n) (h1 [] (n + 1))
      | null =>
        simp only [mergeValue, hpl, if_true]
        exact Nat.le_trans (Nat.le_succ n) (h1 [] (n + 1))
      | bool b =>
        simp only [mergeValue, hpl, if_true]
        exact Nat.le_trans (Nat.le_succ n) (h1 [] (n + 1))
      | num m =>
        simp only [mergeValue, hpl, if_true]
        exact Nat.le_trans (Nat.le_succ n) (h1 [] (n + 1))
      | nan =>
        simp only [mergeValue, hpl, if_true]
        exact Nat.le_trans (Nat.le_succ n) (h1 [] (n + 1))
      | str t =>
        simp only [mergeValue, hpl, if_true]
        exact Nat.le_trans (Nat.le_succ n) (h1 [] (n + 1))
      | fn j t =>
        simp only [mergeValue, hpl, if_true]
        exact Nat.le_trans (Nat.le_succ n) (h1 [] (n + 1))
      | arr j ys =>
        simp only [mergeValue, hpl, if_true]
        exact Nat.le_trans (Nat.le_succ n) (h1 [] (n + 1))
    · simp [mergeValue, hpl]
  | Val.undefined, n => by simp [mergeValue]
  | Val.null, n => by simp [mergeValue]
  | Val.bool b, n => by simp [mergeValue]
  | Val.num m, n => by simp [mergeValue]
  | Val.nan, n => by simp [mergeValue]
  | Val.str t, n => by simp [mergeValue]
  | Val.fn j t, n => by simp [mergeValue]
/-- The counter of identities only grows through `merge`. -/
theorem le_merge_snd : ∀ (s r : Members) (n : Nat), n ≤ (merge r s n).2
  | [], r, n => by simp [merge_nil]
  | (k, v) :: rest, r, n => by
    rw [merge_cons]
    exact Nat.le_trans (le_mergeValue_snd (lookupProp r k) v n) (le_merge_snd rest _ _)
end

/-- The member of `k` after `merge(r, s)`: the member of `s` merged over the member of `r`,
with identities taken between the counter before the call and the counter after. -/
theorem lookupProp_merge_of_mem_fresh (r s : Members) (n : Nat) (k : String)
    (hnd : (s.map Prod.fst).Nodup) (hk : k ∈ s.map Prod.fst) :
    ∃ n1, n ≤ n1 ∧ (mergeValue (lookupProp r k) (lookupProp s k) n1).2 ≤ (merge r s n).2 ∧
      lookupProp (merge r s n).1 k =
        (mergeValue (lookupProp r k) (lookupProp s k) n1).1 := by
  induction s generalizing r n with
  | nil => simp at hk
  | cons m rest ih =>
    obtain ⟨k1, v1⟩ := m
    simp only [List.map_cons, List.nodup_cons] at hnd
    rw [merge_cons]
    by_cases hk1 : k1 = k
    · subst hk1
      refine ⟨n, Nat.le_refl n, ?_, ?_⟩
      · simp only [lookupProp, if_true]
        exact le_merge_snd rest _ _
      · rw [lookupProp_merge_of_not_mem _ _ _ _ hnd.1, lookupProp_assign_same]
        simp [lookupProp]
    · have hin : k ∈ rest.map Prod.fst := by
        simp only [List.map_cons, List.mem_cons] at hk
        rcases hk with hk | hk
        · exact absurd hk.symm hk1
        · exact hk
      obtain ⟨n1, hle, hub, hn1⟩ := ih (assign r k1 (mergeValue (lookupProp r k1) v1 n).1)
        (mergeValue (lookupProp r k1) v1 n).2 hnd.2 hin
      rw [lookupProp_assign_ne _ _ _ _ hk1] at hub hn1
      refine ⟨n1, Nat.le_trans (le_mergeValue_snd _ v1 n) hle, ?_, ?_⟩
      · simpa [lookupProp, hk1] using hub
      · rw [hn1]
        simp [lookupProp, hk1]

theorem not_mem_of_ordinaryNamesIn (s : Members) (hs : ordinaryNamesIn s = true) :
    ∀ k ∈ s.map Prod.fst, k ∉ objectPrototypeNames := by
  induction s with
  | nil => intro k hk; simp at hk
  | cons m rest ih =>
    obtain ⟨k1, v1⟩ := m
    simp only [ordinaryNamesIn, Bool.and_eq_true, Bool.not_eq_true'] at hs
    have hk1 : k1 ∉ objectPrototypeNames := by
      intro hc
      have h2 : objectPrototypeNames.contains k1 = true := List.elem_eq_true_of_mem hc
      rw [hs.1.1] at h2
      cases h2
    intro k hk
    simp only [List.map_cons, List.mem_cons] at hk
    rcases hk with hk | hk
    · rw [hk]; exact hk1
    · exact ih hs.2 k hk

/-- The read `receiver[key]` of `merge` at the name `__proto__` finds `Object.prototype`,
a plain record, when the receiver has no such member: the code merges the supplier's member
into `Object.prototype` and adds no member to the receiver, where the embedding adds the
member `__proto__`. -/
theorem prototype_read_as_receiver_member :
    lookupProp [] "__proto__" = Val.undefined ∧
      isPlainObject (chainRead [] "__proto__") = true ∧
      (merge [] [("__proto__", Val.obj 1 [("q", Val.num 1)])] 10).1 =
        [("__proto__", Val.obj 10 [("q", Val.num 1)])] :=
  ⟨rfl, by decide, rfl⟩

/-- C17: `merge(r, s)` is a total function of the two records (the recursion is on the
supplier, a finite tree), so it terminates. For a supplier binding each name once, none of
its names (at any depth) being the name of a member of `Object.prototype` (so that the
reads `receiver[k]` and `supplier.hasOwnProperty` the code makes through the prototype chain
are the reads of the embedding), it returns the receiver with the names of both, where a
name missing from `s` keeps the member of `r`; a sequence of `s` is copied into a new
sequence (its identity `j` is allocated by the call) with the same elements; a plain record
of `s` is merged into the member of `r`, which keeps its identity, when that is a plain
record, and into a new `{}` (of an identity allocated by the call) otherwise; and any other
member of `s` is stored as it is. -/
theorem merge_spec (r s : Members) (n : Nat) (hnd : (s.map Prod.fst).Nodup)
    (hord : ordinaryNamesIn s = true) :
    n ≤ (merge r s n).2 ∧
      chainRead s "hasOwnProperty" = chainRead [] "hasOwnProperty" ∧
      (∀ k, k ∈ (merge r s n).1.map Prod.fst ↔ k ∈ r.map Prod.fst ∨ k ∈ s.map Prod.fst) ∧
      (∀ k, k ∉ s.map Prod.fst → lookupProp (merge r s n).1 k = lookupProp r k) ∧
      (∀ k, k ∈ s.map Prod.fst →
        chainRead r k = lookupProp r k ∧
        (∀ i xs, lookupProp s k = Val.arr i xs →
          ∃ j, n ≤ j ∧ j < (merge r s n).2 ∧ lookupProp (merge r s n).1 k = Val.arr j xs) ∧
        (∀ i ms, lookupProp s k = Val.obj i ms → isPlainObject (Val.obj i ms) = true →
          (∀ p pms, lookupProp r k = Val.obj p pms → isPlainObject (Val.obj p pms) = true →
            ∃ n1, n ≤ n1 ∧ lookupProp (merge r s n).1 k = Val.obj p (merge pms ms n1).1) ∧
          (isPlainObject (lookupProp r k) = false →
            ∃ n1, n ≤ n1 ∧ n1 < (merge r s n).2 ∧
              lookupProp (merge r s n).1 k = Val.obj n1 (merge [] ms (n1 + 1)).1)) ∧
        (isArray (lookupProp s k) = false → isPlainObject (lookupProp s k) = false →
          lookupProp (merge r s n).1 k = lookupProp s k)) := by
  have hnames := not_mem_of_ordinaryNamesIn s hord
  have hown : hasOwn s "hasOwnProperty" = false := by
    by_contra hc
    have hc2 : hasOwn s "hasOwnProperty" = true := by simpa using hc
    exact hnames _ ((hasOwn_iff_mem s _).1 hc2) (by decide)
  refine ⟨le_merge_snd s r n, by simp [chainRead, hown, hasOwn], mem_names_merge r s n,
    fun k hk => lookupProp_merge_of_not_mem r s n k hk, ?_⟩
  intro k hk
  obtain ⟨n1, hle, hub, hn1⟩ := lookupProp_merge_of_mem_fresh r s n k hnd hk
  refine ⟨chainRead_of_ordinary r k (hnames k hk), ?_, ?_, ?_⟩
  · intro i xs hs
    rw [hs] at hub hn1
    simp only [mergeValue] at hub hn1
    exact ⟨n1, hle, hub, hn1⟩
  · intro i ms hs hpl
    rw [hs] at hub hn1
    constructor
    · intro p pms hr hrp
      rw [hr] at hn1
      exact ⟨n1, hle, by rw [hn1]; simp [mergeValue, hpl, hrp]⟩
    · intro hrp
      have hval : mergeValue (lookupProp r k) (Val.obj i ms) n1 =
          (Val.obj n1 (merge [] ms (n1 + 1)).1, (merge [] ms (n1 + 1)).2) := by
        cases hr : lookupProp r k <;> simp [mergeValue, hpl]
        rename_i p pms
        rw [hr] at hrp
        simp [hrp]
      rw [hval] at hub hn1
      exact ⟨n1, hle, Nat.lt_of_lt_of_le (Nat.lt_of_lt_of_le (Nat.lt_succ_self n1)
        (le_merge_snd ms [] (n1 + 1))) hub, hn1⟩
  · intro ha hp
    rw [hn1, mergeValue_of_kept _ _ _ ha hp]

theorem merge_spec_witness :
    (sampleSupplier.map Prod.fst).Nodup ∧ ordinaryNamesIn sampleSupplier = true ∧
      (10 ≤ (merge sampleReceiver sampleSupplier 10).2 ∧
        chainRead sampleSupplier "hasOwnProperty" = chainRead [] "hasOwnProperty" ∧
        (∀ k, k ∈ (merge sampleReceiver sampleSupplier 10).1.map Prod.fst ↔
          k ∈ sampleReceiver.map Prod.fst ∨ k ∈ sampleSupplier.map Prod.fst) ∧
        (∀ k, k ∉ sampleSupplier.map Prod.fst →
          lookupProp (merge sampleReceiver sampleSupplier 10).1 k = lookupProp sampleReceiver k) ∧
        (∀ k, k ∈ sampleSupplier.map Prod.fst →
          chainRead sampleReceiver k = lookupProp sampleReceiver k ∧
          (∀ i xs, lookupProp sampleSupplier k = Val.arr i xs →
            ∃ j, 10 ≤ j ∧ j < (merge sampleReceiver sampleSupplier 10).2 ∧
              lookupProp (merge sampleReceiver sampleSupplier 10).1 k = Val.arr j xs) ∧
          (∀ i ms, lookupProp sampleSupplier k = Val.obj i ms →
            isPlainObject (Val.obj i ms) = true →
            (∀ p pms, lookupProp sampleReceiver k = Val.obj p pms →
              isPlainObject (Val.obj p pms) = true →
              ∃ n1, 10 ≤ n1 ∧ lookupProp (merge sampleReceiver sampleSupplier 10).1 k =
                Val.obj p (merge pms ms n1).1) ∧
            (isPlainObject (lookupProp sampleReceiver k) = false →
              ∃ n1, 10 ≤ n1 ∧ n1 < (merge sampleReceiver sampleSupplier 10).2 ∧
                lookupProp (merge sampleReceiver sampleSupplier 10).1 k =
                  Val.obj n1 (merge [] ms (n1 + 1)).1)) ∧
          (isArray (lookupProp sampleSupplier k) = false →
            isPlainObject (lookupProp sampleSupplier k) = false →
            lookupProp (merge sampleReceiver sampleSupplier 10).1 k =
              lookupProp sampleSupplier k))) :=
  ⟨by decide, by decide,
    merge_spec sampleReceiver sampleSupplier 10 (by decide) (by decide)⟩

/-- An instance of `merge`: `{a: 1, b: 2}` receives `{b: 3, c: [1], d: {e: 2}}`. -/
theorem merge_example :
    (merge [("a", Val.num 1), ("b", Val.num 2)]
        [("b", Val.num 3), ("c", Val.arr 5 [Val.num 1]), ("d", Val.obj 6 [("e", Val.num 2)])]
        10).1 =
      [("a", Val.num 1), ("b", Val.num 3), ("c", Val.arr 10 [Val.num 1]),
        ("d", Val.obj 11 [("e", Val.num 2)])] :=
  rfl

/-! ### What `normalize` returns -/

theorem truthy_content (v : Val) : truthy (content v) = truthy v := by
  cases v <;> simp [content, truthy]

theorem names_contentMembers (ms : Members) :
    (contentMembers ms).map Prod.fst = ms.map Prod.fst := by
  induction ms with
  | nil => simp [contentMembers]
  | cons m rest ih =>
    obtain ⟨k, v⟩ := m
    simp [contentMembers, ih]

theorem length_contentList (xs : List Val) : (contentList xs).length = xs.length := by
  induction xs with
  | nil => simp [contentList]
  | cons x rest ih => simp [contentList, ih]

theorem names_indexed (xs ys : List Val) (hl : xs.length = ys.length) (i : Nat) :
    (indexed i xs).map Prod.fst = (indexed i ys).map Prod.fst := by
  induction xs generalizing ys i with
  | nil =>
    cases ys with
    | nil => rfl
    | cons y rest => simp at hl
  | cons x rest ih =>
    cases ys with
    | nil => simp at hl
    | cons y rest2 =>
      simp only [List.length_cons, Nat.add_right_cancel_iff] at hl
      simp [indexed, ih rest2 hl (i + 1)]

theorem names_ownEntries_content (v : Val) :
    (ownEntries (content v)).map Prod.fst = (ownEntries v).map Prod.fst := by
  cases v with
  | arr i xs =>
    simp only [content, ownEntries]
    exact names_indexed _ _ (length_contentList xs) 0
  | obj i ms => simp [content, ownEntries, names_contentMembers]
  | undefined => rfl
  | null => rfl
  | bool b => rfl
  | num m => rfl
  | nan => rfl
  | str s => rfl
  | fn i s => rfl

theorem hasOwn_congr (a b : Members) (k : String)
    (hn : a.map Prod.fst = b.map Prod.fst) : hasOwn a k = hasOwn b k := by
  by_cases ha : hasOwn a k = true
  · rw [ha]
    exact ((hasOwn_iff_mem b k).2 (hn ▸ (hasOwn_iff_mem a k).1 ha)).symm
  · have hb : ¬hasOwn b k = true :=
      fun hc => ha ((hasOwn_iff_mem a k).2 (hn ▸ (hasOwn_iff_mem b k).1 hc))
    simp only [Bool.not_eq_true] at ha hb
    rw [ha, hb]

theorem hasOwnProperties_content (v : Val) (ks : List String) :
    hasOwnProperties (content v) ks = hasOwnProperties v ks := by
  induction ks with
  | nil => rfl
  | cons p rest ih =>
    simp only [hasOwnProperties, ih,
      hasOwn_congr _ _ p (names_ownEntries_content v)]

theorem isPlainObject_content (v : Val) : isPlainObject (content v) = isPlainObject v := by
  cases v with
  | obj i ms =>
    have hw : isWindow (Val.obj 0 (contentMembers ms)) = isWindow (Val.obj i ms) := by
      simp only [isWindow, lookupProp_contentMembers]
      cases lookupProp ms "window" <;> simp [content]
    have ht : truthy (Val.obj 0 (contentMembers ms)) = truthy (Val.obj i ms) := rfl
    have hc : toStringCall (Val.obj 0 (contentMembers ms)) = toStringCall (Val.obj i ms) := rfl
    simp only [content, isPlainObject, Val.prop, lookupProp_contentMembers, truthy_content,
      hw, ht, hc]
  | arr i xs => simp [content, isPlainObject, toStringCall]
  | undefined => rfl
  | null => rfl
  | bool b => rfl
  | num m => rfl
  | nan => rfl
  | str s => rfl
  | fn i s => rfl

theorem isPlainObject_of_content_eq (a b : Val) (hc : content a = content b) :
    isPlainObject a = isPlainObject b := by
  rw [← isPlainObject_content a, hc, isPlainObject_content]

theorem hasOwnProperties_of_content_eq (a b : Val) (ks : List String)
    (hc : content a = content b) : hasOwnProperties a ks = hasOwnProperties b ks := by
  rw [← hasOwnProperties_content a, hc, hasOwnProperties_content]

theorem distinctNames_lookupProp (ms : Members) (k : String)
    (hd : distinctNamesIn ms = true) : distinctNames (lookupProp ms k) = true := by
  induction ms with
  | nil => rfl
  | cons m rest ih =>
    obtain ⟨k1, v1⟩ := m
    simp only [distinctNamesIn, Bool.and_eq_true] at hd
    by_cases hk : k1 = k
    · simp only [lookupProp, hk, if_true]
      exact hd.1
    · simp only [lookupProp, hk, if_false]
      exact ih hd.2

/-- The entry of `k` in the clone `normalize` starts from: a copy of `attrs[k]`. -/
theorem content_lookupProp_clone (attrs : Members) (n : Nat) (k : String)
    (hnd : (attrs.map Prod.fst).Nodup) (hd : distinctNamesIn attrs = true)
    (hk : k ∈ attrs.map Prod.fst) :
    content (lookupProp (merge [] attrs n).1 k) = content (lookupProp attrs k) := by
  obtain ⟨n1, hn1⟩ := lookupProp_merge_of_mem [] attrs n k hnd hk
  rw [hn1]
  exact content_mergeValue _ (by simp [lookupProp, isPlainObject, truthy]) _ n1
    (distinctNames_lookupProp attrs k hd)

/-- C16: for a mapping `attrs` (each name bound once, also inside its values),
`normalize(attrs, true)` maps every key to `{value: attrs[k]}` whatever `attrs[k]` is, and
`normalize(attrs)` keeps an entry that is a plain record with one of the members `value`,
`getter`, `setter`, `readOnly` and maps any other entry `v` to `{value: v}`; the keys of
the result are those of `attrs`. The result is a clone: its entries have the content stated,
in fresh sequences and records. -/
theorem normalize_spec (attrs : Members) (n : Nat)
    (hnd : (attrs.map Prod.fst).Nodup) (hd : distinctNamesIn attrs = true) :
    (∀ k, k ∈ (normalize attrs true n).1.map Prod.fst ↔ k ∈ attrs.map Prod.fst) ∧
      (∀ k, k ∈ (normalize attrs false n).1.map Prod.fst ↔ k ∈ attrs.map Prod.fst) ∧
      (∀ k, k ∈ attrs.map Prod.fst →
        content (lookupProp (normalize attrs true n).1 k) =
          Val.obj 0 [("value", content (lookupProp attrs k))]) ∧
      (∀ k, k ∈ attrs.map Prod.fst →
        ((isPlainObject (lookupProp attrs k) &&
            hasOwnProperties (lookupProp attrs k) ATTR_SPECIAL_KEYS) = true →
          content (lookupProp (normalize attrs false n).1 k) =
            content (lookupProp attrs k)) ∧
        ((isPlainObject (lookupProp attrs k) &&
            hasOwnProperties (lookupProp attrs k) ATTR_SPECIAL_KEYS) = false →
          content (lookupProp (normalize attrs false n).1 k) =
            Val.obj 0 [("value", content (lookupProp attrs k))])) := by
  refine ⟨mem_names_normalize attrs true n, mem_names_normalize attrs false n, ?_, ?_⟩
  · intro k hk
    have hk2 : k ∈ (merge [] attrs n).1.map Prod.fst :=
      (mem_names_merge [] attrs n k).2 (Or.inr hk)
    obtain ⟨n2, hn2⟩ := lookupProp_normalizeLoop_user (merge [] attrs n).1 (merge [] attrs n).2
      k hk2
    have hslot : lookupProp (normalize attrs true n).1 k =
        Val.obj n2 [("value", lookupProp (merge [] attrs n).1 k)] := hn2
    rw [hslot]
    simp [content, contentMembers, content_lookupProp_clone attrs n k hnd hd hk]
  · intro k hk
    have hk2 : k ∈ (merge [] attrs n).1.map Prod.fst :=
      (mem_names_merge [] attrs n k).2 (Or.inr hk)
    obtain ⟨n2, hn2⟩ := lookupProp_normalizeLoop_class (merge [] attrs n).1
      (merge [] attrs n).2 k hk2
    have hc := content_lookupProp_clone attrs n k hnd hd hk
    have hslot : lookupProp (normalize attrs false n).1 k =
        if (isPlainObject (lookupProp (merge [] attrs n).1 k) &&
            hasOwnProperties (lookupProp (merge [] attrs n).1 k) ATTR_SPECIAL_KEYS) = true
        then lookupProp (merge [] attrs n).1 k
        else Val.obj n2 [("value", lookupProp (merge [] attrs n).1 k)] := hn2
    rw [isPlainObject_of_content_eq _ _ hc,
      hasOwnProperties_of_content_eq _ _ ATTR_SPECIAL_KEYS hc] at hslot
    constructor
    · intro hcond
      rw [hslot, if_pos hcond, hc]
    · intro hcond
      rw [hslot, if_neg (by simp [hcond])]
      simp [content, contentMembers, hc]

theorem normalize_spec_witness :
    (sampleAttrs.map Prod.fst).Nodup ∧ distinctNamesIn sampleAttrs = true ∧
      ((∀ k, k ∈ (normalize sampleAttrs true 10).1.map Prod.fst ↔
          k ∈ sampleAttrs.map Prod.fst) ∧
        (∀ k, k ∈ (normalize sampleAttrs false 10).1.map Prod.fst ↔
          k ∈ sampleAttrs.map Prod.fst) ∧
        (∀ k, k ∈ sampleAttrs.map Prod.fst →
          content (lookupProp (normalize sampleAttrs true 10).1 k) =
            Val.obj 0 [("value", content (lookupProp sampleAttrs k))]) ∧
        (∀ k, k ∈ sampleAttrs.map Prod.fst →
          ((isPlainObject (lookupProp sampleAttrs k) &&
              hasOwnProperties (lookupProp sampleAttrs k) ATTR_SPECIAL_KEYS) = true →
            content (lookupProp (normalize sampleAttrs false 10).1 k) =
              content (lookupProp sampleAttrs k)) ∧
          ((isPlainObject (lookupProp sampleAttrs k) &&
              hasOwnProperties (lookupProp sampleAttrs k) ATTR_SPECIAL_KEYS) = false →
            content (lookupProp (normalize sampleAttrs false 10).1 k) =
              Val.obj 0 [("value", content (lookupProp sampleAttrs k))]))) :=
  ⟨by decide, by decide, normalize_spec sampleAttrs 10 (by decide) (by decide)⟩

/-- An instance of `normalize` in its two modes: as user values, `{color: 'red',
size: {value: 1}}` becomes `{color: {value: 'red'}, size: {value: {value: 1}}}`; as
class-level declarations it becomes `{color: {value: 'red'}, size: {value: 1}}`. -/
theorem normalize_example :
    (normalize sampleAttrs true 10).1 =
        [("color", Val.obj 11 [("value", Val.str "red")]),
          ("size", Val.obj 12 [("value", Val.obj 10 [("value", Val.num 1)])])] ∧
      (normalize sampleAttrs false 10).1 =
        [("color", Val.obj 11 [("value", Val.str "red")]),
          ("size", Val.obj 10 [("value", Val.num 1)])] :=
  ⟨rfl, rfl⟩

/-! ### `isEqual` on two records -/

theorem joinTail_data_nil_or_comma (ks : List String) :
    (joinTail (ks.map Val.str)).data = [] ∨
      ∃ t, (joinTail (ks.map Val.str)).data = ',' :: t := by
  cases ks with
  | nil => exact Or.inl (by simp [joinTail])
  | cons k rest =>
    right
    exact ⟨k.data ++ (joinTail (rest.map Val.str)).data, by
      simp [joinTail, elemToString, String.data_append]⟩

theorem append_comma_free_inj (u v t1 t2 : List Char)
    (hu : ',' ∉ u) (hv : ',' ∉ v)
    (h1 : t1 = [] ∨ ∃ t, t1 = ',' :: t) (h2 : t2 = [] ∨ ∃ t, t2 = ',' :: t)
    (he : u ++ t1 = v ++ t2) : u = v ∧ t1 = t2 := by
  induction u generalizing v with
  | nil =>
    cases v with
    | nil => exact ⟨rfl, by simpa using he⟩
    | cons b v2 =>
      exfalso
      simp only [List.nil_append, List.cons_append] at he
      rcases h1 with h1 | ⟨t, h1⟩
      · rw [h1] at he; cases he
      · rw [h1] at he
        have hb : ',' = b := by injection he
        exact hv (by rw [← hb]; exact List.mem_cons_self _ _)
  | cons a u2 ih =>
    cases v with
    | nil =>
      exfalso
      simp only [List.nil_append, List.cons_append] at he
      rcases h2 with h2 | ⟨t, h2⟩
      · rw [h2] at he; cases he
      · rw [h2] at he
        have ha : a = ',' := by injection he
        exact hu (by rw [ha]; exact List.mem_cons_self _ _)
    | cons b v2 =>
      simp only [List.cons_append, List.cons.injEq] at he
      obtain ⟨hab, hrest⟩ := he
      have := ih v2 (fun hc => hu (List.mem_cons_of_mem _ hc))
        (fun hc => hv (List.mem_cons_of_mem _ hc)) hrest
      exact ⟨by rw [hab, this.1], this.2⟩

theorem joinTail_names_inj (xs ys : List String)
    (hx : ∀ k ∈ xs, ',' ∉ k.data) (hy : ∀ k ∈ ys, ',' ∉ k.data)
    (he : (joinTail (xs.map Val.str)).data = (joinTail (ys.map Val.str)).data) : xs = ys := by
  induction xs generalizing ys with
  | nil =>
    cases ys with
    | nil => rfl
    | cons y rest =>
      simp [joinTail, elemToString, String.data_append] at he
  | cons x rest ih =>
    cases ys with
    | nil => simp [joinTail, elemToString, String.data_append] at he
    | cons y rest2 =>
      simp only [List.map_cons, joinTail, elemToString, String.data_append,
        List.append_assoc] at he
      simp only [List.cons_append, List.nil_append, List.cons.injEq, true_and] at he
      have := append_comma_free_inj x.data y.data _ _ (hx x (by simp)) (hy y (by simp))
        (joinTail_data_nil_or_comma rest) (joinTail_data_nil_or_comma rest2) he
      have hxy : x = y := String.ext this.1
      have hr := ih rest2 (fun k hk => hx k (by simp [hk])) (fun k hk => hy k (by simp [hk]))
        this.2
      rw [hxy, hr]

/-- Two lists of names without comma, not empty, that render to the same text are the same
list. -/
theorem arrayToString_names_inj (xs ys : List String) (hxn : xs ≠ []) (hyn : ys ≠ [])
    (hx : ∀ k ∈ xs, ',' ∉ k.data) (hy : ∀ k ∈ ys, ',' ∉ k.data)
    (he : arrayToString (xs.map Val.str) = arrayToString (ys.map Val.str)) : xs = ys := by
  cases xs with
  | nil => exact absurd rfl hxn
  | cons x rest =>
    cases ys with
    | nil => exact absurd rfl hyn
    | cons y rest2 =>
      have hd := congrArg String.data he
      simp only [List.map_cons, arrayToString, elemToString, String.data_append] at hd
      have := append_comma_free_inj x.data y.data _ _ (hx x (by simp)) (hy y (by simp))
        (joinTail_data_nil_or_comma rest) (joinTail_data_nil_or_comma rest2) hd
      have hxy : x = y := String.ext this.1
      have hr := joinTail_names_inj rest rest2 (fun k hk => hx k (by simp [hk]))
        (fun k hk => hy k (by simp [hk])) this.2
      rw [hxy, hr]

theorem keys_obj (i : Nat) (ms : Members) :
    keys (Val.obj i ms) = (ms.map Prod.fst).map Val.str := by
  simp [keys, ownEntries]

/-- What `isEqual` computes on two distinct plain records that both have members. -/
theorem isEqual_records (i j : Nat) (as bs : Members) (hne : i ≠ j)
    (hpa : isPlainObject (Val.obj i as) = true) (hpb : isPlainObject (Val.obj j bs) = true)
    (hna : as ≠ []) :
    isEqual (Val.obj i as) (Val.obj j bs) =
      (noObjectMark (arrayToString (keys (Val.obj i as))) &&
        noObjectMark (arrayToString (keys (Val.obj j bs))) &&
        (arrayToString (keys (Val.obj i as)) == arrayToString (keys (Val.obj j bs))) &&
        as.all (fun m => strictEq (lookupProp as m.1) (lookupProp bs m.1))) := by
  have hea : isEmptyAttrValue (Val.obj i as) = false := by
    cases as with
    | nil => exact absurd rfl hna
    | cons m rest => simp [isEmptyAttrValue, strictEq, isString, isArray, toStringCall,
        isEmptyObject, ownEntries]
  have hka : isEmptyAttrValue (Val.arr 0 (keys (Val.obj i as))) = false := by
    cases as with
    | nil => exact absurd rfl hna
    | cons m rest => simp [isEmptyAttrValue, strictEq, isString, isArray, toStringCall,
        isPlainObject, lengthOf, keys, ownEntries]
  unfold isEqual isEqualWith
  simp only [strictEq, toStringCall, typeOf, hpa, hpb, hea, hka, ownEntries, Val.prop,
    elemToString]
  simp [hne]
  rfl

/-- C14 (as the code has it): two distinct plain records that both have members, none of
whose names holds a comma, are `isEqual` exactly when they have the same names in the same
order of enumeration, the names joined by commas hold no `[object`, and every member of the
one is strictly equal to the member of that name of the other. -/
theorem isEqual_records_iff (i j : Nat) (as bs : Members) (hne : i ≠ j)
    (hpa : isPlainObject (Val.obj i as) = true) (hpb : isPlainObject (Val.obj j bs) = true)
    (hna : as ≠ []) (hnb : bs ≠ [])
    (hca : ∀ k ∈ as.map Prod.fst, ',' ∉ k.data)
    (hcb : ∀ k ∈ bs.map Prod.fst, ',' ∉ k.data) :
    isEqual (Val.obj i as) (Val.obj j bs) = true ↔
      as.map Prod.fst = bs.map Prod.fst ∧
        noObjectMark (arrayToString (keys (Val.obj i as))) = true ∧
        ∀ p ∈ as.map Prod.fst, strictEq (lookupProp as p) (lookupProp bs p) = true := by
  rw [isEqual_records i j as bs hne hpa hpb hna]
  simp only [Bool.and_eq_true, beq_iff_eq, List.all_eq_true, keys_obj]
  constructor
  · rintro ⟨⟨⟨hma, _⟩, heq⟩, hall⟩
    refine ⟨?_, hma, ?_⟩
    · exact arrayToString_names_inj _ _ (by simpa using hna) (by simpa using hnb) hca hcb heq
    · intro p hp
      obtain ⟨m, hm, hmp⟩ := List.mem_map.1 hp
      rw [← hmp]
      exact hall m hm
  · rintro ⟨hnames, hma, hall⟩
    refine ⟨⟨⟨hma, ?_⟩, ?_⟩, ?_⟩
    · rw [← hnames]; exact hma
    · rw [hnames]
    · intro m hm
      exact hall m.1 (List.mem_map_of_mem Prod.fst hm)

theorem isEqual_records_iff_witness :
    ((1 : Nat) ≠ 2 ∧
      isPlainObject (Val.obj 1 [("x", Val.num 1), ("y", Val.str "s")]) = true ∧
      isPlainObject (Val.obj 2 [("x", Val.num 1), ("y", Val.str "s")]) = true ∧
      [("x", Val.num 1), ("y", Val.str "s")] ≠ ([] : Members) ∧
      [("x", Val.num 1), ("y", Val.str "s")] ≠ ([] : Members) ∧
      (∀ k ∈ ([("x", Val.num 1), ("y", Val.str "s")] : Members).map Prod.fst, ',' ∉ k.data) ∧
      (∀ k ∈ ([("x", Val.num 1), ("y", Val.str "s")] : Members).map Prod.fst, ',' ∉ k.data)) ∧
      (isEqual (Val.obj 1 [("x", Val.num 1), ("y", Val.str "s")])
          (Val.obj 2 [("x", Val.num 1), ("y", Val.str "s")]) = true ↔
        ([("x", Val.num 1), ("y", Val.str "s")] : Members).map Prod.fst =
            ([("x", Val.num 1), ("y", Val.str "s")] : Members).map Prod.fst ∧
          noObjectMark (arrayToString
            (keys (Val.obj 1 [("x", Val.num 1), ("y", Val.str "s")]))) = true ∧
          ∀ p ∈ ([("x", Val.num 1), ("y", Val.str "s")] : Members).map Prod.fst,
            strictEq (lookupProp [("x", Val.num 1), ("y", Val.str "s")] p)
              (lookupProp [("x", Val.num 1), ("y", Val.str "s")] p) = true) :=
  ⟨⟨by decide, by decide, by decide, by simp, by simp, by decide, by decide⟩,
    isEqual_records_iff 1 2 [("x", Val.num 1), ("y", Val.str "s")]
      [("x", Val.num 1), ("y", Val.str "s")] (by decide) (by decide) (by decide)
      (by simp) (by simp) (by decide) (by decide)⟩

/-- C14 (as the claim has it) fails: two records with the same two names and strictly equal
members, written in a different order, are not `isEqual`, while the same members written in
the same order are. -/
theorem isEqual_depends_on_order :
    isPlainObject (Val.obj 1 [("x", Val.num 1), ("y", Val.num 2)]) = true ∧
      isPlainObject (Val.obj 2 [("y", Val.num 2), ("x", Val.num 1)]) = true ∧
      (∀ p, p ∈ ([("x", Val.num 1), ("y", Val.num 2)] : Members).map Prod.fst ↔
        p ∈ ([("y", Val.num 2), ("x", Val.num 1)] : Members).map Prod.fst) ∧
      (∀ p ∈ ([("x", Val.num 1), ("y", Val.num 2)] : Members).map Prod.fst,
        strictEq (lookupProp [("x", Val.num 1), ("y", Val.num 2)] p)
          (lookupProp [("y", Val.num 2), ("x", Val.num 1)] p) = true) ∧
      isEqual (Val.obj 1 [("x", Val.num 1), ("y", Val.num 2)])
        (Val.obj 2 [("y", Val.num 2), ("x", Val.num 1)]) = false ∧
      isEqual (Val.obj 1 [("x", Val.num 1), ("y", Val.num 2)])
        (Val.obj 2 [("x", Val.num 1), ("y", Val.num 2)]) = true := by
  refine ⟨by decide, by decide, ?_, by decide, by decide, by decide⟩
  intro p
  simp only [List.map_cons, List.map_nil, List.mem_cons, List.mem_singleton]
  constructor <;> rintro (h | h | h) <;> simp_all

/-! ### `set` with a mapping -/

theorem commit_changedAttrs_isSome (s : Val) (h : Host) (k : String) (prev : Val)
    (r : Val × Nat) (hs : h.changedAttrs.isSome = true) :
    (commit s h k prev r).changedAttrs.isSome = true := by
  unfold commit
  simp only []
  split_ifs <;> simp_all [trigger]

theorem ensureSlot_changedAttrs (h : Host) (k : String) :
    (ensureSlot h k).changedAttrs = h.changedAttrs := by
  unfold ensureSlot; split_ifs <;> rfl

theorem withChanged_of_isSome (h : Host) (hs : h.changedAttrs.isSome = true) :
    { h with changedAttrs := some (h.changedAttrs.getD []) } = h := by
  cases h with
  | mk a c i e hd p pa pr n sc =>
    cases c with
    | none => simp at hs
    | some c => rfl

theorem change_name_inj (a b : String) (he : "change:" ++ a = "change:" ++ b) : a = b := by
  have hd := congrArg String.data he
  rw [String.data_append, String.data_append] at hd
  exact String.ext (List.append_cancel_left hd)

/-- One write to a slot that is not read-only: it returns; the slot holds the merged result
of the setter, its other members are kept; the event and the pending entry are those of
lines 102-109; the other slots are as before. -/
theorem set_step (F : Nat → Val → String → Val) (h : Host) (k : String) (v options : Val)
    (hro : truthy ((lookupProp h.attrs k).prop "readOnly") = false)
    (hwf : wellFormedSlot (lookupProp h.attrs k) = true) :
    ∃ h1 n, set F h (Val.str k) v options = Result.ok h1 ∧
      h1.changedAttrs.isSome = true ∧
      h1.initializingAttrs = h.initializingAttrs ∧
      storedValue h1 k = (mergedVal (options.prop "override") (previousValue F h k)
        (applyFn F ((lookupProp h.attrs k).prop "setter") v k) n).1 ∧
      (∀ s, s ≠ "value" → (lookupProp h1.attrs k).prop s = (lookupProp h.attrs k).prop s) ∧
      h1.events = h.events ++ changeEventOf h.initializingAttrs (options.prop "silent") k
        (previousValue F h k) (storedValue h1 k) ∧
      pendingChanges h1 = pendingAfter h.initializingAttrs (options.prop "silent")
        (pendingChanges h) k (previousValue F h k) (storedValue h1 k) ∧
      ∀ k2, k ≠ k2 → lookupProp h1.attrs k2 = lookupProp h.attrs k2 := by
  obtain ⟨hobj, _, _⟩ := wellFormedSlot_parts _ hwf
  have hslot := isObj_ensureSlot { h with changedAttrs := some (h.changedAttrs.getD []) } k hobj
  have hst : storedValue (recordSetter (commit (options.prop "silent")
      (ensureSlot { h with changedAttrs := some (h.changedAttrs.getD []) } k) k
      (previousValue F h k)
      (mergedVal (options.prop "override") (previousValue F h k)
        (applyFn F ((lookupProp h.attrs k).prop "setter") v k)
        (ensureSlot { h with changedAttrs := some (h.changedAttrs.getD []) } k).nextId))
      ((lookupProp h.attrs k).prop "setter") k v) k =
      (mergedVal (options.prop "override") (previousValue F h k)
        (applyFn F ((lookupProp h.attrs k).prop "setter") v k)
        (ensureSlot { h with changedAttrs := some (h.changedAttrs.getD []) } k).nextId).1 := by
    rw [storedValue_recordSetter, storedValue_commit _ _ _ _ _ hslot]
  have hpn : pendingChanges { h with changedAttrs := some (h.changedAttrs.getD []) } =
      pendingChanges h := by
    simp [pendingChanges]
  refine ⟨_, _, set_eq F h k v options hro hwf, ?_, ?_, hst, ?_, ?_, ?_, ?_⟩
  · rw [recordSetter_changedAttrs]
    apply commit_changedAttrs_isSome
    rw [ensureSlot_changedAttrs]
    rfl
  · rw [recordSetter_initializingAttrs, commit_initializingAttrs,
      ensureSlot_initializingAttrs]
  · intro s hs
    rw [recordSetter_attrs, commit_attrs, lookupProp_assign_same,
      prop_setProp_ne _ _ _ _ (fun hc => hs hc.symm), prop_ensureSlot]
  · rw [hst, recordSetter_events, commit_events, ensureSlot_events,
      ensureSlot_initializingAttrs]
    unfold changeEventOf
    split_ifs <;> simp
  · rw [hst, pendingChanges_recordSetter, commit_pending, ensureSlot_pending,
      ensureSlot_initializingAttrs, hpn]
    unfold pendingAfter
    split_ifs <;> rfl
  · intro k2 hne
    rw [recordSetter_attrs, commit_attrs, lookupProp_assign_ne _ _ _ _ hne,
      lookupProp_ensureSlot_ne _ _ _ hne]

theorem set_obj (F : Nat → Val → String → Val) (h : Host) (i : Nat) (ms : Members)
    (options x : Val) :
    set F h (Val.obj i ms) options x =
      setLoop F (options.prop "silent") (options.prop "override")
        { h with changedAttrs := some (h.changedAttrs.getD []) } ms := by
  have hs : isString (Val.obj i ms) = false := by
    simp only [isString, toStringCall]
    decide
  simp only [set, hs, Bool.false_eq_true, if_false, prop_orEmpty, ownEntries]

theorem storedValue_congr (h1 h2 : Host) (k : String)
    (ha : lookupProp h1.attrs k = lookupProp h2.attrs k) :
    storedValue h1 k = storedValue h2 k := by
  simp only [storedValue, ha]

theorem changeEventsOf_congr (F : Nat → Val → String → Val) (silent : Val)
    (h h1 hp : Host) (ms : Members) (hi : h1.initializingAttrs = h.initializingAttrs)
    (hs : ∀ m ∈ ms, lookupProp h1.attrs m.1 = lookupProp h.attrs m.1) :
    changeEventsOf F silent h1 hp ms = changeEventsOf F silent h hp ms := by
  induction ms with
  | nil => rfl
  | cons m rest ih =>
    obtain ⟨k, v⟩ := m
    simp only [changeEventsOf]
    rw [hi, previousValue_congr F h1 h k (hs (k, v) (by simp)),
      ih (fun m hm => hs m (by simp [hm]))]

theorem pendingAfterAll_congr (F : Nat → Val → String → Val) (silent : Val)
    (h h1 hp : Host) (ms : Members) (hi : h1.initializingAttrs = h.initializingAttrs)
    (hs : ∀ m ∈ ms, lookupProp h1.attrs m.1 = lookupProp h.attrs m.1) :
    ∀ pending, pendingAfterAll F silent h1 hp pending ms =
      pendingAfterAll F silent h hp pending ms := by
  induction ms with
  | nil => intro pending; rfl
  | cons m rest ih =>
    obtain ⟨k, v⟩ := m
    intro pending
    simp only [pendingAfterAll]
    rw [hi, previousValue_congr F h1 h k (hs (k, v) (by simp)),
      ih (fun m hm => hs m (by simp [hm]))]

theorem changeEventsOf_names (F : Nat → Val → String → Val) (silent : Val) (h hp : Host)
    (ms : Members) :
    ∀ e ∈ changeEventsOf F silent h hp ms, ∃ k ∈ ms.map Prod.fst, e.name = "change:" ++ k := by
  induction ms with
  | nil => intro e he; simp [changeEventsOf] at he
  | cons m rest ih =>
    obtain ⟨k, v⟩ := m
    intro e he
    simp only [changeEventsOf, List.mem_append] at he
    rcases he with he | he
    · refine ⟨k, by simp, ?_⟩
      unfold changeEventOf at he
      split_ifs at he
      · simp at he
        rw [he]
      · simp at he
    · obtain ⟨k2, hk2, hn⟩ := ih e he
      exact ⟨k2, by simp [hk2], hn⟩

theorem filter_assign_ne {β : Type} (ms : List (String × β)) (k k2 : String) (x : β)
    (hne : k ≠ k2) :
    (assign ms k x).filter (fun e => e.1 = k2) = ms.filter (fun e => e.1 = k2) := by
  induction ms with
  | nil => simp [assign, hne]
  | cons m rest ih =>
    obtain ⟨k1, v1⟩ := m
    by_cases hk : k1 = k
    · subst hk
      simp [assign, List.filter_cons, hne]
    · simp [assign, hk, List.filter_cons, ih]

/-- The writes of the keys of `ms` leave the pending entries of every other key alone. -/
theorem pendingAfterAll_filter (F : Nat → Val → String → Val) (silent : Val) (h hp : Host)
    (ms : Members) (k : String) (hk : k ∉ ms.map Prod.fst) :
    ∀ pending, (pendingAfterAll F silent h hp pending ms).filter (fun e => e.1 = k) =
      pending.filter (fun e => e.1 = k) := by
  induction ms with
  | nil => intro pending; rfl
  | cons m rest ih =>
    obtain ⟨k1, v1⟩ := m
    simp only [List.map_cons, List.mem_cons, not_or] at hk
    intro pending
    simp only [pendingAfterAll]
    rw [ih hk.2]
    unfold pendingAfter
    split_ifs
    · exact filter_assign_ne _ _ _ _ (fun hc => hk.1 hc.symm)
    · rfl

/-- The loop of `set` over a mapping whose first read-only key is `ki`. -/
theorem setLoop_stops_at_readOnly (F : Nat → Val → String → Val) (options : Val)
    (ki : String) (vi : Val) (post : Members) :
    ∀ (pre : Members) (h : Host),
      ((pre.map Prod.fst).Nodup) →
      (∀ m ∈ pre, truthy ((lookupProp h.attrs m.1).prop "readOnly") = false ∧
        wellFormedSlot (lookupProp h.attrs m.1) = true) →
      truthy ((lookupProp h.attrs ki).prop "readOnly") = true →
      ki ∉ pre.map Prod.fst →
      ∃ hp, writeEach F options h pre = Result.ok hp ∧
        setLoop F (options.prop "silent") (options.prop "override")
            { h with changedAttrs := some (h.changedAttrs.getD []) }
            (pre ++ (ki, vi) :: post) =
          Result.throws (Err.error ("This attribute is readOnly: " ++ ki))
            { hp with changedAttrs := some (hp.changedAttrs.getD []) } ∧
        (∀ m ∈ pre, (∃ n, storedValue hp m.1 =
            (mergedVal (options.prop "override") (previousValue F h m.1)
              (applyFn F ((lookupProp h.attrs m.1).prop "setter") m.2 m.1) n).1) ∧
          ∀ s, s ≠ "value" →
            (lookupProp hp.attrs m.1).prop s = (lookupProp h.attrs m.1).prop s) ∧
        hp.events = h.events ++ changeEventsOf F (options.prop "silent") h hp pre ∧
        pendingChanges hp =
          pendingAfterAll F (options.prop "silent") h hp (pendingChanges h) pre ∧
        ∀ k, k ∉ pre.map Prod.fst → lookupProp hp.attrs k = lookupProp h.attrs k
  | [], h, _, _, hro, _ => by
    have ht : truthy (lookupProp h.attrs ki) = true := truthy_of_prop_truthy _ _ hro
    refine ⟨h, rfl, ?_, by simp, by simp [changeEventsOf], rfl, fun k _ => rfl⟩
    simp [setLoop, setKey, ensureSlot, ht, hro]
  | (k, v) :: rest, h, hnd, hpre, hro, hki => by
    simp only [List.map_cons, List.nodup_cons] at hnd
    simp only [List.map_cons, List.mem_cons, not_or] at hki
    obtain ⟨hro1, hwf1⟩ := hpre (k, v) (by simp)
    obtain ⟨h1, n1, hset, hsome, hinit1, hst1, hkeep1, hev1, hpend1, hframe1⟩ :=
      set_step F h k v options hro1 hwf1
    have hkey : setKey F (options.prop "silent") (options.prop "override")
        { h with changedAttrs := some (h.changedAttrs.getD []) } k v = Result.ok h1 := by
      rw [← set_str]; exact hset
    have hne : ∀ m ∈ rest, k ≠ m.1 := by
      intro m hm hc
      exact hnd.1 (hc ▸ List.mem_map_of_mem Prod.fst hm)
    have hsame : ∀ m ∈ rest, lookupProp h1.attrs m.1 = lookupProp h.attrs m.1 :=
      fun m hm => hframe1 m.1 (hne m hm)
    obtain ⟨hp, hw, hloop, hvals, hev, hpend, hframe⟩ :=
      setLoop_stops_at_readOnly F options ki vi post rest h1 hnd.2
        (fun m hm => by
          rw [hsame m hm]
          exact hpre m (by simp [hm]))
        (by rw [hframe1 ki (fun hc => hki.1 hc.symm)]; exact hro) hki.2
    rw [withChanged_of_isSome h1 hsome] at hloop
    have hk : storedValue hp k = storedValue h1 k := storedValue_congr hp h1 k (hframe k hnd.1)
    refine ⟨hp, ?_, ?_, ?_, ?_, ?_, ?_⟩
    · simp only [writeEach, hset]
      exact hw
    · simp only [List.cons_append, setLoop, hkey]
      exact hloop
    · intro m hm
      simp only [List.mem_cons] at hm
      rcases hm with hm | hm
      · subst hm
        refine ⟨⟨n1, by rw [hk]; exact hst1⟩, ?_⟩
        intro s hs
        rw [hframe k hnd.1, hkeep1 s hs]
      · obtain ⟨⟨n, hn⟩, hkeep⟩ := hvals m hm
        refine ⟨⟨n, ?_⟩, ?_⟩
        · rw [hn, previousValue_congr F h1 h m.1 (hsame m hm), hsame m hm]
        · intro s hs
          rw [hkeep s hs, hsame m hm]
    · rw [hev, hev1, List.append_assoc]
      simp only [changeEventsOf]
      rw [hk, changeEventsOf_congr F _ h h1 hp rest hinit1 hsame]
    · rw [hpend, hpend1]
      simp only [pendingAfterAll]
      rw [hk, pendingAfterAll_congr F _ h h1 hp rest hinit1 hsame]
    · intro k2 hk2
      simp only [List.map_cons, List.mem_cons, not_or] at hk2
      rw [hframe k2 hk2.2, hframe1 k2 (fun hc => hk2.1 hc.symm)]

/-- The own-member test of line 73 on a mapping with a member named `hasOwnProperty` calls
that member, not the built-in test: when it is not a function, `set(mapping)` throws a
`TypeError` before any key is handled, where the embedding handles the keys. -/
theorem own_member_shadows_hasOwnProperty :
    chainRead [("hasOwnProperty", Val.num 1), ("a", Val.str "p")] "hasOwnProperty" =
        Val.num 1 ∧
      call doubling (chainRead [("hasOwnProperty", Val.num 1), ("a", Val.str "p")]
        "hasOwnProperty") (Val.str "a") "a" = Except.error Err.typeError ∧
      isFn (chainRead [("a", Val.str "p")] "hasOwnProperty") = true :=
  ⟨rfl, rfl, by decide⟩

/-- C11: a write `set(mapping, options)` whose keys are enumerated as `pre`, then `ki`, then
`post`, where `ki` is the first read-only key (the slots of the keys of `pre` being well
formed, and no key being the name of a member of `Object.prototype`, so that the member test
of line 73 is the built-in one and the read `now[key]` of line 75 finds own slots only),
throws the read-only error for `ki`. Every key `k` of `pre` holds its newly written value:
the result of the setter, merged with the previous value as lines 93-95 have it, which
`get(k)` returns through the getter; the events emitted and the changes recorded are, key
by key and in order, those of lines 102-109 for that previous and that new value, and the
host is the one the single-key writes of `pre`, made in order, return. Every key from `ki` on
keeps its slot, so `get` returns for it what it returned before; none of the events emitted is a
`change` event of such a key, and its pending entries are as before. -/
theorem set_mapping_stops_at_readOnly (F : Nat → Val → String → Val) (h : Host) (i : Nat)
    (pre post : Members) (ki : String) (vi options x : Val)
    (hnd : ((pre ++ (ki, vi) :: post).map Prod.fst).Nodup)
    (hord : ∀ k ∈ (pre ++ (ki, vi) :: post).map Prod.fst, k ∉ objectPrototypeNames)
    (hpre : ∀ m ∈ pre, truthy ((lookupProp h.attrs m.1).prop "readOnly") = false ∧
      wellFormedSlot (lookupProp h.attrs m.1) = true)
    (hro : truthy ((lookupProp h.attrs ki).prop "readOnly") = true) :
    chainRead (pre ++ (ki, vi) :: post) "hasOwnProperty" = chainRead [] "hasOwnProperty" ∧
      (∀ k ∈ (pre ++ (ki, vi) :: post).map Prod.fst,
        chainRead h.attrs k = lookupProp h.attrs k) ∧
      ∃ hp, writeEach F options h pre = Result.ok hp ∧
        set F h (Val.obj i (pre ++ (ki, vi) :: post)) options x =
          Result.throws (Err.error ("This attribute is readOnly: " ++ ki))
            { hp with changedAttrs := some (hp.changedAttrs.getD []) } ∧
        (∀ m ∈ pre,
          (∃ n, storedValue hp m.1 =
            (mergedVal (options.prop "override") (previousValue F h m.1)
              (applyFn F ((lookupProp h.attrs m.1).prop "setter") m.2 m.1) n).1) ∧
          get F hp m.1 = Except.ok
            (applyFn F ((lookupProp h.attrs m.1).prop "getter") (storedValue hp m.1) m.1)) ∧
        hp.events = h.events ++ changeEventsOf F (options.prop "silent") h hp pre ∧
        pendingChanges hp =
          pendingAfterAll F (options.prop "silent") h hp (pendingChanges h) pre ∧
        ∀ k ∈ ((ki, vi) :: post).map Prod.fst,
          lookupProp hp.attrs k = lookupProp h.attrs k ∧
            get F hp k = get F h k ∧
            (∀ e ∈ changeEventsOf F (options.prop "silent") h hp pre,
              e.name ≠ "change:" ++ k) ∧
            (pendingChanges hp).filter (fun e => e.1 = k) =
              (pendingChanges h).filter (fun e => e.1 = k) := by
  have hown : hasOwn (pre ++ (ki, vi) :: post) "hasOwnProperty" = false := by
    by_contra hc
    have hc2 : hasOwn (pre ++ (ki, vi) :: post) "hasOwnProperty" = true := by simpa using hc
    exact hord _ ((hasOwn_iff_mem _ _).1 hc2) (by decide)
  refine ⟨by simp [chainRead, hown, hasOwn],
    fun k hk => chainRead_of_ordinary h.attrs k (hord k hk), ?_⟩
  rw [List.map_append, List.nodup_append] at hnd
  obtain ⟨hnd1, _, hdisj⟩ := hnd
  have hki : ki ∉ pre.map Prod.fst := fun hc => hdisj hc (by simp)
  obtain ⟨hp, hw, hloop, hvals, hev, hpend, hframe⟩ :=
    setLoop_stops_at_readOnly F options ki vi post pre h hnd1 hpre hro hki
  refine ⟨hp, hw, by rw [set_obj]; exact hloop, ?_, hev, hpend, ?_⟩
  · intro m hm
    obtain ⟨hval, hkeep⟩ := hvals m hm
    refine ⟨hval, ?_⟩
    obtain ⟨_, hg, _⟩ := wellFormedSlot_parts _ (hpre m hm).2
    rw [get_eq F hp m.1 (by rw [hkeep "getter" (by decide)]; exact hg),
      hkeep "getter" (by decide)]
  · intro k hk
    have hk1 : k ∉ pre.map Prod.fst := fun hc => hdisj hc hk
    have ha := hframe k hk1
    refine ⟨ha, get_congr F hp h k ha, ?_, ?_⟩
    · intro e he hc
      obtain ⟨k2, hk2, hn⟩ := changeEventsOf_names F _ h hp pre e he
      rw [hn] at hc
      exact hk1 (change_name_inj _ _ hc ▸ hk2)
    · rw [hpend]
      exact pendingAfterAll_filter F _ h hp pre k hk1 _

theorem set_mapping_stops_at_readOnly_witness :
    ((([("a", Val.str "p")] : Members) ++ ("x", Val.num 2) :: [("b", Val.str "q")]).map
        Prod.fst).Nodup ∧
      (∀ k ∈ (([("a", Val.str "p")] : Members) ++ ("x", Val.num 2) ::
          [("b", Val.str "q")]).map Prod.fst, k ∉ objectPrototypeNames) ∧
      (∀ m ∈ ([("a", Val.str "p")] : Members),
        truthy ((lookupProp mixedHost.attrs m.1).prop "readOnly") = false ∧
          wellFormedSlot (lookupProp mixedHost.attrs m.1) = true) ∧
      truthy ((lookupProp mixedHost.attrs "x").prop "readOnly") = true ∧
      (chainRead ([("a", Val.str "p")] ++ ("x", Val.num 2) :: [("b", Val.str "q")])
          "hasOwnProperty" = chainRead [] "hasOwnProperty" ∧
        (∀ k ∈ (([("a", Val.str "p")] : Members) ++ ("x", Val.num 2) ::
            [("b", Val.str "q")]).map Prod.fst,
          chainRead mixedHost.attrs k = lookupProp mixedHost.attrs k) ∧
        ∃ hp, writeEach doubling Val.undefined mixedHost [("a", Val.str "p")] =
            Result.ok hp ∧
          set doubling mixedHost
              (Val.obj 7 ([("a", Val.str "p")] ++ ("x", Val.num 2) :: [("b", Val.str "q")]))
              Val.undefined Val.undefined =
            Result.throws (Err.error ("This attribute is readOnly: " ++ "x"))
              { hp with changedAttrs := some (hp.changedAttrs.getD []) } ∧
          (∀ m ∈ ([("a", Val.str "p")] : Members),
            (∃ n, storedValue hp m.1 =
              (mergedVal (Val.undefined.prop "override") (previousValue doubling mixedHost m.1)
                (applyFn doubling ((lookupProp mixedHost.attrs m.1).prop "setter") m.2 m.1)
                n).1) ∧
            get doubling hp m.1 = Except.ok
              (applyFn doubling ((lookupProp mixedHost.attrs m.1).prop "getter")
                (storedValue hp m.1) m.1)) ∧
          hp.events = mixedHost.events ++
            changeEventsOf doubling (Val.undefined.prop "silent") mixedHost hp
              [("a", Val.str "p")] ∧
          pendingChanges hp =
            pendingAfterAll doubling (Val.undefined.prop "silent") mixedHost hp
              (pendingChanges mixedHost) [("a", Val.str "p")] ∧
          ∀ k ∈ (("x", Val.num 2) :: [("b", Val.str "q")]).map Prod.fst,
            lookupProp hp.attrs k = lookupProp mixedHost.attrs k ∧
              get doubling hp k = get doubling mixedHost k ∧
              (∀ e ∈ changeEventsOf doubling (Val.undefined.prop "silent") mixedHost hp
                  [("a", Val.str "p")],
                e.name ≠ "change:" ++ k) ∧
              (pendingChanges hp).filter (fun e => e.1 = k) =
                (pendingChanges mixedHost).filter (fun e => e.1 = k)) :=
  ⟨by decide, by decide, by decide, by decide,
    set_mapping_stops_at_readOnly doubling mixedHost 7 [("a", Val.str "p")]
      [("b", Val.str "q")] "x" (Val.num 2) Val.undefined Val.undefined (by decide) (by decide)
      (by decide) (by decide)⟩

/-- The write `set(\x7ba: 'p', x: 2, b: 'q'\x7d)` on an instance of `mixedProto`: it throws at
`x`; `a` holds `'p'` and its event was emitted, `x` and `b` hold what they held. -/
theorem set_mapping_example :
    get doubling mixedHost "a" = Except.ok (Val.str "x") ∧
      get doubling mixedHost "x" = Except.ok (Val.num 1) ∧
      get doubling mixedHost "b" = Except.ok (Val.str "y") ∧
      mixedHost.events.map (fun e => e.name) = [] ∧
      (∃ hf, set doubling mixedHost
          (Val.obj 7 [("a", Val.str "p"), ("x", Val.num 2), ("b", Val.str "q")])
          Val.undefined Val.undefined =
        Result.throws (Err.error "This attribute is readOnly: x") hf) ∧
      get doubling (set doubling mixedHost
          (Val.obj 7 [("a", Val.str "p"), ("x", Val.num 2), ("b", Val.str "q")])
          Val.undefined Val.undefined).host "a" = Except.ok (Val.str "p") ∧
      get doubling (set doubling mixedHost
          (Val.obj 7 [("a", Val.str "p"), ("x", Val.num 2), ("b", Val.str "q")])
          Val.undefined Val.undefined).host "x" = Except.ok (Val.num 1) ∧
      get doubling (set doubling mixedHost
          (Val.obj 7 [("a", Val.str "p"), ("x", Val.num 2), ("b", Val.str "q")])
          Val.undefined Val.undefined).host "b" = Except.ok (Val.str "y") ∧
      (set doubling mixedHost
          (Val.obj 7 [("a", Val.str "p"), ("x", Val.num 2), ("b", Val.str "q")])
          Val.undefined Val.undefined).host.events.map (fun e => (e.name, e.args)) =
        [("change:a", [Val.str "p", Val.str "x", Val.str "a"])] := by
  exact ⟨rfl, rfl, rfl, rfl, ⟨_, rfl⟩, rfl, rfl, rfl, rfl⟩

/-! ### Configuring a read-only attribute -/

theorem set_throws_of_readOnly (F : Nat → Val → String → Val) (h : Host) (x : String)
    (w options : Val)
    (hro : truthy ((lookupProp h.attrs x).prop "readOnly") = true) :
    set F h (Val.str x) w options =
      Result.throws (Err.error ("This attribute is readOnly: " ++ x))
        { h with changedAttrs := some (h.changedAttrs.getD []) } := by
  have ht : truthy (lookupProp h.attrs x) = true := truthy_of_prop_truthy _ _ hro
  rw [set_str]
  simp [setKey, ensureSlot, ht, hro]

/-- The slot `initAttrs(config)` installs for a configured key whose inherited declaration
is a plain record: the inherited declaration with its `value` replaced by the configured
value (cloned by `normalize`) merged over the inherited value. -/
theorem instanceAttrs_over_declaration (h : Host) (c : Members) (x : String)
    (hnd : (c.map Prod.fst).Nodup) (hx : x ∈ c.map Prod.fst)
    (hpl : isPlainObject (lookupProp (inheritedClone h).1 x) = true) :
    ∃ n1 n2, isObj (lookupProp (instanceAttrs h (some c)).1 x) = true ∧
      (lookupProp (instanceAttrs h (some c)).1 x).prop "value" =
        (mergeValue ((lookupProp (inheritedClone h).1 x).prop "value")
          (mergeValue Val.undefined (lookupProp c x) n2).1 n1).1 ∧
      ∀ s, s ≠ "value" → (lookupProp (instanceAttrs h (some c)).1 x).prop s =
        (lookupProp (inheritedClone h).1 x).prop s := by
  have hk2 : x ∈ (merge [] c (inheritedClone h).2).1.map Prod.fst :=
    (mem_names_merge [] c _ x).2 (Or.inr hx)
  obtain ⟨n3, hn3⟩ := lookupProp_normalizeLoop_user (merge [] c (inheritedClone h).2).1
    (merge [] c (inheritedClone h).2).2 x hk2
  obtain ⟨n2, hn2⟩ := lookupProp_merge_of_mem [] c (inheritedClone h).2 x hnd hx
  have hku : x ∈ (normalize c true (inheritedClone h).2).1.map Prod.fst :=
    (mem_names_normalize c true _ x).2 hx
  obtain ⟨n1, hn1⟩ := lookupProp_merge_of_mem (inheritedClone h).1
    (normalize c true (inheritedClone h).2).1 (normalize c true (inheritedClone h).2).2 x
    (nodup_normalize c true _) hku
  have hu : lookupProp (normalize c true (inheritedClone h).2).1 x =
      Val.obj n3 [("value", (mergeValue Val.undefined (lookupProp c x) n2).1)] := by
    have hn2b : lookupProp (merge [] c (inheritedClone h).2).1 x =
        (mergeValue Val.undefined (lookupProp c x) n2).1 := hn2
    rw [← hn2b]; exact hn3
  have hslot : lookupProp (instanceAttrs h (some c)).1 x =
      (mergeValue (lookupProp (inheritedClone h).1 x)
        (Val.obj n3 [("value", (mergeValue Val.undefined (lookupProp c x) n2).1)]) n1).1 := by
    rw [← hu, ← hn1]
    rfl
  obtain ⟨p, pms, hp⟩ := isObj_of_isPlainObject _ hpl
  rw [hp] at hslot hpl
  have hst := isPlainObject_structured n3 (mergeValue Val.undefined (lookupProp c x) n2).1
  simp only [mergeValue, hst, hpl, if_true, merge_cons, merge_nil] at hslot
  refine ⟨n1, n2, by rw [hslot]; rfl, ?_, ?_⟩
  · rw [hslot, hp]
    simp only [Val.prop, lookupProp_assign_same]
  · intro s hs
    rw [hslot, hp]
    simp only [Val.prop]
    exact lookupProp_assign_ne _ _ _ _ (fun hc => hs hc.symm)

/-- C13 (as the code has it): `x` has a plain inherited declaration with the read-only flag
and no setter, and `config` supplies `v` for `x` (every installed slot is well formed and no
configured key has both a setter and the read-only flag). Then `initAttrs(config)` returns;
the slot of `x` keeps every inherited member but `value` (so the getter, the setter and the
read-only flag); its value is the clone of `v` merged over the inherited value, which is a
copy of `v` when `v` is not a plain record; `get(x)` is that value passed through the getter
if there is one; and every later `set(x, w)` throws the read-only error. -/
theorem initAttrs_configures_readOnly (F : Nat → Val → String → Val) (h : Host) (c : Members)
    (x : String) (v : Val)
    (hnd : (c.map Prod.fst).Nodup) (hx : x ∈ c.map Prod.fst) (hv : lookupProp c x = v)
    (hpl : isPlainObject (lookupProp (inheritedClone h).1 x) = true)
    (hro : truthy ((lookupProp (inheritedClone h).1 x).prop "readOnly") = true)
    (hns : truthy ((lookupProp (inheritedClone h).1 x).prop "setter") = false)
    (hwf : ∀ k, wellFormedSlot (lookupProp (instanceAttrs h (some c)).1 k) = true)
    (hsup : ∀ k ∈ c.map Prod.fst,
      truthy ((lookupProp (instanceAttrs h (some c)).1 k).prop "setter") = true →
        truthy ((lookupProp (instanceAttrs h (some c)).1 k).prop "readOnly") = false) :
    ∃ a, initAttrs F h (some c) = Result.ok a ∧
      (∀ s, s ≠ "value" →
        (lookupProp a.attrs x).prop s = (lookupProp (inheritedClone h).1 x).prop s) ∧
      truthy ((lookupProp a.attrs x).prop "readOnly") = true ∧
      (∃ n1 n2, storedValue a x =
        (mergeValue ((lookupProp (inheritedClone h).1 x).prop "value")
          (mergeValue Val.undefined v n2).1 n1).1) ∧
      (isPlainObject v = false → copyOf (storedValue a x) v) ∧
      get F a x = Except.ok
        (applyFn F ((lookupProp (inheritedClone h).1 x).prop "getter") (storedValue a x) x) ∧
      ∀ w o, set F a (Val.str x) w o =
        Result.throws (Err.error ("This attribute is readOnly: " ++ x))
          { a with changedAttrs := some (a.changedAttrs.getD []) } := by
  subst hv
  obtain ⟨n1, n2, _, hval, hkeep⟩ := instanceAttrs_over_declaration h c x hnd hx hpl
  obtain ⟨a, hinit, _, _, _, _, _, hsame⟩ :=
    initAttrs_ok F h (some c) hwf (fun c2 hc2 => by cases hc2; exact hsup)
  have hslot : lookupProp a.attrs x = lookupProp (instanceAttrs h (some c)).1 x :=
    hsame x (Or.inr (by rw [hkeep "setter" (by decide)]; exact hns))
  have hstored : storedValue a x =
      (mergeValue ((lookupProp (inheritedClone h).1 x).prop "value")
        (mergeValue Val.undefined (lookupProp c x) n2).1 n1).1 := by
    rw [storedValue, hslot, hval]
  have hro2 : truthy ((lookupProp a.attrs x).prop "readOnly") = true := by
    rw [hslot, hkeep "readOnly" (by decide)]; exact hro
  refine ⟨a, hinit, ?_, hro2, ⟨n1, n2, hstored⟩, ?_, ?_, ?_⟩
  · intro s hs
    rw [hslot, hkeep s hs]
  · intro hnp
    rw [hstored]
    have hw := copyOf_mergeValue Val.undefined (lookupProp c x) n2 hnp
    have hwp := isPlainObject_of_copyOf _ _ hw hnp
    exact copyOf_trans _ _ _ (copyOf_mergeValue _ _ n1 hwp) hw
  · obtain ⟨_, hg, _⟩ := wellFormedSlot_parts _ (hwf x)
    rw [get_eq F a x (by rw [hslot]; exact hg), hslot, hkeep "getter" (by decide)]
  · intro w o
    exact set_throws_of_readOnly F a x w o hro2

theorem initAttrs_configures_readOnly_witness :
    ([("x", Val.num 5)].map Prod.fst).Nodup ∧
      "x" ∈ [("x", Val.num 5)].map Prod.fst ∧
      lookupProp [("x", Val.num 5)] "x" = Val.num 5 ∧
      isPlainObject (lookupProp (inheritedClone (newHost [guardedProto])).1 "x") = true ∧
      truthy ((lookupProp (inheritedClone (newHost [guardedProto])).1 "x").prop "readOnly") =
        true ∧
      truthy ((lookupProp (inheritedClone (newHost [guardedProto])).1 "x").prop "setter") =
        false ∧
      (∀ k, wellFormedSlot (lookupProp
        (instanceAttrs (newHost [guardedProto]) (some [("x", Val.num 5)])).1 k) = true) ∧
      (∀ k ∈ [("x", Val.num 5)].map Prod.fst,
        truthy ((lookupProp (instanceAttrs (newHost [guardedProto])
          (some [("x", Val.num 5)])).1 k).prop "setter") = true →
        truthy ((lookupProp (instanceAttrs (newHost [guardedProto])
          (some [("x", Val.num 5)])).1 k).prop "readOnly") = false) ∧
      ∃ a, initAttrs doubling (newHost [guardedProto]) (some [("x", Val.num 5)]) =
          Result.ok a ∧
        (∀ s, s ≠ "value" → (lookupProp a.attrs "x").prop s =
          (lookupProp (inheritedClone (newHost [guardedProto])).1 "x").prop s) ∧
        truthy ((lookupProp a.attrs "x").prop "readOnly") = true ∧
        (∃ n1 n2, storedValue a "x" =
          (mergeValue ((lookupProp (inheritedClone (newHost [guardedProto])).1 "x").prop "value")
            (mergeValue Val.undefined (Val.num 5) n2).1 n1).1) ∧
        (isPlainObject (Val.num 5) = false → copyOf (storedValue a "x") (Val.num 5)) ∧
        get doubling a "x" = Except.ok
          (applyFn doubling
            ((lookupProp (inheritedClone (newHost [guardedProto])).1 "x").prop "getter")
            (storedValue a "x") "x") ∧
        ∀ w o, set doubling a (Val.str "x") w o =
          Result.throws (Err.error ("This attribute is readOnly: " ++ "x"))
            { a with changedAttrs := some (a.changedAttrs.getD []) } :=
  have hwf : ∀ k, wellFormedSlot (lookupProp
      (instanceAttrs (newHost [guardedProto]) (some [("x", Val.num 5)])).1 k) = true :=
    fun k => wellFormedSlot_lookupProp _ (by decide) k
  have hsup : ∀ k ∈ [("x", Val.num 5)].map Prod.fst,
      truthy ((lookupProp (instanceAttrs (newHost [guardedProto])
        (some [("x", Val.num 5)])).1 k).prop "setter") = true →
      truthy ((lookupProp (instanceAttrs (newHost [guardedProto])
        (some [("x", Val.num 5)])).1 k).prop "readOnly") = false := by decide
  ⟨by decide, by decide, rfl, by decide, by decide, by decide, hwf, hsup,
    initAttrs_configures_readOnly doubling (newHost [guardedProto]) [("x", Val.num 5)] "x"
      (Val.num 5) (by decide) (by decide) rfl (by decide) (by decide) (by decide) hwf hsup⟩

/-- C13 (as the claim has it) fails. The read-only attribute `x` of `guardedProto` has a
getter and no setter: configured with `5`, `get('x')` is `10`. The read-only attribute `o` of
`lockedProto` has the default `{a: 1, b: 2}` and no setter: configured with `{c: 3}`,
`get('o')` is `{a: 1, b: 2, c: 3}`. -/
theorem initAttrs_readOnly_not_configured_value :
    truthy ((lookupProp (inheritedClone (newHost [guardedProto])).1 "x").prop "readOnly") =
        true ∧
      truthy ((lookupProp (inheritedClone (newHost [guardedProto])).1 "x").prop "setter") =
        false ∧
      (∃ a, initAttrs doubling (newHost [guardedProto]) (some [("x", Val.num 5)]) =
        Result.ok a) ∧
      get doubling (initAttrs doubling (newHost [guardedProto])
        (some [("x", Val.num 5)])).host "x" = Except.ok (Val.num 10) ∧
      truthy ((lookupProp (inheritedClone (newHost [lockedProto])).1 "o").prop "readOnly") =
        true ∧
      truthy ((lookupProp (inheritedClone (newHost [lockedProto])).1 "o").prop "setter") =
        false ∧
      (∃ a, initAttrs doubling (newHost [lockedProto])
        (some [("o", Val.obj 9 [("c", Val.num 3)])]) = Result.ok a) ∧
      get doubling (initAttrs doubling (newHost [lockedProto])
          (some [("o", Val.obj 9 [("c", Val.num 3)])])).host "o" =
        Except.ok (Val.obj 108 [("a", Val.num 1), ("b", Val.num 2), ("c", Val.num 3)]) :=
  ⟨by decide, by decide, ⟨_, rfl⟩, rfl, by decide, by decide, ⟨_, rfl⟩, rfl⟩


/-! ### The setter calls of `initAttrs` -/

theorem commit_setterCalls (s : Val) (h : Host) (k : String) (prev : Val) (r : Val × Nat) :
    (commit s h k prev r).setterCalls = h.setterCalls := by
  unfold commit
  simp only []
  split_ifs <;> simp [trigger]

theorem ensureSlot_setterCalls (h : Host) (k : String) :
    (ensureSlot h k).setterCalls = h.setterCalls := by
  unfold ensureSlot; split_ifs <;> rfl

theorem recordSetter_setterCalls (h : Host) (f : Val) (k : String) (v : Val)
    (hc : callable f = true) (ht : truthy f = true) :
    (recordSetter h f k v).setterCalls = h.setterCalls ++ [(k, v)] := by
  cases f <;> simp_all [callable, truthy, isFn, recordSetter]

/-- One priming write during guarded initialization calls the setter once, with the value
written. -/
theorem set_initializing_calls (F : Nat → Val → String → Val) (h : Host) (k : String)
    (v options : Val)
    (hinit : h.initializingAttrs = true)
    (hset : truthy ((lookupProp h.attrs k).prop "setter") = true)
    (hro : truthy ((lookupProp h.attrs k).prop "readOnly") = false)
    (hwf : wellFormedSlot (lookupProp h.attrs k) = true) :
    ∃ h1, set F h (Val.str k) v options = Result.ok h1 ∧ h1.initializingAttrs = true ∧
      (∀ k2, k ≠ k2 → lookupProp h1.attrs k2 = lookupProp h.attrs k2) ∧
      h1.setterCalls = h.setterCalls ++ [(k, v)] := by
  obtain ⟨h1, hs1, _, _, hinit1, hother1, _⟩ := set_initializing F h k v options hinit hset hro hwf
  refine ⟨h1, hs1, hinit1, hother1, ?_⟩
  obtain ⟨_, _, hs⟩ := wellFormedSlot_parts _ hwf
  have he := set_eq F h k v options hro hwf
  rw [hs1] at he
  cases he
  rw [recordSetter_setterCalls _ _ _ _ hs hset, commit_setterCalls, ensureSlot_setterCalls]

/-- The loop of `setSetterAttrs` calls the setter of every keyed slot that has one, once, in
the order of the keys, with the value listed for the key. -/
theorem setSetterLoop_setterCalls (F : Nat → Val → String → Val) (opts : Val) :
    ∀ (uvs : Members) (host : Host),
      host.initializingAttrs = true →
      (uvs.map Prod.fst).Nodup →
      (∀ k ∈ uvs.map Prod.fst,
        wellFormedSlot (lookupProp host.attrs k) = true ∧
          (truthy ((lookupProp host.attrs k).prop "setter") = true →
            truthy ((lookupProp host.attrs k).prop "readOnly") = false)) →
      ∃ after, setSetterLoop F opts host uvs = Result.ok after ∧
        after.setterCalls = host.setterCalls ++
          (uvs.filter (fun m => truthy ((lookupProp host.attrs m.1).prop "setter"))).map
            (fun m => (m.1, m.2.prop "value"))
  | [], host, _, _, _ => ⟨host, rfl, by simp⟩
  | (key, uv) :: rest, host, hinit, hnd, hwf => by
    simp only [List.map_cons, List.nodup_cons] at hnd
    have hkey := hwf key (by simp)
    by_cases hset : truthy ((lookupProp host.attrs key).prop "setter") = true
    · obtain ⟨h1, hs1, hinit1, hother1, hcalls1⟩ :=
        set_initializing_calls F host key (uv.prop "value") opts hinit hset (hkey.2 hset) hkey.1
      have hsame : ∀ m ∈ rest, lookupProp h1.attrs m.1 = lookupProp host.attrs m.1 := by
        intro m hm
        exact hother1 m.1 (fun hc => hnd.1 (hc ▸ List.mem_map_of_mem Prod.fst hm))
      have hrest : ∀ k ∈ rest.map Prod.fst,
          wellFormedSlot (lookupProp h1.attrs k) = true ∧
            (truthy ((lookupProp h1.attrs k).prop "setter") = true →
              truthy ((lookupProp h1.attrs k).prop "readOnly") = false) := by
        intro k hk
        have hne : key ≠ k := fun hc => hnd.1 (hc ▸ hk)
        rw [hother1 k hne]
        exact hwf k (by simp [hk])
      obtain ⟨after, hloop, hcalls⟩ :=
        setSetterLoop_setterCalls F opts rest h1 hinit1 hnd.2 hrest
      have hfilter : rest.filter
            (fun m => truthy ((lookupProp h1.attrs m.1).prop "setter")) =
          rest.filter (fun m => truthy ((lookupProp host.attrs m.1).prop "setter")) :=
        List.filter_congr (fun m hm => by rw [hsame m hm])
      refine ⟨after, ?_, ?_⟩
      · simp only [setSetterLoop, hset, if_true, hs1]
        exact hloop
      · rw [hcalls, hcalls1, hfilter]
        simp only [List.filter_cons, hset, if_true, List.map_cons, List.append_assoc,
          List.singleton_append]
    · have hsetf : truthy ((lookupProp host.attrs key).prop "setter") = false := by
        simpa using hset
      obtain ⟨after, hloop, hcalls⟩ :=
        setSetterLoop_setterCalls F opts rest host hinit hnd.2
          (fun k hk => hwf k (by simp [hk]))
      refine ⟨after, ?_, ?_⟩
      · simp only [setSetterLoop, hsetf, Bool.false_eq_true, if_false]
        exact hloop
      · rw [hcalls]
        simp only [List.filter_cons, hsetf, Bool.false_eq_true, if_false]

theorem parseEventsFromInstance_setterCalls (ms : Members) (h : Host) :
    (parseEventsFromInstance h ms).setterCalls = h.setterCalls := by
  induction ms generalizing h with
  | nil => rfl
  | cons m rest ih =>
    obtain ⟨k, v⟩ := m
    simp only [parseEventsFromInstance]
    split_ifs
    · rw [ih]
    · exact ih h

theorem copySpecialPropsToHost_setterCalls (F : Nat → Val → String → Val) (sp : List String) :
    ∀ (h h1 : Host), copySpecialPropsToHost F sp h = Result.ok h1 →
      h1.setterCalls = h.setterCalls := by
  induction sp with
  | nil =>
    intro h h1 he
    simp only [copySpecialPropsToHost] at he
    cases he
    rfl
  | cons key rest ih =>
    intro h h1 he
    simp only [copySpecialPropsToHost] at he
    split_ifs at he
    · cases hg : get F h key with
      | error e => rw [hg] at he; cases he
      | ok v =>
        rw [hg] at he
        simp only [] at he
        have hrec := ih _ _ he
        exact hrec
    · exact ih _ _ he

/-- The setter calls `initAttrs(config)` adds to the trace of the host. -/
theorem initAttrs_setterCalls_eq (F : Nat → Val → String → Val) (h : Host)
    (config : Option Members)
    (hwf : ∀ k, wellFormedSlot (lookupProp (instanceAttrs h config).1 k) = true)
    (hsup : ∀ c, config = some c → ∀ k ∈ c.map Prod.fst,
      truthy ((lookupProp (instanceAttrs h config).1 k).prop "setter") = true →
        truthy ((lookupProp (instanceAttrs h config).1 k).prop "readOnly") = false)
    (a : Host) (ha : initAttrs F h config = Result.ok a) :
    a.setterCalls = h.setterCalls ++
      ((((userValues h config).map Prod.fst).getD []).filter
        (fun m => truthy ((lookupProp (instanceAttrs h config).1 m.1).prop "setter"))).map
        (fun m => (m.1, m.2.prop "value")) := by
  obtain ⟨after, hloop, hcalls⟩ := setSetterLoop_setterCalls F
    (Val.obj (instanceAttrs h config).2 [("silent", Val.bool true)])
    (((userValues h config).map Prod.fst).getD [])
    { parseEventsFromInstance h (instanceAttrs h config).1 with
      attrs := (instanceAttrs h config).1, nextId := (instanceAttrs h config).2 + 1,
      initializingAttrs := true }
    rfl
    (by
      cases config with
      | none => simp [userValues]
      | some c => exact nodup_normalize c true _)
    (by
      intro k hk
      refine ⟨hwf k, ?_⟩
      cases config with
      | none => simp [userValues] at hk
      | some c => exact hsup c rfl k ((mem_names_normalize c true _ k).1 hk))
  have hstep : setSetterAttrs F
      { parseEventsFromInstance h (instanceAttrs h config).1 with
        attrs := (instanceAttrs h config).1, nextId := (instanceAttrs h config).2 }
      ((userValues h config).map Prod.fst) =
      Result.ok { after with initializingAttrs := false } := by
    simp only [setSetterAttrs]
    rw [hloop]
  simp only [initAttrs, hstep] at ha
  rw [copySpecialPropsToHost_setterCalls F _ _ _ ha]
  simp only []
  rw [hcalls]
  simp only [parseEventsFromInstance_setterCalls]

theorem nodup_names_filter (ms : Members) (p : String × Val → Bool)
    (hnd : (ms.map Prod.fst).Nodup) : ((ms.filter p).map Prod.fst).Nodup :=
  List.Nodup.sublist (List.Sublist.map Prod.fst (List.filter_sublist ms)) hnd

/-- C20: when every installed slot is well formed and no configured key has both a setter
and the read-only flag, `initAttrs(config)` returns, and the calls of setters it makes (the
calls `initAttrs` adds to the trace `setterCalls`, which line 84 of `set` writes) are one
call for each configured key whose installed declaration has a setter, in the order of the
keys, with the configured value as `normalize` cloned it: no key is called twice, and a key
is called exactly when it is configured and its installed declaration has a setter. An
attribute `n` that is not configured (none is, without a `config`) gets no setter call,
keeps the inherited declaration, and `get(n)` is the declared default, passed through the
getter when there is one. -/
theorem initAttrs_setter_calls (F : Nat → Val → String → Val) (h : Host)
    (config : Option Members)
    (hwf : ∀ k, wellFormedSlot (lookupProp (instanceAttrs h config).1 k) = true)
    (hsup : ∀ c, config = some c → ∀ k ∈ c.map Prod.fst,
      truthy ((lookupProp (instanceAttrs h config).1 k).prop "setter") = true →
        truthy ((lookupProp (instanceAttrs h config).1 k).prop "readOnly") = false) :
    ∃ a calls, initAttrs F h config = Result.ok a ∧
      a.setterCalls = h.setterCalls ++ calls ∧
      calls = ((((userValues h config).map Prod.fst).getD []).filter
        (fun m => truthy ((lookupProp (instanceAttrs h config).1 m.1).prop "setter"))).map
        (fun m => (m.1, m.2.prop "value")) ∧
      (calls.map Prod.fst).Nodup ∧
      (∀ k, k ∈ calls.map Prod.fst ↔
        k ∈ (config.getD []).map Prod.fst ∧
          truthy ((lookupProp (instanceAttrs h config).1 k).prop "setter") = true) ∧
      ∀ n, n ∉ (config.getD []).map Prod.fst →
        n ∉ calls.map Prod.fst ∧
          lookupProp a.attrs n = lookupProp (inheritedClone h).1 n ∧
          get F a n = Except.ok
            (applyFn F ((lookupProp (inheritedClone h).1 n).prop "getter")
              ((lookupProp (inheritedClone h).1 n).prop "value") n) := by
  obtain ⟨a, hinit, _, _, _, _, _, hsame⟩ := initAttrs_ok F h config hwf hsup
  have hcalls := initAttrs_setterCalls_eq F h config hwf hsup a hinit
  have hnames : ∀ k, k ∈ (((userValues h config).map Prod.fst).getD []).map Prod.fst ↔
      k ∈ (config.getD []).map Prod.fst := by
    intro k
    cases config with
    | none => simp [userValues]
    | some c => exact mem_names_normalize c true _ k
  have hnd : ((((userValues h config).map Prod.fst).getD []).map Prod.fst).Nodup := by
    cases config with
    | none => simp [userValues]
    | some c => exact nodup_normalize c true _
  have hmem : ∀ k, k ∈ (((((userValues h config).map Prod.fst).getD []).filter
        (fun m => truthy ((lookupProp (instanceAttrs h config).1 m.1).prop "setter"))).map
        (fun m => (m.1, m.2.prop "value"))).map Prod.fst ↔
      k ∈ (config.getD []).map Prod.fst ∧
        truthy ((lookupProp (instanceAttrs h config).1 k).prop "setter") = true := by
    intro k
    rw [← hnames k]
    simp only [List.map_map, List.mem_map, List.mem_filter, Function.comp]
    constructor
    · rintro ⟨m, ⟨hm, hs⟩, rfl⟩
      exact ⟨⟨m, hm, rfl⟩, hs⟩
    · rintro ⟨⟨m, hm, rfl⟩, hs⟩
      exact ⟨m, ⟨hm, hs⟩, rfl⟩
  refine ⟨a, _, hinit, hcalls, rfl, ?_, hmem, ?_⟩
  · have hmm : ∀ l : Members, (l.map (fun m => (m.1, m.2.prop "value"))).map Prod.fst =
        l.map Prod.fst := by
      intro l
      simp [List.map_map, Function.comp]
    rw [hmm]
    exact nodup_names_filter _ _ hnd
  · intro n hn
    have hslot : lookupProp a.attrs n = lookupProp (instanceAttrs h config).1 n :=
      hsame n (Or.inl hn)
    have hinst : lookupProp (instanceAttrs h config).1 n = lookupProp (inheritedClone h).1 n := by
      cases config with
      | none => rfl
      | some c =>
        exact lookupProp_merge_of_not_mem _ _ _ n
          (fun hc => hn ((mem_names_normalize c true _ n).1 hc))
    refine ⟨fun hc => hn ((hmem n).1 hc).1, by rw [hslot, hinst], ?_⟩
    obtain ⟨_, hg, _⟩ := wellFormedSlot_parts _ (hwf n)
    rw [get_eq F a n (by rw [hslot]; exact hg)]
    simp only [storedValue, hslot, hinst]

theorem initAttrs_setter_calls_witness :
    (∀ k, wellFormedSlot (lookupProp
        (instanceAttrs (newHost [pairProto]) (some [("m", Val.num 3)])).1 k) = true) ∧
      (∀ c, some [("m", Val.num 3)] = some c → ∀ k ∈ c.map Prod.fst,
        truthy ((lookupProp (instanceAttrs (newHost [pairProto])
          (some [("m", Val.num 3)])).1 k).prop "setter") = true →
        truthy ((lookupProp (instanceAttrs (newHost [pairProto])
          (some [("m", Val.num 3)])).1 k).prop "readOnly") = false) ∧
      ∃ a calls, initAttrs doubling (newHost [pairProto]) (some [("m", Val.num 3)]) =
          Result.ok a ∧
        a.setterCalls = (newHost [pairProto]).setterCalls ++ calls ∧
        calls = ((((userValues (newHost [pairProto]) (some [("m", Val.num 3)])).map
              Prod.fst).getD []).filter
            (fun m => truthy ((lookupProp (instanceAttrs (newHost [pairProto])
              (some [("m", Val.num 3)])).1 m.1).prop "setter"))).map
            (fun m => (m.1, m.2.prop "value")) ∧
        (calls.map Prod.fst).Nodup ∧
        (∀ k, k ∈ calls.map Prod.fst ↔
          k ∈ ((some [("m", Val.num 3)] : Option Members).getD []).map Prod.fst ∧
            truthy ((lookupProp (instanceAttrs (newHost [pairProto])
              (some [("m", Val.num 3)])).1 k).prop "setter") = true) ∧
        ∀ n, n ∉ ((some [("m", Val.num 3)] : Option Members).getD []).map Prod.fst →
          n ∉ calls.map Prod.fst ∧
            lookupProp a.attrs n = lookupProp (inheritedClone (newHost [pairProto])).1 n ∧
            get doubling a n = Except.ok
              (applyFn doubling
                ((lookupProp (inheritedClone (newHost [pairProto])).1 n).prop "getter")
                ((lookupProp (inheritedClone (newHost [pairProto])).1 n).prop "value") n) :=
  have hwf : ∀ k, wellFormedSlot (lookupProp
      (instanceAttrs (newHost [pairProto]) (some [("m", Val.num 3)])).1 k) = true :=
    fun k => wellFormedSlot_lookupProp _ (by decide) k
  have hsup : ∀ c, some [("m", Val.num 3)] = some c → ∀ k ∈ c.map Prod.fst,
      truthy ((lookupProp (instanceAttrs (newHost [pairProto])
        (some [("m", Val.num 3)])).1 k).prop "setter") = true →
      truthy ((lookupProp (instanceAttrs (newHost [pairProto])
        (some [("m", Val.num 3)])).1 k).prop "readOnly") = false := by
    intro c hc
    cases hc
    decide
  ⟨hwf, hsup,
    initAttrs_setter_calls doubling (newHost [pairProto]) (some [("m", Val.num 3)]) hwf hsup⟩

/-- The class `pairProto` declares `n` (default `5`) and `m` (default `7`) with a doubling
setter, `m` also with a doubling getter. Without a `config` no setter is called and the
defaults are read, `m` through its getter; with the `config` `{m: 3}` the setter is called
once, for `m` with `3`, and `n` still reads `5`. -/
theorem initAttrs_setter_calls_example :
    (initAttrs doubling (newHost [pairProto]) none).host.setterCalls = [] ∧
      get doubling (initAttrs doubling (newHost [pairProto]) none).host "n" =
        Except.ok (Val.num 5) ∧
      get doubling (initAttrs doubling (newHost [pairProto]) none).host "m" =
        Except.ok (Val.num 14) ∧
      (initAttrs doubling (newHost [pairProto]) (some [("m", Val.num 3)])).host.setterCalls =
        [("m", Val.num 3)] ∧
      get doubling (initAttrs doubling (newHost [pairProto])
        (some [("m", Val.num 3)])).host "n" = Except.ok (Val.num 5) ∧
      get doubling (initAttrs doubling (newHost [pairProto])
        (some [("m", Val.num 3)])).host "m" = Except.ok (Val.num 12) :=
  ⟨rfl, rfl, rfl, rfl, rfl, rfl⟩
end Attribute
